import Mathlib

/-!
# The scope tree of `scope.go`

A shallow embedding of the override registry of `src/scope.go`: the `Scope`
nodes live in a heap (a list of nodes, the address of a node is its index,
address `0` is the package variable `root`), Go pointers are `Option Nat`
(`none` is `nil`), Go maps are association lists wrapped in `Option` (`none`
is the nil map), and a Go panic is an explicit outcome.
-/

namespace Plug

/-! ## Go values, panics, maps -/

/-- Go interface value of type `any`, as far as `scope.go` inspects it: the nil
interface, a value of kind `reflect.Func`, or a value of any other kind. -/
inductive Value where
  | nil
  | func (id : Nat)
  | other (id : Nat)
  deriving DecidableEq, Repr

/-- The run-time panics `scope.go` can raise. -/
inductive Panic where
  /-- `panic("not a function")` of `mustFunc` -/
  | notAFunction
  /-- `reflect.Value.Type` called on the zero `reflect.Value` (from `reflect.ValueOf(nil)`) -/
  | zeroValue
  /-- assignment to an entry of a nil map -/
  | nilMap
  /-- nil pointer dereference -/
  | nilDeref
  deriving DecidableEq, Repr

/-- Outcome of running Go code: a result, a panic, or the model ran out of fuel. -/
inductive Res (α β : Type) where
  | ok (a : α)
  | panic (b : β)
  | timeout
  deriving DecidableEq, Repr

/-- Key lookup in an association list (first match). -/
def alookup {κ ν : Type} [DecidableEq κ] (k : κ) : List (κ × ν) → Option ν
  | [] => none
  | (k', v) :: l => if k' = k then some v else alookup k l

/-- Go `delete(m, k)` on a non-nil map. -/
def aerase {κ ν : Type} [DecidableEq κ] (k : κ) (l : List (κ × ν)) : List (κ × ν) :=
  l.filter (fun e => decide (e.1 ≠ k))

/-- Go `m[k] = v` on a non-nil map. -/
def ainsert {κ ν : Type} [DecidableEq κ] (k : κ) (v : ν) (l : List (κ × ν)) : List (κ × ν) :=
  (k, v) :: aerase k l

/-! ## Data model (`scope.go` lines 9-28) -/

/-- Go `type Scope struct` with fields entry, parent, refers, mocks.  The key
type `symbolKey` is declared outside `scope.go`; it is the parameter `K`. -/
structure Scope (K : Type) where
  entry : Nat
  parent : Option Nat
  refers : Option (List (Nat × Option Nat))
  mocks : Option (List (K × Value))
  deriving DecidableEq, Repr

/-- Go `type frame struct`. -/
structure frame where
  file : String
  line : Int
  entry : Nat
  deriving DecidableEq, Repr

/-- The heap of `Scope` nodes; index `0` holds `root`. -/
abbrev Heap (K : Type) := List (Scope K)

/-- The address `&root`. -/
def root : Option Nat := some 0

/-- The heap after `init()`: `root.entry = 0`, `root.parent = &root`,
`root.refers = make(...)`; `root.mocks` is left nil. -/
def init (K : Type) : Heap K :=
  [{ entry := 0, parent := some 0, refers := some [], mocks := none }]

/-- Go `s.mocks[key]` as a map entry: `none` when the key is absent or the map is nil. -/
def mockEntry {K : Type} [DecidableEq K] (N : Scope K) (key : K) : Option Value :=
  match N.mocks with
  | none => none
  | some m => alookup key m

/-- Go `v := s.mocks[key]`: the zero value `nil` when the key is absent. -/
def readMock {K : Type} [DecidableEq K] (N : Scope K) (key : K) : Value :=
  (mockEntry N key).getD Value.nil

/-- Go `s.refers[e]`: the nil pointer when the key is absent or the map is nil. -/
def readChild {K : Type} (N : Scope K) (e : Nat) : Option Nat :=
  match N.refers with
  | none => none
  | some m => (alookup e m).getD none

/-! ## Operations (`scope.go` lines 57-107) -/

/-- Go `mustFunc`: panics unless the value has kind `reflect.Func`. -/
def mustFunc (f : Value) : Res Value Panic :=
  match f with
  | Value.nil => Res.panic Panic.zeroValue
  | Value.func id => Res.ok (Value.func id)
  | Value.other _ => Res.panic Panic.notAFunction

/-- Go `lookupScope(s, frames)`.  A panic carries the heap at the time of the panic. -/
def lookupScope {K : Type} :
    Heap K → Option Nat → List frame → Res (Heap K × Option Nat) (Panic × Heap K)
  | h, s, [] => Res.ok (h, s)
  | h, s, fr :: frames =>
    match s with
    | none => Res.panic (Panic.nilDeref, h)
    | some a =>
      match h[a]? with
      | none => Res.panic (Panic.nilDeref, h)
      | some N =>
        match readChild N fr.entry with
        | some p => lookupScope h (some p) frames
        | none =>
          match N.refers with
          | none => Res.panic (Panic.nilMap, h)
          | some m =>
            let p := h.length
            let h1 := h ++ [{ entry := fr.entry, parent := some a, refers := some [],
                              mocks := some [] }]
            let h2 := h1.set a { N with refers := some (ainsert fr.entry (some p) m) }
            lookupScope h2 (some p) frames

/-- The loop `for _, p := range s.refers { p.Delete() }` of the node at address
`a`, over a snapshot `keys` of the keys: an entry removed before it is reached is
not produced; `del` is the recursive call. -/
def rangeRefers {K : Type} (del : Heap K → Option Nat → Res (Heap K) (Panic × Heap K))
    (a : Nat) : List Nat → Heap K → Res (Heap K) (Panic × Heap K)
  | [], h => Res.ok h
  | e :: es, h =>
    match h[a]? with
    | none => Res.panic (Panic.nilDeref, h)
    | some N =>
      match N.refers with
      | none => Res.ok h
      | some m =>
        match alookup e m with
        | none => rangeRefers del a es h
        | some p =>
          match del h p with
          | Res.ok h1 => rangeRefers del a es h1
          | Res.panic b => Res.panic b
          | Res.timeout => Res.timeout

/-- Go `(s *Scope) Delete()`; `fuel` bounds the depth of the recursion. -/
def Scope.Delete {K : Type} :
    Nat → Heap K → Option Nat → Res (Heap K) (Panic × Heap K)
  | 0, _, _ => Res.timeout
  | fuel + 1, h, s =>
    match s with
    | none => Res.panic (Panic.nilDeref, h)
    | some a =>
      match h[a]? with
      | none => Res.panic (Panic.nilDeref, h)
      | some N =>
        let h1 := h.set a { N with mocks := N.mocks.map (fun _ => []) }
        let keys := match N.refers with
          | none => []
          | some m => m.map Prod.fst
        match rangeRefers (fun h' p => Scope.Delete fuel h' p) a keys h1 with
        | Res.panic b => Res.panic b
        | Res.timeout => Res.timeout
        | Res.ok h2 =>
          match h2[a]? with
          | none => Res.panic (Panic.nilDeref, h2)
          | some N2 =>
            match N2.parent with
            | none => Res.panic (Panic.nilDeref, h2)
            | some p =>
              match h2[p]? with
              | none => Res.panic (Panic.nilDeref, h2)
              | some P =>
                let h3 := h2.set p { P with refers := P.refers.map (aerase N2.entry) }
                match h3[a]? with
                | none => Res.panic (Panic.nilDeref, h3)
                | some N3 => Res.ok (h3.set a { N3 with parent := none })

/-- Go `(s *Scope) set(key, v)`. -/
def Scope.set {K : Type} [DecidableEq K] (h : Heap K) (s : Option Nat) (key : K) (v : Value) :
    Res (Heap K) (Panic × Heap K) :=
  match mustFunc v with
  | Res.panic e => Res.panic (e, h)
  | Res.timeout => Res.timeout
  | Res.ok _ =>
    match s with
    | none => Res.panic (Panic.nilDeref, h)
    | some a =>
      match h[a]? with
      | none => Res.panic (Panic.nilDeref, h)
      | some N =>
        match N.mocks with
        | none => Res.panic (Panic.nilMap, h)
        | some m => Res.ok (h.set a { N with mocks := some (ainsert key v m) })

/-- The loop `for s != &root { ... s = s.parent }` of `get`; `fuel` bounds the
number of iterations. -/
def getLoop {K : Type} [DecidableEq K] (h : Heap K) (key : K) (dflt : Value) :
    Nat → Option Nat → Res Value Panic
  | fuel, s =>
    if s = root then Res.ok dflt
    else
      match fuel with
      | 0 => Res.timeout
      | fuel + 1 =>
        match s with
        | none => Res.panic Panic.nilDeref
        | some a =>
          match h[a]? with
          | none => Res.panic Panic.nilDeref
          | some N =>
            if readMock N key ≠ Value.nil then Res.ok (readMock N key)
            else getLoop h key dflt fuel N.parent

/-- Go `(s *Scope) get(key, dflt)`. -/
def Scope.get {K : Type} [DecidableEq K] (h : Heap K) (s : Option Nat) (key : K)
    (dflt : Value) (fuel : Nat) : Res Value Panic :=
  match mustFunc dflt with
  | Res.panic e => Res.panic e
  | Res.timeout => Res.timeout
  | Res.ok _ => getLoop h key dflt fuel s

/-! ## Specification vocabulary -/

/-- `Seg h s c t`: following `parent` from the pointer `s`, the list `c` holds the
nodes that are visited, none of them the root, and the walk then stands on `t`. -/
def Seg {K : Type} (h : Heap K) : Option Nat → List Nat → Option Nat → Prop
  | s, [], t => s = t
  | s, a :: c, t => s = some a ∧ a ≠ 0 ∧ ∃ N, h[a]? = some N ∧ Seg h N.parent c t

/-- `IsChain h s c`: `c` is the chain `s, s.parent, ...` up to but excluding the
root, and the chain reaches the root.  This is what makes `s` a live scope. -/
def IsChain {K : Type} (h : Heap K) (s : Option Nat) (c : List Nat) : Prop :=
  Seg h s c root

/-- The heap with the override table of `root` replaced by `m`. -/
def withRootMocks {K : Type} (h : Heap K) (m : Option (List (K × Value))) : Heap K :=
  match h with
  | [] => []
  | R :: t => { R with mocks := m } :: t

/-- The entry field of the node at address `b`. -/
def entryOf {K : Type} (h : Heap K) (b : Nat) : Option Nat :=
  (h[b]?).map Scope.entry

/-- Well-formedness of the scope tree: the root is its own parent; every node has
a child table and every non-root node an override table; a non-root node that has
a parent was allocated after it and is registered in its parent's child table
under its own entry; and every entry `e -> c` of a child table points to a
non-root node `c` with `c.entry = e` and `c.parent` the holder of the table. -/
structure WF {K : Type} (h : Heap K) : Prop where
  root : ∃ R, h[0]? = some R ∧ R.entry = 0 ∧ R.parent = some 0
  maps : ∀ a N, h[a]? = some N → N.refers ≠ none ∧ (a ≠ 0 → N.mocks ≠ none)
  up : ∀ b N p, h[b]? = some N → b ≠ 0 → N.parent = some p →
    p < b ∧ ∃ P, h[p]? = some P ∧ readChild P N.entry = some b
  down : ∀ a N m e c, h[a]? = some N → N.refers = some m → alookup e m = some c →
    ∃ b C, c = some b ∧ b ≠ 0 ∧ h[b]? = some C ∧ C.entry = e ∧ C.parent = some a

/-- `Ext h h1`: the heap `h1` extends `h` the way `lookupScope` does: old nodes
keep entry, parent and override table, their child tables only gain entries, and
the nodes that are new have an empty override table. -/
def Ext {K : Type} (h h1 : Heap K) : Prop :=
  h.length ≤ h1.length ∧
  (∀ (b : Nat) (N : Scope K), h[b]? = some N → ∃ N1, h1[b]? = some N1 ∧ N1.entry = N.entry ∧
      N1.parent = N.parent ∧ N1.mocks = N.mocks ∧
      ∀ e c, readChild N e = some c → readChild N1 e = some c) ∧
  (∀ (b : Nat) (N1 : Scope K), h.length ≤ b → h1[b]? = some N1 → N1.mocks = some [])

/-- The pointer reached from `s` by following `parent` `n` times. -/
def ancestor {K : Type} (h : Heap K) : Nat → Option Nat → Option Nat
  | 0, s => s
  | n + 1, s =>
    match s with
    | none => none
    | some a =>
      match h[a]? with
      | none => none
      | some N => ancestor h n N.parent

/-- `Desc h a b`: the node `b` is `a` itself or a descendant of `a`, that is, the
parent chain of `b` passes through `a`.  (In a well-formed tree a node is in the
child table of its parent, so this is the subtree below `a`.) -/
inductive Desc {K : Type} (h : Heap K) (a : Nat) : Nat → Prop where
  | refl : Desc h a a
  | step (b q : Nat) (N : Scope K) :
      h[b]? = some N → N.parent = some q → Desc h a q → Desc h a b

/-- The node `N` once `Delete` is through with it: override table cleared, no
children left, parent set to nil. -/
def detached {K : Type} (N : Scope K) : Scope K :=
  { entry := N.entry, parent := none, refers := some [], mocks := some [] }

/-- `Deleted h a e p h1`: the heap `h1` is `h` with the subtree of `a` detached
and the entry `e` removed from the child table of `p`; nothing else differs. -/
def Deleted {K : Type} (h : Heap K) (a e p : Nat) (h1 : Heap K) : Prop :=
  h1.length = h.length ∧
  ∀ (b : Nat) (B : Scope K), h[b]? = some B →
    (Desc h a b → h1[b]? = some (detached B)) ∧
    (¬ Desc h a b → b ≠ p → h1[b]? = some B) ∧
    (b = p → h1[b]? = some { B with refers := B.refers.map (aerase e) })

/-- `Aff h1 m done b`: the node `b` lies below a child that the child table `m`
lists under one of the keys in `done`. -/
def Aff {K : Type} (h1 : Heap K) (m : List (Nat × Option Nat)) (done : List Nat)
    (b : Nat) : Prop :=
  ∃ e ∈ done, ∃ c, alookup e m = some (some c) ∧ Desc h1 c b

/-- Invariant of the `range` loop of `Delete` on the node `a` with child table
`m`, started in the heap `h1`: after the keys `done` the subtrees of the children
under these keys are detached, `a` has lost exactly these keys, and every other
node is untouched. -/
def RangeInv {K : Type} (h1 : Heap K) (a : Nat) (m : List (Nat × Option Nat))
    (done : List Nat) (hi : Heap K) : Prop :=
  WF hi ∧ hi.length = h1.length ∧
  ∀ (b : Nat) (B : Scope K), h1[b]? = some B →
    (Aff h1 m done b → hi[b]? = some (detached B)) ∧
    (¬ Aff h1 m done b → b ≠ a → hi[b]? = some B) ∧
    (b = a → hi[b]? = some { B with refers := some (m.filter (fun x => decide (x.1 ∉ done))) })

/-- `Grow h h1`: every node of `h` is still there in `h1` with the same entry and
parent, and its child table has kept its entries. -/
def Grow {K : Type} (h h1 : Heap K) : Prop :=
  ∀ (b : Nat) (N : Scope K), h[b]? = some N → ∃ N1, h1[b]? = some N1 ∧
    N1.entry = N.entry ∧ N1.parent = N.parent ∧
    ∀ e c, readChild N e = some c → readChild N1 e = some c

/-- `NoOverride h k ex`: no node of `h` outside the list `ex` has an entry for the
key `k` in its override table. -/
def NoOverride {K : Type} [DecidableEq K] (h : Heap K) (k : K) (ex : List Nat) : Prop :=
  ∀ (b : Nat) (N : Scope K), h[b]? = some N → b ∉ ex → mockEntry N k = none

/-- What the generated stub does on a call from path `p` (`gen.go` lines 101-119):
`scope := NewScope(1)`, here the acquisition `lookupScope(&root, p)`;
`defer scope.Delete()`; `f := Get(scope, s, ...)`; the result is `f`.  The
deferred `Delete` also runs when `get` panics. -/
def dispatch {K : Type} [DecidableEq K] (h : Heap K) (p : List frame) (k : K) (f : Value)
    (fuel : Nat) : Res (Value × Heap K) (Panic × Heap K) :=
  match lookupScope h root p with
  | Res.panic b => Res.panic b
  | Res.timeout => Res.timeout
  | Res.ok (h1, s) =>
    match Scope.get h1 s k f fuel with
    | Res.timeout => Res.timeout
    | Res.panic e =>
      match Scope.Delete fuel h1 s with
      | Res.ok h2 => Res.panic (e, h2)
      | Res.panic b => Res.panic b
      | Res.timeout => Res.timeout
    | Res.ok r =>
      match Scope.Delete fuel h1 s with
      | Res.ok h2 => Res.ok (r, h2)
      | Res.panic b => Res.panic b
      | Res.timeout => Res.timeout

/-- A frame of the function with entry `e`. -/
def frameOf (e : Nat) : frame :=
  { file := "main.go", line := 1, entry := e }

/-- A small well-formed tree used to instantiate the theorems: the root, the
node of path `[1]` holding an override for key `7`, and the node of path `[1, 2]`. -/
def exHeap : Heap Nat :=
  [ { entry := 0, parent := some 0, refers := some [(1, some 1)], mocks := none },
    { entry := 1, parent := some 0, refers := some [(2, some 2)],
      mocks := some [(7, Value.func 42)] },
    { entry := 2, parent := some 1, refers := some [], mocks := some [] } ]

/-- The initial tree after `lookupScope(&root, [1])`. -/
def treeA : Heap Nat :=
  [ { entry := 0, parent := some 0, refers := some [(1, some 1)], mocks := none },
    { entry := 1, parent := some 0, refers := some [], mocks := some [] } ]

/-- The tree `treeA` after `set(7, 42)` on the node of path `[1]`. -/
def treeB : Heap Nat :=
  [ { entry := 0, parent := some 0, refers := some [(1, some 1)], mocks := none },
    { entry := 1, parent := some 0, refers := some [], mocks := some [(7, Value.func 42)] } ]

/-- The tree `treeB` after `lookupScope(&root, [1, 1])`. -/
def treeC : Heap Nat :=
  [ { entry := 0, parent := some 0, refers := some [(1, some 1)], mocks := none },
    { entry := 1, parent := some 0, refers := some [(1, some 2)],
      mocks := some [(7, Value.func 42)] },
    { entry := 1, parent := some 1, refers := some [], mocks := some [] } ]

/-- The tree `treeB` after one dispatch from path `[1]`: the node is detached. -/
def treeD : Heap Nat :=
  [ { entry := 0, parent := some 0, refers := some [], mocks := none },
    { entry := 1, parent := none, refers := some [], mocks := some [] } ]

/-- The tree `treeD` after a second dispatch from path `[1]`. -/
def treeE : Heap Nat :=
  [ { entry := 0, parent := some 0, refers := some [], mocks := none },
    { entry := 1, parent := none, refers := some [], mocks := some [] },
    { entry := 1, parent := none, refers := some [], mocks := some [] } ]

/-- The tree `treeD` after `set(7, 5)` on its detached node `1`. -/
def treeF : Heap Nat :=
  [ { entry := 0, parent := some 0, refers := some [], mocks := none },
    { entry := 1, parent := none, refers := some [], mocks := some [(7, Value.func 5)] } ]

/-! ## Stack capture (`scope.go` lines 30-55)

The Go runtime is not part of the repository.  It is modelled from the
documentation of package `runtime`: a call stack is the list of its frames,
innermost first, the frame of `runtime.Callers` itself at index `0`; a program
counter stands for one frame (no inlining). -/

/-- The zero `runtime.Frame` that `Frames.Next` returns when no frame is left,
copied into a `frame` by `getFrames`. -/
def zeroFrame : frame :=
  { file := "", line := 0, entry := 0 }

/-- Go `runtime.Callers(skip, pc)` with `len(pc) = n`: the frames recorded after
skipping `skip` frames, at most `n` of them. -/
def Callers (stack : List frame) (skip n : Nat) : List frame :=
  (stack.drop skip).take n

/-- The loop `for { f, more := frames.Next(); a = append(a, ...); if !more { break } }`
of `getFrames` over the frames still to be returned: `Next` on an exhausted
iterator returns the zero frame and `more = false`, on the last frame it returns
that frame and `more = false`. -/
def getFramesLoop : List frame → List frame → List frame
  | [], a => a ++ [zeroFrame]
  | [x], a => a ++ [x]
  | x :: y :: r, a => getFramesLoop (y :: r) (a ++ [x])

/-- Go `getFrames(skip)`, called with the stack `stack`: the buffer holds 100
program counters. -/
def getFrames (stack : List frame) (skip : Nat) : List frame :=
  getFramesLoop (Callers stack (skip + 2) 100) []

/-- Go `newScope(skip)`, called with the stack `stack`. -/
def newScope {K : Type} (h : Heap K) (stack : List frame) (skip : Nat) :
    Res (Heap K × Option Nat) (Panic × Heap K) :=
  lookupScope h root (getFrames stack (skip + 1)).reverse

/-- A stack that ends with the caller of `newScope`: only the frames of
`runtime.Callers`, `getFrames` and `newScope`. -/
def plumbing : List frame :=
  [frameOf 100, frameOf 101, frameOf 102]

/-- The initial tree after `lookupScope(&root, [zeroFrame])`. -/
def treeZ : Heap Nat :=
  [ { entry := 0, parent := some 0, refers := some [(0, some 1)], mocks := none },
    { entry := 0, parent := some 0, refers := some [], mocks := some [] } ]

/-! ## The rewriter (`cmd/plug/gen.go` lines 73-184)

Package `go/types` is not part of the repository.  What `gen.go` uses of it is
modelled from its documentation: a package, a type as far as `typeStr` tells
types apart, a variable, a type parameter and a signature.  What `rewriteFunc`
writes to `w` is the list of its writes, in order; the emitted text is their
concatenation. -/

/-- Go `*types.Package`: import path and name. -/
structure Package where
  path : String
  name : String
  deriving DecidableEq, Repr

/-- Go `types.Type`, by the cases of `typeStr`: a named type (its package, nil
for a universe type, its name and its underlying type; type arguments are not
modelled), a pointer, a basic type, a slice, and any other type, which carries
the text its `String` method prints. -/
inductive GoType where
  | named (pkg : Option Package) (name : String) (under : GoType)
  | pointer (elem : GoType)
  | basic (name : String)
  | slice (elem : GoType)
  | other (str : String)
  deriving Repr

/-- Go `Type.Underlying()`: the underlying type of a named type; every other
type is its own underlying type. -/
def GoType.Underlying : GoType → GoType
  | GoType.named _ _ u => u
  | t => t

/-- Go `relativeNameTo(pkg)`: the nil qualifier for a nil package, otherwise the
qualifier that prints nothing for `pkg` itself and the name of any other
package. -/
def relativeNameTo (pkg : Option Package) : Option (Package → String) :=
  match pkg with
  | none => none
  | some p => some (fun other => if p = other then "" else other.name)

/-- Go `types.TypeString` on a named type without type arguments: the package
qualifier (the import path under the nil qualifier), followed by a dot when it
is not empty, and the name of the type. -/
def TypeString (pkg : Option Package) (name : String) (qf : Option (Package → String)) :
    String :=
  (match pkg with
    | none => ""
    | some p =>
      let s := match qf with
        | some q => q p
        | none => p.path
      if s = "" then "" else s ++ ".") ++ name

/-- Go `typeStr(t, pkg)`. -/
def typeStr (t : GoType) (pkg : Option Package) : String :=
  match t with
  | GoType.named p n _ => TypeString p n (relativeNameTo pkg)
  | GoType.pointer e => "*" ++ typeStr e pkg
  | GoType.basic n => n
  | GoType.slice e => "[]" ++ typeStr e pkg
  | GoType.other s => s

/-- Go `*types.Var`: name and type. -/
structure Var where
  name : String
  typ : GoType
  deriving Repr

/-- Go `*types.TypeParam`: the name of its object and its constraint. -/
structure TypeParam where
  name : String
  constraint : GoType
  deriving Repr

/-- Go `*types.Signature`: receiver (nil for a function), type parameter list
(nil when there is none), parameters and results (a nil tuple is the empty list:
`printVars` and `recordParams` write nothing for either). -/
structure Signature where
  recv : Option Var
  typeParams : Option (List TypeParam)
  params : List Var
  results : List Var
  deriving Repr

/-- Modelled from the spec: the type `Func` is declared outside `gen.go`; of a
function declaration `rewriteFunc` reads the declaring package `fn.pkg.Pkg`, the
name `fn.fn.Name()`, the key `fn.name` and the signature `fn.fn.Type()`. -/
structure Func where
  pkg : Option Package
  fnName : String
  name : String
  sig : Signature
  deriving Repr

/-- Go `%q` of `fmt` on a string that needs no escape, as a Go identifier does:
the string in double quotes. -/
def quote (s : String) : String :=
  "\"" ++ s ++ "\""

/-- Go `printVars(w, vars, pkg)`: the writes, and the returned names. -/
def printVars (vars : List Var) (pkg : Option Package) : List String × List String :=
  (vars.map (fun v => v.name ++ " " ++ typeStr v.typ pkg ++ ","), vars.map (fun v => v.name))

/-- Go `recordParams(w, params)`: the writes. -/
def recordParams : List Var → List String
  | [] => []
  | v :: vs =>
    if v.name = "_" then recordParams vs
    else ("\t\t" ++ quote v.name ++ ": " ++ v.name ++ ",\n") :: recordParams vs

/-- Go `printTypeParams(w, params, pkg)`: the writes, and the returned names. -/
def printTypeParams (params : List TypeParam) (pkg : Option Package) :
    List String × List String :=
  (params.map (fun v => v.name ++ " " ++ typeStr v.constraint pkg ++ ","),
    params.map (fun v => v.name))

/-- The receiver prefix `recvName` of `rewriteFunc`. -/
def recvName (sig : Signature) : String :=
  match sig.recv with
  | some recv => recv.name ++ "."
  | none => ""

/-- The names `typeParams` that `rewriteFunc` gets from `printTypeParams`. -/
def typeParamNames (fn : Func) : List String :=
  match fn.sig.typeParams with
  | some params => (printTypeParams params fn.pkg).2
  | none => []

/-- Go `rewriteFunc`, lines 78-100: the writes of the declaration line. -/
def stubHeader (fn : Func) : List String :=
  ["func "] ++
  (match fn.sig.recv with
    | some recv => ["(" ++ recv.name ++ " " ++ typeStr recv.typ.Underlying fn.pkg ++ ") "]
    | none => []) ++
  [fn.fnName] ++
  (match fn.sig.typeParams with
    | some params => ["["] ++ (printTypeParams params fn.pkg).1 ++ ["]"]
    | none => []) ++
  ["("] ++ (printVars fn.sig.params fn.pkg).1 ++ [") ("] ++
  (printVars fn.sig.results fn.pkg).1 ++ [") \x7b\n"]

/-- Go `rewriteFunc`, lines 101-120: the writes of the body and the closing brace. -/
def stubBody (fn : Func) : List String :=
  ["\tscope := plugcore.NewScope(1)\n", "\tdefer scope.Delete()\n"] ++
  (if (typeParamNames fn).length = 0 then
    ["\ts := plugcore.Func(" ++ quote fn.name ++ ", " ++ recvName fn.sig ++ "_" ++ fn.fnName
        ++ ")\n",
      "\tf := plugcore.Get(scope, s, " ++ recvName fn.sig ++ "_" ++ fn.fnName
        ++ ", nil, plugcore.Params\x7b\n"] ++
    recordParams fn.sig.params ++ ["\t\x7d)\n"]
  else
    ["\ts := plugcore.Func(" ++ quote fn.name ++ ", " ++ recvName fn.sig ++ "_" ++ fn.fnName
        ++ "[" ++ String.intercalate ", " (typeParamNames fn) ++ "])\n",
      "\tf := plugcore.Get(scope, s, " ++ recvName fn.sig ++ "_" ++ fn.fnName
        ++ "[" ++ String.intercalate ", " (typeParamNames fn) ++ "], nil, plugcore.Params\x7b\n"]
    ++ recordParams fn.sig.params ++ ["\t\x7d)\n"]) ++
  (if (printVars fn.sig.results fn.pkg).2.length = 0 then
    ["\tf(" ++ String.intercalate ", " (printVars fn.sig.params fn.pkg).2 ++ ")\n"]
  else
    ["\treturn f(" ++ String.intercalate ", " (printVars fn.sig.params fn.pkg).2 ++ ")\n"]) ++
  ["\x7d\n"]

/-- Go `rewriteFunc(w, fn)`: the writes to `w`, in order. -/
def rewriteFunc (fn : Func) : List String :=
  stubHeader fn ++ stubBody fn

/-- The package of the example declarations. -/
def geom : Package :=
  { path := "example.com/geom", name := "geom" }

/-- The named type `Point` of package `geom`, a struct. -/
def pointType : GoType :=
  GoType.named (some geom) "Point" (GoType.other "struct\x7bX int\x7d")

/-- The method `func (p Point) Len() int` of package `geom`. -/
def lenMethod : Func :=
  { pkg := some geom, fnName := "Len", name := "geom.Point.Len",
    sig := { recv := some { name := "p", typ := pointType }, typeParams := none,
             params := [], results := [{ name := "", typ := GoType.basic "int" }] } }

/-- The function `func Log(msg string, _ int)` of package `geom`: no results. -/
def logFunc : Func :=
  { pkg := some geom, fnName := "Log", name := "geom.Log",
    sig := { recv := none, typeParams := none,
             params := [{ name := "msg", typ := GoType.basic "string" },
                        { name := "_", typ := GoType.basic "int" }],
             results := [] } }

/-! ## Histories of the scope tree -/

/-- The non-empty prefixes of a path of entries. -/
def nonEmptyPrefixes (l : List Nat) : List (List Nat) :=
  (List.range l.length).map (fun i => l.take (i + 1))

/-- `Live h a path`: the node `a` has a parent chain that reaches the root, and
the entries on it, read from the root down, are `path`.  The root is live with
the empty path. -/
def Live {K : Type} (h : Heap K) (a : Nat) (path : List Nat) : Prop :=
  ∃ c, IsChain h (some a) c ∧ c.map (entryOf h) = (path.map some).reverse

/-- `Run h P`: the heap `h` is reached from the heap after `init()` by a sequence
of `lookupScope(&root, p)`, `set`, `get` and `Delete` on live non-root nodes;
`P` lists the paths that were acquired (with their non-empty prefixes) and have
not been deleted since. -/
inductive Run {K : Type} [DecidableEq K] : Heap K → List (List Nat) → Prop where
  | init : Run (init K) []
  | acquire (h : Heap K) (P : List (List Nat)) (p : List frame) (h1 : Heap K)
      (r : Option Nat) : Run h P → lookupScope h root p = Res.ok (h1, r) →
      Run h1 (P ++ nonEmptyPrefixes (p.map (fun fr => fr.entry)))
  | set (h : Heap K) (P : List (List Nat)) (s : Option Nat) (k : K) (v : Value)
      (h1 : Heap K) : Run h P → Scope.set h s k v = Res.ok h1 → Run h1 P
  | get (h : Heap K) (P : List (List Nat)) (s : Option Nat) (k : K) (d : Value)
      (fuel : Nat) (r : Res Value Panic) : Run h P → Scope.get h s k d fuel = r → Run h P
  | delete (h : Heap K) (P : List (List Nat)) (a : Nat) (path : List Nat) (fuel : Nat)
      (h1 : Heap K) : Run h P → a ≠ 0 → Live h a path →
      Scope.Delete fuel h (some a) = Res.ok h1 →
      Run h1 (P.filter (fun q => decide (¬ path <+: q)))

/-! ## Resolution: `get` -/

theorem getLoop_root {K : Type} [DecidableEq K] (h : Heap K) (k : K) (d : Value) (n : Nat) :
    getLoop h k d n root = Res.ok d := by
  cases n <;> simp [getLoop]

theorem readMock_of_no_entry {K : Type} [DecidableEq K] (N : Scope K) (k : K)
    (hN : mockEntry N k = none) : readMock N k = Value.nil := by
  simp [readMock, hN]

theorem getLoop_seg {K : Type} [DecidableEq K] (h : Heap K) (k : K) (d : Value) (n : Nat) :
    ∀ (c : List Nat) (s t : Option Nat), Seg h s c t →
      (∀ a ∈ c, ∀ N, h[a]? = some N → mockEntry N k = none) →
      getLoop h k d (c.length + n) s = getLoop h k d n t := by
  intro c
  induction c with
  | nil =>
    intro s t hs _
    simp only [Seg] at hs
    simp [hs]
  | cons a c ih =>
    intro s t hs hno
    obtain ⟨rfl, ha, N, hN, hrest⟩ := hs
    have hne : (some a : Option Nat) ≠ root := by
      simp [root, ha]
    have hread : readMock N k = Value.nil :=
      readMock_of_no_entry N k (hno a (List.mem_cons_self a c) N hN)
    have hlen : (a :: c).length + n = (c.length + n) + 1 := by
      simp only [List.length_cons]; omega
    rw [hlen, getLoop]
    simp only [hne, if_false, hN, hread, ne_eq, not_true_eq_false]
    exact ih N.parent t hrest (fun b hb => hno b (List.mem_cons_of_mem a hb))

theorem getLoop_hit {K : Type} [DecidableEq K] (h : Heap K) (k : K) (d g : Value) (n t : Nat)
    (N : Scope K) (ht : t ≠ 0) (hN : h[t]? = some N) (hg : mockEntry N k = some g)
    (hnil : g ≠ Value.nil) : getLoop h k d (n + 1) (some t) = Res.ok g := by
  have hne : (some t : Option Nat) ≠ root := by
    simp [root, ht]
  have hread : readMock N k = g := by simp [readMock, hg]
  rw [getLoop]
  simp [hne, hN, hread, hnil]

/-- The loop of `get` falls through to the default when the chain of `s` holds
no entry for the key. -/
theorem getLoop_fallback {K : Type} [DecidableEq K] (h : Heap K) (s : Option Nat)
    (c : List Nat) (k : K) (d : Value) (fuel : Nat) (hc : IsChain h s c)
    (hno : ∀ a ∈ c, ∀ N, h[a]? = some N → mockEntry N k = none)
    (hfuel : c.length ≤ fuel) : getLoop h k d fuel s = Res.ok d := by
  obtain ⟨n, rfl⟩ : ∃ n, fuel = c.length + n := ⟨fuel - c.length, by omega⟩
  rw [getLoop_seg h k d n c s root hc hno, getLoop_root]

/-- C1: for a live scope `s` (its parent chain `c` reaches the root) whose chain
holds no entry for `k` in any override table, `s.get(k, f)` with a callable
fallback `f` returns `f`, for every fuel that covers the length of the chain. -/
theorem get_returns_fallback {K : Type} [DecidableEq K] (h : Heap K) (s : Option Nat)
    (c : List Nat) (k : K) (f fuel : Nat) (hc : IsChain h s c)
    (hno : ∀ a ∈ c, ∀ N, h[a]? = some N → mockEntry N k = none)
    (hfuel : c.length ≤ fuel) :
    Scope.get h s k (Value.func f) fuel = Res.ok (Value.func f) := by
  have hmust : mustFunc (Value.func f) = Res.ok (Value.func f) := rfl
  simp only [Scope.get, hmust]
  exact getLoop_fallback h s c k (Value.func f) fuel hc hno hfuel

/-- Witness of C1 on `exHeap`: key `8` has no override on the chain of node `2`. -/
theorem get_returns_fallback_witness :
    IsChain exHeap (some 2) [2, 1] ∧
      Scope.get exHeap (some 2) 8 (Value.func 9) 2 = Res.ok (Value.func 9) :=
  have hc : IsChain exHeap (some 2) [2, 1] :=
    ⟨rfl, by decide, _, rfl, rfl, by decide, _, rfl, rfl⟩
  ⟨hc, get_returns_fallback exHeap (some 2) [2, 1] 8 9 2 hc
    (by
      intro a ha N hN
      simp only [List.mem_cons, List.mem_singleton, List.not_mem_nil, or_false] at ha
      rcases ha with rfl | rfl
      · simp only [exHeap, List.getElem?_cons_succ, List.getElem?_cons_zero,
          Option.some.injEq] at hN
        subst hN
        rfl
      · simp only [exHeap, List.getElem?_cons_succ, List.getElem?_cons_zero,
          Option.some.injEq] at hN
        subst hN
        rfl)
    (by decide)⟩

theorem seg_append_split {K : Type} (h : Heap K) :
    ∀ (c1 c2 : List Nat) (s t : Option Nat), Seg h s (c1 ++ c2) t →
      ∃ m, Seg h s c1 m ∧ Seg h m c2 t := by
  intro c1
  induction c1 with
  | nil =>
    intro c2 s t hs
    exact ⟨s, rfl, hs⟩
  | cons a c1 ih =>
    intro c2 s t hs
    obtain ⟨hsa, ha, N, hN, hrest⟩ := hs
    obtain ⟨m, h1, h2⟩ := ih c2 N.parent t hrest
    exact ⟨m, ⟨hsa, ha, N, hN, h1⟩, h2⟩

/-- C2: if `t` is the first node on the chain of a live non-root scope `s` whose
override table has an entry for `k`, and that entry is the (non-nil) value `g`,
then `s.get(k, f)` returns `g`, whatever the nodes above `t` hold. -/
theorem get_returns_nearest_override {K : Type} [DecidableEq K] (h : Heap K)
    (s : Option Nat) (pre post : List Nat) (t : Nat) (N : Scope K) (k : K) (g : Value)
    (f fuel : Nat) (hc : IsChain h s (pre ++ t :: post))
    (hpre : ∀ a ∈ pre, ∀ M, h[a]? = some M → mockEntry M k = none)
    (hN : h[t]? = some N) (hg : mockEntry N k = some g) (hnil : g ≠ Value.nil)
    (hfuel : pre.length < fuel) :
    Scope.get h s k (Value.func f) fuel = Res.ok g := by
  obtain ⟨n, rfl⟩ : ∃ n, fuel = pre.length + (n + 1) := ⟨fuel - pre.length - 1, by omega⟩
  obtain ⟨m, h1, h2⟩ := seg_append_split h pre (t :: post) s root hc
  obtain ⟨rfl, ht, _, _, _⟩ := h2
  simp only [Scope.get, mustFunc]
  rw [getLoop_seg h k (Value.func f) (n + 1) pre s (some t) h1 hpre]
  exact getLoop_hit h k (Value.func f) g n t N ht hN hg hnil

/-- Witness of C2 on `exHeap`: from node `2` the nearest override for key `7` is
the one of node `1`. -/
theorem get_returns_nearest_override_witness :
    IsChain exHeap (some 2) ([2] ++ 1 :: []) ∧
      Scope.get exHeap (some 2) 7 (Value.func 9) 2 = Res.ok (Value.func 42) :=
  have hc : IsChain exHeap (some 2) ([2] ++ 1 :: []) :=
    ⟨rfl, by decide, _, rfl, rfl, by decide, _, rfl, rfl⟩
  ⟨hc, get_returns_nearest_override exHeap (some 2) [2] [] 1 _ 7 (Value.func 42) 9 2 hc
    (by
      intro a ha M hM
      simp only [List.mem_singleton] at ha
      subst ha
      simp only [exHeap, List.getElem?_cons_succ, List.getElem?_cons_zero,
        Option.some.injEq] at hM
      subst hM
      rfl)
    rfl rfl (by decide) (by decide)⟩

theorem withRootMocks_getElem {K : Type} (h : Heap K) (m : Option (List (K × Value)))
    (a : Nat) (ha : a ≠ 0) : (withRootMocks h m)[a]? = h[a]? := by
  cases h with
  | nil => rfl
  | cons R t =>
    cases a with
    | zero => exact absurd rfl ha
    | succ b => simp [withRootMocks]

theorem getLoop_withRootMocks {K : Type} [DecidableEq K] (h : Heap K)
    (m : Option (List (K × Value))) (k : K) (d : Value) :
    ∀ (fuel : Nat) (s : Option Nat),
      getLoop (withRootMocks h m) k d fuel s = getLoop h k d fuel s := by
  intro fuel
  induction fuel with
  | zero =>
    intro s
    simp [getLoop]
  | succ n ih =>
    intro s
    by_cases hs : s = root
    · subst hs
      rw [getLoop_root, getLoop_root]
    · cases s with
      | none => simp [getLoop, hs]
      | some a =>
        have ha : a ≠ 0 := by
          intro h0
          exact hs (by rw [h0]; rfl)
        rw [getLoop, getLoop]
        simp only [hs, if_false, withRootMocks_getElem h m a ha]
        cases h[a]? with
        | none => rfl
        | some N =>
          simp only [ih]

/-- C3: `get` never consults the override table of the root: on the root it
returns the callable fallback `f`, and from any scope `s` its result is the same
whatever the root's override table `m` holds. -/
theorem get_never_consults_root {K : Type} [DecidableEq K] (h : Heap K) (s : Option Nat)
    (k : K) (f fuel : Nat) (m : Option (List (K × Value))) :
    Scope.get h root k (Value.func f) fuel = Res.ok (Value.func f) ∧
      Scope.get (withRootMocks h m) s k (Value.func f) fuel
        = Scope.get h s k (Value.func f) fuel := by
  constructor
  · simp only [Scope.get, mustFunc, getLoop_root]
  · simp only [Scope.get, mustFunc, getLoop_withRootMocks]

/-! ## Association lists -/

theorem alookup_filter {κ ν : Type} [DecidableEq κ] (P : κ → Bool) (k : κ) :
    ∀ (l : List (κ × ν)),
      alookup k (l.filter (fun e => P e.1)) = if P k then alookup k l else none := by
  intro l
  induction l with
  | nil => simp [alookup]
  | cons x l ih =>
    obtain ⟨k1, v⟩ := x
    by_cases hP : P k1 = true
    · rw [List.filter_cons_of_pos (by simpa using hP)]
      by_cases hk : k1 = k
      · subst hk
        simp [alookup, hP]
      · simp [alookup, hk, ih]
    · rw [List.filter_cons_of_neg (by simpa using hP)]
      by_cases hk : k1 = k
      · subst hk
        simp [ih, hP]
      · simp [alookup, hk, ih]

theorem alookup_aerase_self {κ ν : Type} [DecidableEq κ] (k : κ) (l : List (κ × ν)) :
    alookup k (aerase k l) = none := by
  have := alookup_filter (fun x => decide (x ≠ k)) k l
  simpa [aerase] using this

theorem alookup_aerase_ne {κ ν : Type} [DecidableEq κ] (k k1 : κ) (l : List (κ × ν))
    (hk : k1 ≠ k) : alookup k1 (aerase k l) = alookup k1 l := by
  have := alookup_filter (fun x => decide (x ≠ k)) k1 l
  simpa [aerase, hk] using this

theorem alookup_ainsert_self {κ ν : Type} [DecidableEq κ] (k : κ) (v : ν)
    (l : List (κ × ν)) : alookup k (ainsert k v l) = some v := by
  simp [ainsert, alookup]

theorem alookup_ainsert_ne {κ ν : Type} [DecidableEq κ] (k k1 : κ) (v : ν)
    (l : List (κ × ν)) (hk : k1 ≠ k) : alookup k1 (ainsert k v l) = alookup k1 l := by
  simp [ainsert, alookup, Ne.symm hk, alookup_aerase_ne k k1 l hk]

theorem alookup_mem_keys {κ ν : Type} [DecidableEq κ] (k : κ) (v : ν) :
    ∀ (l : List (κ × ν)), alookup k l = some v → k ∈ l.map Prod.fst := by
  intro l
  induction l with
  | nil => simp [alookup]
  | cons x l ih =>
    obtain ⟨k1, v1⟩ := x
    by_cases hk : k1 = k
    · subst hk
      simp
    · intro hl
      simp only [alookup, hk, if_false] at hl
      simp [ih hl]

/-! ## Acquisition: `lookupScope` -/

theorem getElem?_lt {K : Type} {h : Heap K} {a : Nat} {N : Scope K} (ha : h[a]? = some N) :
    a < h.length := by
  rcases List.getElem?_eq_some_iff.mp ha with ⟨hlt, _⟩
  exact hlt

theorem create_getElem {K : Type} (h : Heap K) (a : Nat) (N M Nn : Scope K)
    (ha : h[a]? = some N) (b : Nat) :
    ((h ++ [Nn]).set a M)[b]? =
      if b = a then some M else if b = h.length then some Nn else h[b]? := by
  have hlt : a < h.length := getElem?_lt ha
  by_cases hba : b = a
  · subst hba
    simp only [List.getElem?_set, if_true, List.length_append, List.length_singleton]
    rw [if_pos (by omega)]
  · rw [List.getElem?_set_ne (Ne.symm hba)]
    simp only [hba, if_false]
    by_cases hbl : b = h.length
    · subst hbl
      simp
    · simp only [hbl, if_false]
      rw [List.getElem?_append]
      by_cases hlt2 : b < h.length
      · simp [hlt2]
      · have h1 : h.length ≤ b := by omega
        have h2 : [Nn].length ≤ b - h.length := by simp; omega
        simp only [hlt2, if_false]
        rw [List.getElem?_eq_none h2, List.getElem?_eq_none h1]

theorem Ext_refl {K : Type} (h : Heap K) : Ext h h := by
  refine ⟨le_refl _, ?_, ?_⟩
  · intro b N hN
    exact ⟨N, hN, rfl, rfl, rfl, fun _ _ hc => hc⟩
  · intro b N1 hb hN
    have := getElem?_lt hN
    omega

theorem Ext_trans {K : Type} {h1 h2 h3 : Heap K} (h12 : Ext h1 h2) (h23 : Ext h2 h3) :
    Ext h1 h3 := by
  obtain ⟨l12, o12, n12⟩ := h12
  obtain ⟨l23, o23, n23⟩ := h23
  refine ⟨le_trans l12 l23, ?_, ?_⟩
  · intro b N hN
    obtain ⟨N2, hN2, e2, p2, m2, c2⟩ := o12 b N hN
    obtain ⟨N3, hN3, e3, p3, m3, c3⟩ := o23 b N2 hN2
    exact ⟨N3, hN3, e3.trans e2, p3.trans p2, m3.trans m2, fun e c hc => c3 e c (c2 e c hc)⟩
  · intro b N3 hb hN3
    by_cases hlt : b < h2.length
    · obtain ⟨N2, hN2⟩ : ∃ N2, h2[b]? = some N2 := ⟨h2[b], List.getElem?_eq_getElem hlt⟩
      obtain ⟨N3', hN3', _, _, m3, _⟩ := o23 b N2 hN2
      rw [hN3] at hN3'
      cases hN3'
      rw [m3]
      exact n12 b N2 hb hN2
    · exact n23 b N3 (by omega) hN3

theorem readChild_none_of_create {K : Type} (N : Scope K) (e : Nat)
    (m : List (Nat × Option Nat)) (hm : N.refers = some m) (hc : readChild N e = none)
    (e1 : Nat) (c : Nat) (p : Option Nat) (h1 : readChild N e1 = some c) :
    readChild { N with refers := some (ainsert e p m) } e1 = some c := by
  have hne : e1 ≠ e := by
    intro he
    subst he
    rw [hc] at h1
    cases h1
  simp only [readChild, hm] at h1
  simp only [readChild, alookup_ainsert_ne e e1 p m hne, h1]

theorem Ext_create {K : Type} (h : Heap K) (a e : Nat) (N : Scope K)
    (m : List (Nat × Option Nat)) (ha : h[a]? = some N) (hm : N.refers = some m)
    (hc : readChild N e = none) (Nn : Scope K) (hNn : Nn.mocks = some []) :
    Ext h ((h ++ [Nn]).set a { N with refers := some (ainsert e (some h.length) m) }) := by
  refine ⟨by simp, ?_, ?_⟩
  · intro b M hM
    rw [create_getElem h a N _ Nn ha b]
    by_cases hba : b = a
    · subst hba
      rw [ha] at hM
      cases hM
      simp only [if_true]
      exact ⟨_, rfl, rfl, rfl, rfl,
        fun e1 c h1 => readChild_none_of_create N e m hm hc e1 c _ h1⟩
    · have hbl : b ≠ h.length := by
        have := getElem?_lt hM
        omega
      simp only [hba, hbl, if_false]
      exact ⟨M, hM, rfl, rfl, rfl, fun _ _ h1 => h1⟩
  · intro b N1 hb hN1
    rw [create_getElem h a N _ Nn ha b] at hN1
    have hlt : a < h.length := getElem?_lt ha
    have hba : b ≠ a := by omega
    simp only [hba, if_false] at hN1
    by_cases hbl : b = h.length
    · simp only [hbl, if_true, Option.some.injEq] at hN1
      rw [← hN1]
      exact hNn
    · simp only [hbl, if_false] at hN1
      have := getElem?_lt hN1
      omega

theorem lookupScope_ext {K : Type} :
    ∀ (p : List frame) (h : Heap K) (s : Option Nat) (h1 : Heap K) (r : Option Nat),
      lookupScope h s p = Res.ok (h1, r) → Ext h h1 := by
  intro p
  induction p with
  | nil =>
    intro h s h1 r hl
    simp only [lookupScope, Res.ok.injEq, Prod.mk.injEq] at hl
    rw [← hl.1]
    exact Ext_refl h
  | cons fr p ih =>
    intro h s h1 r hl
    cases s with
    | none => simp [lookupScope] at hl
    | some a =>
      cases hN : h[a]? with
      | none => simp [lookupScope, hN] at hl
      | some N =>
        cases hc : readChild N fr.entry with
        | some c =>
          simp only [lookupScope, hN, hc] at hl
          exact ih h (some c) h1 r hl
        | none =>
          cases hm : N.refers with
          | none => simp [lookupScope, hN, hc, hm] at hl
          | some m =>
            simp only [lookupScope, hN, hc, hm] at hl
            exact Ext_trans (Ext_create h a fr.entry N m hN hm hc _ rfl) (ih _ _ h1 r hl)

theorem lookupScope_stable {K : Type} :
    ∀ (p : List frame) (h : Heap K) (s : Option Nat) (h1 : Heap K) (r : Option Nat),
      lookupScope h s p = Res.ok (h1, r) → lookupScope h1 s p = Res.ok (h1, r) := by
  intro p
  induction p with
  | nil =>
    intro h s h1 r hl
    simp only [lookupScope, Res.ok.injEq, Prod.mk.injEq] at hl
    simp [lookupScope, hl.2]
  | cons fr p ih =>
    intro h s h1 r hl
    cases s with
    | none => simp [lookupScope] at hl
    | some a =>
      cases hN : h[a]? with
      | none => simp [lookupScope, hN] at hl
      | some N =>
        cases hc : readChild N fr.entry with
        | some c =>
          simp only [lookupScope, hN, hc] at hl
          obtain ⟨_, o, _⟩ := lookupScope_ext p h (some c) h1 r hl
          obtain ⟨N1, hN1, _, _, _, c1⟩ := o a N hN
          simp only [lookupScope, hN1, c1 fr.entry c hc]
          exact ih h (some c) h1 r hl
        | none =>
          cases hm : N.refers with
          | none => simp [lookupScope, hN, hc, hm] at hl
          | some m =>
            simp only [lookupScope, hN, hc, hm] at hl
            obtain ⟨_, o, _⟩ := lookupScope_ext p _ _ h1 r hl
            have hM := create_getElem h a N
              { N with refers := some (ainsert fr.entry (some h.length) m) }
              { entry := fr.entry, parent := some a, refers := some [], mocks := some [] }
              hN a
            simp only [if_true] at hM
            obtain ⟨N1, hN1, _, _, _, c1⟩ := o a _ hM
            have hrc : readChild N1 fr.entry = some h.length := by
              apply c1
              simp [readChild, alookup_ainsert_self]
            simp only [lookupScope, hN1, hrc]
            exact ih _ _ h1 r hl

theorem WF.length_pos {K : Type} {h : Heap K} (hw : WF h) : 0 < h.length := by
  obtain ⟨R, hR, _⟩ := hw.root
  exact getElem?_lt hR
theorem WF_create {K : Type} (h : Heap K) (hw : WF h) (a e : Nat) (N : Scope K)
    (m : List (Nat × Option Nat)) (ha : h[a]? = some N) (hm : N.refers = some m)
    (hc : readChild N e = none) :
    WF ((h ++ [({ entry := e, parent := some a, refers := some [], mocks := some [] } : Scope K)]).set a
      { N with refers := some (ainsert e (some h.length) m) }) := by
  have hlt : a < h.length := getElem?_lt ha
  have hpos : 0 < h.length := hw.length_pos
  have hget := create_getElem h a N { N with refers := some (ainsert e (some h.length) m) }
    { entry := e, parent := some a, refers := some [], mocks := some [] } ha
  -- every old node keeps entry and parent
  have hold : ∀ b C, h[b]? = some C → ∃ C1,
      ((h ++ [({ entry := e, parent := some a, refers := some [], mocks := some [] } : Scope K)]).set a
        { N with refers := some (ainsert e (some h.length) m) })[b]? = some C1 ∧
      C1.entry = C.entry ∧ C1.parent = C.parent ∧ C1.mocks = C.mocks ∧
      (b ≠ a → C1 = C) := by
    intro b C hC
    rw [hget b]
    by_cases hba : b = a
    · subst hba
      rw [ha] at hC
      cases hC
      simp only [if_true]
      exact ⟨_, rfl, rfl, rfl, rfl, fun hne => absurd rfl hne⟩
    · have hbl : b ≠ h.length := by
        have := getElem?_lt hC
        omega
      simp only [hba, hbl, if_false]
      exact ⟨C, hC, rfl, rfl, rfl, fun _ => rfl⟩
  refine ⟨?_, ?_, ?_, ?_⟩
  · obtain ⟨R, hR, hRe, hRp⟩ := hw.root
    obtain ⟨R1, hR1, he, hp, _, _⟩ := hold 0 R hR
    exact ⟨R1, hR1, he.trans hRe, hp.trans hRp⟩
  · intro b C hC
    rw [hget b] at hC
    by_cases hba : b = a
    · subst hba
      simp only [if_true, Option.some.injEq] at hC
      subst hC
      exact ⟨by simp, (hw.maps b N ha).2⟩
    · simp only [hba, if_false] at hC
      by_cases hbl : b = h.length
      · simp only [hbl, if_true, Option.some.injEq] at hC
        subst hC
        exact ⟨by simp, fun _ => by simp⟩
      · simp only [hbl, if_false] at hC
        exact hw.maps b C hC
  · intro b C p hC hb0 hp
    rw [hget b] at hC
    by_cases hba : b = a
    · subst hba
      simp only [if_true, Option.some.injEq] at hC
      subst hC
      obtain ⟨hpb, P, hP, hPc⟩ := hw.up b N p ha hb0 hp
      obtain ⟨P1, hP1, _, _, _, hsame⟩ := hold p P hP
      rw [hsame (by omega)] at hP1
      exact ⟨hpb, P, hP1, hPc⟩
    · simp only [hba, if_false] at hC
      by_cases hbl : b = h.length
      · simp only [hbl, if_true, Option.some.injEq] at hC
        subst hC
        have hpa : a = p := by simpa using hp
        subst hpa
        refine ⟨by omega, { N with refers := some (ainsert e (some h.length) m) }, ?_, ?_⟩
        · rw [hget a]
          simp only [if_true]
        · simp [readChild, alookup_ainsert_self, hbl]
      · simp only [hbl, if_false] at hC
        obtain ⟨hpb, P, hP, hPc⟩ := hw.up b C p hC hb0 hp
        refine ⟨hpb, ?_⟩
        by_cases hpa : p = a
        · subst hpa
          rw [ha] at hP
          cases hP
          refine ⟨{ N with refers := some (ainsert e (some h.length) m) }, ?_,
            readChild_none_of_create N e m hm hc C.entry b (some h.length) hPc⟩
          rw [hget p]
          simp only [if_true]
        · obtain ⟨P1, hP1, _, _, _, hsame⟩ := hold p P hP
          rw [hsame hpa] at hP1
          exact ⟨P, hP1, hPc⟩
  · intro a1 C m1 e1 c hC hm1 hl
    rw [hget a1] at hC
    by_cases ha1 : a1 = a
    · subst ha1
      simp only [if_true, Option.some.injEq] at hC
      subst hC
      simp only [Option.some.injEq] at hm1
      subst hm1
      by_cases he : e1 = e
      · subst he
        rw [alookup_ainsert_self] at hl
        cases hl
        refine ⟨h.length,
          ({ entry := e1, parent := some a1, refers := some [], mocks := some [] } : Scope K),
          rfl, by omega, ?_, rfl, rfl⟩
        rw [hget h.length]
        have : h.length ≠ a1 := by omega
        simp only [this, if_false, if_true]
      · rw [alookup_ainsert_ne e e1 _ m he] at hl
        obtain ⟨b, C, hcb, hb0, hCb, hCe, hCp⟩ := hw.down a1 N m e1 c ha hm hl
        obtain ⟨C1, hC1, hCe1, hCp1, _, _⟩ := hold b C hCb
        exact ⟨b, C1, hcb, hb0, hC1, hCe1.trans hCe, hCp1.trans hCp⟩
    · simp only [ha1, if_false] at hC
      by_cases hbl : a1 = h.length
      · simp only [hbl, if_true, Option.some.injEq] at hC
        subst hC
        simp only [Option.some.injEq] at hm1
        subst hm1
        simp [alookup] at hl
      · simp only [hbl, if_false] at hC
        obtain ⟨b, C2, hcb, hb0, hCb, hCe, hCp⟩ := hw.down a1 C m1 e1 c hC hm1 hl
        obtain ⟨C1, hC1, hCe1, hCp1, _, _⟩ := hold b C2 hCb
        exact ⟨b, C1, hcb, hb0, hC1, hCe1.trans hCe, hCp1.trans hCp⟩

theorem readChild_some {K : Type} {N : Scope K} {e b : Nat} (hc : readChild N e = some b) :
    ∃ m, N.refers = some m ∧ alookup e m = some (some b) := by
  cases hm : N.refers with
  | none => simp [readChild, hm] at hc
  | some m =>
    refine ⟨m, rfl, ?_⟩
    cases hl : alookup e m with
    | none => simp [readChild, hm, hl] at hc
    | some c =>
      simp only [readChild, hm, hl, Option.getD_some] at hc
      rw [hc]

theorem Seg_ext {K : Type} {h h1 : Heap K} (hx : Ext h h1) :
    ∀ (c : List Nat) (s t : Option Nat), Seg h s c t → Seg h1 s c t := by
  intro c
  induction c with
  | nil =>
    intro s t hs
    exact hs
  | cons a c ih =>
    intro s t hs
    obtain ⟨hsa, ha, N, hN, hrest⟩ := hs
    obtain ⟨N1, hN1, _, hp, _, _⟩ := hx.2.1 a N hN
    exact ⟨hsa, ha, N1, hN1, by rw [hp]; exact ih _ _ hrest⟩

theorem Seg_append {K : Type} (h : Heap K) :
    ∀ (c1 c2 : List Nat) (s m t : Option Nat), Seg h s c1 m → Seg h m c2 t →
      Seg h s (c1 ++ c2) t := by
  intro c1
  induction c1 with
  | nil =>
    intro c2 s m t h1 h2
    simp only [Seg] at h1
    subst h1
    exact h2
  | cons a c1 ih =>
    intro c2 s m t h1 h2
    obtain ⟨hsa, ha, N, hN, hrest⟩ := h1
    exact ⟨hsa, ha, N, hN, ih c2 _ m t hrest h2⟩
/-- What one level of `lookupScope` leaves behind: the child `b` of `a` under `e`. -/
theorem lookupScope_step {K : Type} (h : Heap K) (hw : WF h) (a : Nat) (ha : a < h.length)
    (fr : frame) (p : List frame) :
    ∃ (h2 : Heap K) (b : Nat) (C : Scope K), WF h2 ∧ Ext h h2 ∧ h2[b]? = some C ∧
      C.entry = fr.entry ∧ C.parent = some a ∧ a < b ∧
      lookupScope h (some a) (fr :: p) = lookupScope h2 (some b) p ∧
      ((h2 = h ∧ ∃ N, h[a]? = some N ∧ readChild N fr.entry = some b) ∨
        (h2.length = h.length + 1 ∧ b = h.length ∧ C.refers = some [])) := by
  obtain ⟨N, hN⟩ : ∃ N, h[a]? = some N := ⟨h[a], List.getElem?_eq_getElem ha⟩
  cases hc : readChild N fr.entry with
  | some b =>
    obtain ⟨m, hm, hl⟩ := readChild_some hc
    obtain ⟨b1, C, hb1, hb0, hC, hCe, hCp⟩ := hw.down a N m fr.entry (some b) hN hm hl
    cases hb1
    refine ⟨h, b, C, hw, Ext_refl h, hC, hCe, hCp, (hw.up b C a hC hb0 hCp).1, ?_,
      Or.inl ⟨rfl, N, hN, hc⟩⟩
    simp only [lookupScope, hN, hc]
  | none =>
    cases hm : N.refers with
    | none => exact absurd hm (hw.maps a N hN).1
    | some m =>
      refine ⟨_, h.length,
        ({ entry := fr.entry, parent := some a, refers := some [], mocks := some [] } : Scope K),
        WF_create h hw a fr.entry N m hN hm hc,
        Ext_create h a fr.entry N m hN hm hc _ rfl, ?_, rfl, rfl, ha, ?_, Or.inr ⟨?_, rfl, rfl⟩⟩
      · rw [create_getElem h a N _ _ hN h.length]
        have : h.length ≠ a := by omega
        simp only [this, if_false, if_true]
      · simp only [lookupScope, hN, hc, hm]
      · simp

theorem lookupScope_spec {K : Type} :
    ∀ (p : List frame) (h : Heap K) (a : Nat), WF h → a < h.length →
      ∃ (h1 : Heap K) (r : Nat) (c : List Nat),
        lookupScope h (some a) p = Res.ok (h1, some r) ∧ WF h1 ∧ r < h1.length ∧
        Seg h1 (some r) c (some a) ∧
        c.map (entryOf h1) = (p.map (fun fr => some fr.entry)).reverse ∧
        (∀ b ∈ c, a < b) ∧
        (∀ N, h[a]? = some N → N.refers = some [] →
          h1.length = h.length + p.length ∧ ∀ b ∈ c, h.length ≤ b) := by
  intro p
  induction p with
  | nil =>
    intro h a hw ha
    exact ⟨h, a, [], rfl, hw, ha, rfl, rfl, by simp, by simp⟩
  | cons fr p ih =>
    intro h a hw ha
    obtain ⟨h2, b, C, hw2, hx2, hC, hCe, hCp, hab, hstep, hcase⟩ :=
      lookupScope_step h hw a ha fr p
    obtain ⟨h1, r, c, hl, hw1, hr, hseg, hent, hgt, hfresh⟩ := ih h2 b hw2 (getElem?_lt hC)
    have hx1 : Ext h2 h1 := lookupScope_ext p h2 (some b) h1 (some r) hl
    obtain ⟨C1, hC1, hCe1, hCp1, _, _⟩ := hx1.2.1 b C hC
    refine ⟨h1, r, c ++ [b], by rw [hstep, hl], hw1, hr, ?_, ?_, ?_, ?_⟩
    · apply Seg_append h1 c [b] (some r) (some b) (some a) hseg
      exact ⟨rfl, by omega, C1, hC1, by rw [hCp1, hCp]; rfl⟩
    · simp only [List.map_append, List.map_cons, List.map_nil, List.reverse_cons, hent]
      congr 1
      simp [entryOf, hC1, hCe1, hCe]
    · intro x hx
      rcases List.mem_append.mp hx with hx | hx
      · have := hgt x hx
        omega
      · simp only [List.mem_singleton] at hx
        omega
    · intro N hN hNr
      rcases hcase with ⟨_, N1, hN1, hrc⟩ | ⟨hlen, hb, hCr⟩
      · rw [hN] at hN1
        cases hN1
        simp [readChild, hNr, alookup] at hrc
      · obtain ⟨h1len, hge⟩ := hfresh C hC hCr
        refine ⟨by rw [h1len, hlen, List.length_cons]; omega, ?_⟩
        intro x hx
        rcases List.mem_append.mp hx with hx | hx
        · have := hge x hx
          omega
        · simp only [List.mem_singleton] at hx
          omega

theorem lookupScope_append {K : Type} :
    ∀ (p q : List frame) (h : Heap K) (s : Option Nat),
      lookupScope h s (p ++ q) =
        match lookupScope h s p with
        | Res.ok (h1, n) => lookupScope h1 n q
        | Res.panic b => Res.panic b
        | Res.timeout => Res.timeout := by
  intro p
  induction p with
  | nil =>
    intro q h s
    simp [lookupScope]
  | cons fr p ih =>
    intro q h s
    cases s with
    | none => simp [lookupScope]
    | some a =>
      cases hN : h[a]? with
      | none => simp [lookupScope, hN]
      | some N =>
        cases hc : readChild N fr.entry with
        | some c =>
          simp only [List.cons_append, lookupScope, hN, hc]
          exact ih q h (some c)
        | none =>
          cases hm : N.refers with
          | none => simp [lookupScope, hN, hc, hm]
          | some m =>
            simp only [List.cons_append, lookupScope, hN, hc, hm]
            exact ih q _ _

/-- A path that is found without creating a node is found again, at the same
node, in every extension of the heap. -/
theorem lookupScope_found_ext {K : Type} :
    ∀ (p : List frame) (h : Heap K) (s r : Option Nat) (h1 : Heap K),
      lookupScope h s p = Res.ok (h, r) → Ext h h1 →
      lookupScope h1 s p = Res.ok (h1, r) := by
  intro p
  induction p with
  | nil =>
    intro h s r h1 hl _
    simp only [lookupScope, Res.ok.injEq, Prod.mk.injEq, true_and] at hl
    simp [lookupScope, hl]
  | cons fr p ih =>
    intro h s r h1 hl hx
    cases s with
    | none => simp [lookupScope] at hl
    | some a =>
      cases hN : h[a]? with
      | none => simp [lookupScope, hN] at hl
      | some N =>
        cases hc : readChild N fr.entry with
        | some c =>
          simp only [lookupScope, hN, hc] at hl
          obtain ⟨N1, hN1, _, _, _, c1⟩ := hx.2.1 a N hN
          simp only [lookupScope, hN1, c1 fr.entry c hc]
          exact ih h (some c) r h1 hl hx
        | none =>
          cases hm : N.refers with
          | none => simp [lookupScope, hN, hc, hm] at hl
          | some m =>
            simp only [lookupScope, hN, hc, hm] at hl
            have hlen := (lookupScope_ext p _ _ h r hl).1
            simp only [List.length_set, List.length_append, List.length_singleton] at hlen
            omega

theorem ancestor_of_seg {K : Type} (h : Heap K) :
    ∀ (c : List Nat) (s t : Option Nat), Seg h s c t → ancestor h c.length s = t := by
  intro c
  induction c with
  | nil =>
    intro s t hs
    exact hs
  | cons a c ih =>
    intro s t hs
    obtain ⟨rfl, _, N, hN, hrest⟩ := hs
    simp only [List.length_cons, ancestor, hN]
    exact ih _ _ hrest

theorem map_length_eq {α β γ : Type} (f : α → γ) (g : β → γ) (c : List α) (p : List β)
    (hcp : c.map f = (p.map g).reverse) : c.length = p.length := by
  have := congrArg List.length hcp
  simpa using this

theorem WF_init (K : Type) : WF (init K) := by
  refine ⟨⟨_, rfl, rfl, rfl⟩, ?_, ?_, ?_⟩
  · intro a N hN
    cases a with
    | zero =>
      simp only [init, List.getElem?_cons_zero, Option.some.injEq] at hN
      subst hN
      exact ⟨by simp, fun h0 => absurd rfl h0⟩
    | succ b => simp [init] at hN
  · intro b N p hN hb0
    cases b with
    | zero => exact absurd rfl hb0
    | succ b => simp [init] at hN
  · intro a N m e c hN hm hl
    cases a with
    | zero =>
      simp only [init, List.getElem?_cons_zero, Option.some.injEq] at hN
      subst hN
      simp only [Option.some.injEq] at hm
      subst hm
      simp [alookup] at hl
    | succ b => simp [init] at hN

theorem Seg_le {K : Type} {h : Heap K} (hw : WF h) :
    ∀ (c : List Nat) (s t : Option Nat), Seg h s c t →
      ∀ a, s = some a → ∀ x ∈ c, x ≤ a := by
  intro c
  induction c with
  | nil =>
    intro s t _ a _ x hx
    cases hx
  | cons a1 c ih =>
    intro s t hs a hsa x hx
    obtain ⟨hs1, ha1, N, hN, hrest⟩ := hs
    rw [hs1] at hsa
    cases hsa
    rcases List.mem_cons.mp hx with hx | hx
    · omega
    · cases c with
      | nil => cases hx
      | cons a2 c2 =>
        have hp : N.parent = some a2 := hrest.1
        have hlt := (hw.up a1 N a2 hN ha1 hp).1
        have := ih N.parent t hrest a2 hp x hx
        omega

theorem Seg_nodup {K : Type} {h : Heap K} (hw : WF h) :
    ∀ (c : List Nat) (s t : Option Nat), Seg h s c t → c.Nodup := by
  intro c
  induction c with
  | nil =>
    intro s t _
    exact List.nodup_nil
  | cons a1 c ih =>
    intro s t hs
    obtain ⟨hs1, ha1, N, hN, hrest⟩ := hs
    refine List.nodup_cons.mpr ⟨?_, ih _ _ hrest⟩
    intro hmem
    cases c with
    | nil => cases hmem
    | cons a2 c2 =>
      have hp : N.parent = some a2 := hrest.1
      have hlt := (hw.up a1 N a2 hN ha1 hp).1
      have := Seg_le hw (a2 :: c2) N.parent t hrest a2 hp a1 hmem
      omega

/-- C6: in a well-formed tree `lookupScope(root, p)` for `p = [e1, ..., en]`
returns a node whose chain of parents `c` reaches the root after exactly `n`
pairwise distinct nodes carrying the entries `en, ..., e1`; and when the root has
no children it allocates exactly `n` nodes, all of them on that chain. -/
theorem lookupScope_builds_path {K : Type} (h : Heap K) (hw : WF h) (p : List frame) :
    ∃ h1 r c, lookupScope h root p = Res.ok (h1, some r) ∧ IsChain h1 (some r) c ∧
      c.length = p.length ∧
      c.map (entryOf h1) = (p.map (fun fr => some fr.entry)).reverse ∧ c.Nodup ∧
      ((∀ R, h[0]? = some R → R.refers = some []) →
        h1.length = h.length + p.length ∧ ∀ b ∈ c, h.length ≤ b) := by
  obtain ⟨h1, r, c, hl, hw1, _, hseg, hent, _, hfresh⟩ :=
    lookupScope_spec p h 0 hw hw.length_pos
  refine ⟨h1, r, c, hl, hseg, map_length_eq _ _ c p hent, hent,
    Seg_nodup hw1 c _ _ hseg, ?_⟩
  intro hroot
  obtain ⟨R, hR, _⟩ := hw.root
  exact hfresh R hR (hroot R hR)

/-- Witness of C6: the recursive path `[5, 5, 5]` from the initial tree. -/
theorem lookupScope_builds_path_witness :
    ∃ h1 r c, lookupScope (init Nat) root [frameOf 5, frameOf 5, frameOf 5]
        = Res.ok (h1, some r) ∧ IsChain h1 (some r) c ∧
      c.length = [frameOf 5, frameOf 5, frameOf 5].length ∧
      c.map (entryOf h1)
        = ([frameOf 5, frameOf 5, frameOf 5].map (fun fr => some fr.entry)).reverse ∧
      c.Nodup ∧
      ((∀ R, (init Nat)[0]? = some R → R.refers = some []) →
        h1.length = (init Nat).length + [frameOf 5, frameOf 5, frameOf 5].length ∧
        ∀ b ∈ c, (init Nat).length ≤ b) :=
  lookupScope_builds_path (init Nat) (WF_init Nat) [frameOf 5, frameOf 5, frameOf 5]

/-! ## Registration: `set` -/

/-- C8: `set` with a value that is not a function (the nil interface included)
panics before touching anything: the panic leaves the whole heap, and so the
override table of `s`, as it was. -/
theorem set_rejects_non_function {K : Type} [DecidableEq K] (h : Heap K) (s : Option Nat)
    (k : K) (v : Value) (hv : ∀ id, v ≠ Value.func id) :
    ∃ e, Scope.set h s k v = Res.panic (e, h) := by
  cases v with
  | nil => exact ⟨Panic.zeroValue, rfl⟩
  | func id => exact absurd rfl (hv id)
  | other n => exact ⟨Panic.notAFunction, rfl⟩

/-- Witness of C8: registering the nil interface at node `1` of `exHeap`. -/
theorem set_rejects_non_function_witness :
    ∃ e, Scope.set exHeap (some 1) 7 Value.nil = Res.panic (e, exHeap) :=
  set_rejects_non_function exHeap (some 1) 7 Value.nil (by intro id hid; cases hid)

/-- C7, the claim fails on the root: `lookupScope(root, [])` returns the root,
whose override table is the nil map, and `set` on it panics with an assignment
to an entry of a nil map. -/
theorem set_on_root_panics :
    lookupScope (init Nat) root [] = Res.ok (init Nat, root) ∧
      Scope.set (init Nat) root 7 (Value.func 1) = Res.panic (Panic.nilMap, init Nat) ∧
      ¬ ∃ h1, Scope.set (init Nat) root 7 (Value.func 1) = Res.ok h1 := by
  refine ⟨rfl, rfl, ?_⟩
  rintro ⟨h1, hs⟩
  have hp : Scope.set (init Nat) root 7 (Value.func 1)
      = Res.panic (Panic.nilMap, init Nat) := rfl
  rw [hp] at hs
  cases hs

theorem mockEntry_ainsert {K : Type} [DecidableEq K] (N : Scope K) (m : List (K × Value))
    (k : K) (v : Value) (hm : N.mocks = some m) :
    mockEntry { N with mocks := some (ainsert k v m) } k = some v ∧
      ∀ k1, k1 ≠ k → mockEntry { N with mocks := some (ainsert k v m) } k1 = mockEntry N k1 := by
  constructor
  · simp [mockEntry, alookup_ainsert_self]
  · intro k1 hk
    simp [mockEntry, hm, alookup_ainsert_ne k k1 v m hk]

/-- C7 as amended: in a well-formed tree, for the scope `r` that `lookupScope`
returns for a non-empty path, `set(k, fn)` with a callable `fn` succeeds; it
replaces the node `r` by a node `N2` whose override table maps `k` to `fn` and
every other key as before, with entry, parent and child table unchanged; no
property of `fn` other than being a function is looked at. -/
theorem set_installs_override {K : Type} [DecidableEq K] (h : Heap K) (hw : WF h)
    (p : List frame) (hp : p ≠ []) (k : K) (fn : Nat) :
    ∃ h1 r N1 N2, lookupScope h root p = Res.ok (h1, some r) ∧ r ≠ 0 ∧
      h1[r]? = some N1 ∧
      Scope.set h1 (some r) k (Value.func fn) = Res.ok (h1.set r N2) ∧
      mockEntry N2 k = some (Value.func fn) ∧
      (∀ k1, k1 ≠ k → mockEntry N2 k1 = mockEntry N1 k1) ∧
      N2.entry = N1.entry ∧ N2.parent = N1.parent ∧ N2.refers = N1.refers := by
  obtain ⟨h1, r, c, hl, hw1, hr, hseg, hent, _, _⟩ :=
    lookupScope_spec p h 0 hw hw.length_pos
  have hlen := map_length_eq _ _ c p hent
  cases c with
  | nil =>
    cases p with
    | nil => exact absurd rfl hp
    | cons fr p => simp at hlen
  | cons a c =>
    obtain ⟨hra, ha, N1, hN1, _⟩ := hseg
    cases hra
    cases hm : N1.mocks with
    | none => exact absurd hm ((hw1.maps r N1 hN1).2 ha)
    | some m =>
      obtain ⟨hk, hother⟩ := mockEntry_ainsert N1 m k (Value.func fn) hm
      refine ⟨h1, r, N1, { N1 with mocks := some (ainsert k (Value.func fn) m) }, hl, ha, hN1,
        ?_, hk, hother, rfl, rfl, rfl⟩
      simp only [Scope.set, mustFunc, hN1, hm]

/-- Witness of C7 as amended: registering at the scope of path `[1]`. -/
theorem set_installs_override_witness :
    ∃ h1 r N1 N2, lookupScope (init Nat) root [frameOf 1] = Res.ok (h1, some r) ∧ r ≠ 0 ∧
      h1[r]? = some N1 ∧
      Scope.set h1 (some r) 7 (Value.func 42) = Res.ok (h1.set r N2) ∧
      mockEntry N2 7 = some (Value.func 42) ∧
      (∀ k1, k1 ≠ 7 → mockEntry N2 k1 = mockEntry N1 k1) ∧
      N2.entry = N1.entry ∧ N2.parent = N1.parent ∧ N2.refers = N1.refers :=
  set_installs_override (init Nat) (WF_init Nat) [frameOf 1] (by simp) 7 42

/-! ## Deletion: `Delete` -/

theorem Desc_le {K : Type} {h : Heap K} (hw : WF h) {a b : Nat} (hd : Desc h a b) : a ≤ b := by
  induction hd with
  | refl => exact le_refl a
  | step b q N hN hp _ ih =>
    by_cases hb : b = 0
    · subst hb
      obtain ⟨R, hR, _, hRp⟩ := hw.root
      rw [hN] at hR
      cases hR
      rw [hp] at hRp
      cases hRp
      exact ih
    · have := (hw.up b N q hN hb hp).1
      omega

theorem Desc_trans {K : Type} {h : Heap K} {a c b : Nat} (h1 : Desc h a c)
    (h2 : Desc h c b) : Desc h a b := by
  induction h2 with
  | refl => exact h1
  | step b q N hN hp _ ih => exact Desc.step b q N hN hp ih

theorem Desc_top {K : Type} {h : Heap K} {a b : Nat} (hd : Desc h a b) :
    b = a ∨ ∃ c C, h[c]? = some C ∧ C.parent = some a ∧ Desc h c b := by
  induction hd with
  | refl => exact Or.inl rfl
  | step b q N hN hp _ ih =>
    right
    rcases ih with hq | ⟨c, C, hC, hCp, hcq⟩
    · subst hq
      exact ⟨b, N, hN, hp, Desc.refl⟩
    · exact ⟨c, C, hC, hCp, Desc.step b q N hN hp hcq⟩

/-- The subtrees of two different children of one node are disjoint. -/
theorem Desc_disjoint {K : Type} {h : Heap K} (hw : WF h) {a c1 c2 b : Nat}
    {C1 C2 : Scope K} (h1 : h[c1]? = some C1) (h2 : h[c2]? = some C2)
    (p1 : C1.parent = some a) (p2 : C2.parent = some a) (n1 : c1 ≠ 0) (n2 : c2 ≠ 0)
    (hne : c1 ≠ c2) (d1 : Desc h c1 b) : ¬ Desc h c2 b := by
  have l1 := (hw.up c1 C1 a h1 n1 p1).1
  have l2 := (hw.up c2 C2 a h2 n2 p2).1
  induction d1 with
  | refl =>
    intro d2
    cases d2 with
    | refl => exact hne rfl
    | step _ q N hN hp hd =>
      rw [h1] at hN
      cases hN
      rw [p1] at hp
      cases hp
      have := Desc_le hw hd
      omega
  | step b q N hN hp hd ih =>
    intro d2
    cases d2 with
    | refl =>
      rw [h2] at hN
      cases hN
      rw [p2] at hp
      cases hp
      have := Desc_le hw hd
      omega
    | step _ q1 N1 hN1 hp1 hd1 =>
      rw [hN] at hN1
      cases hN1
      rw [hp] at hp1
      cases hp1
      exact ih hd1

/-- Reachability through parents only shrinks when parents are only reset. -/
theorem Desc_mono {K : Type} {h h1 : Heap K}
    (hpar : ∀ (b : Nat) (N1 : Scope K) (q : Nat), h1[b]? = some N1 → N1.parent = some q →
      ∃ N, h[b]? = some N ∧ N.parent = some q)
    {a b : Nat} (hd : Desc h1 a b) : Desc h a b := by
  induction hd with
  | refl => exact Desc.refl
  | step b q N1 hN1 hp _ ih =>
    obtain ⟨N, hN, hp0⟩ := hpar b N1 q hN1 hp
    exact Desc.step b q N hN hp0 ih

/-- Reachability is kept when the nodes strictly below `a` are kept. -/
theorem Desc_transfer {K : Type} {h h1 : Heap K} {a b : Nat} (hd : Desc h a b)
    (hsame : ∀ (x : Nat) (N : Scope K), h[x]? = some N → Desc h a x → x ≠ a →
      ∃ N1, h1[x]? = some N1 ∧ N1.parent = N.parent) : Desc h1 a b := by
  induction hd with
  | refl => exact Desc.refl
  | step b q N hN hp hd ih =>
    by_cases hba : b = a
    · subst hba
      exact Desc.refl
    · obtain ⟨N1, hN1, hp1⟩ := hsame b N hN (Desc.step b q N hN hp hd) hba
      exact Desc.step b q N1 hN1 (hp1.trans hp) ih

theorem detached_not_below {K : Type} {h : Heap K} {c b : Nat} {B : Scope K}
    (hB : h[b]? = some B) (hp : B.parent = none) (hd : Desc h c b) : b = c := by
  cases hd with
  | refl => rfl
  | step _ q N hN hq _ =>
    rw [hB] at hN
    cases hN
    rw [hp] at hq
    cases hq

theorem alookup_ne_of_none {κ ν : Type} [DecidableEq κ] (k : κ) :
    ∀ (l : List (κ × ν)), alookup k l = none → ∀ x ∈ l, x.1 ≠ k := by
  intro l
  induction l with
  | nil =>
    intro _ x hx
    cases hx
  | cons y l ih =>
    obtain ⟨k1, v⟩ := y
    intro hl x hx
    by_cases hk : k1 = k
    · simp [alookup, hk] at hl
    · simp only [alookup, hk, if_false] at hl
      rcases List.mem_cons.mp hx with hx | hx
      · subst hx
        exact hk
      · exact ih hl x hx

theorem filter_done_erase (m : List (Nat × Option Nat)) (done : List Nat) (e : Nat) :
    aerase e (m.filter (fun x => decide (x.1 ∉ done)))
      = m.filter (fun x => decide (x.1 ∉ e :: done)) := by
  simp only [aerase, List.filter_filter]
  apply List.filter_congr
  intro x _
  by_cases h1 : x.1 = e <;> by_cases h2 : x.1 ∈ done <;> simp [h1, h2]

theorem filter_done_skip (m : List (Nat × Option Nat)) (done : List Nat) (e : Nat)
    (hl : alookup e (m.filter (fun x => decide (x.1 ∉ done))) = none) :
    m.filter (fun x => decide (x.1 ∉ e :: done))
      = m.filter (fun x => decide (x.1 ∉ done)) := by
  apply List.filter_congr
  intro x hx
  by_cases h2 : x.1 ∈ done
  · simp [h2]
  · have hmem : x ∈ m.filter (fun x => decide (x.1 ∉ done)) := by
      simp [List.mem_filter, hx, h2]
    have h1 := alookup_ne_of_none e _ hl x hmem
    simp [h1, h2]

theorem Aff_cons_skip {K : Type} (h1 : Heap K) (m : List (Nat × Option Nat))
    (done : List Nat) (e b : Nat)
    (hl : alookup e (m.filter (fun x => decide (x.1 ∉ done))) = none) :
    Aff h1 m (e :: done) b ↔ Aff h1 m done b := by
  constructor
  · rintro ⟨e1, he1, c, hc, hd⟩
    rcases List.mem_cons.mp he1 with he | he
    · subst he
      by_cases hdone : e1 ∈ done
      · exact ⟨e1, hdone, c, hc, hd⟩
      · rw [alookup_filter (fun x => decide (x ∉ done)) e1 m] at hl
        simp [hdone, hc] at hl
    · exact ⟨e1, he, c, hc, hd⟩
  · rintro ⟨e1, he1, c, hc, hd⟩
    exact ⟨e1, List.mem_cons_of_mem e he1, c, hc, hd⟩

/-- A child of `a` is not below another child that has been processed, and `a`
itself is below none of its children. -/
theorem Aff_facts {K : Type} {h1 : Heap K} (hw1 : WF h1) {a : Nat} {N1 : Scope K}
    {m : List (Nat × Option Nat)} (hN1 : h1[a]? = some N1) (hm : N1.refers = some m)
    (done : List Nat) :
    ¬ Aff h1 m done a ∧
    ∀ e c x, e ∉ done → alookup e m = some (some c) → Desc h1 c x → ¬ Aff h1 m done x := by
  constructor
  · rintro ⟨e1, _, c1, hc1, hd⟩
    obtain ⟨b, C, hb, hb0, hC, _, hCp⟩ := hw1.down a N1 m e1 (some c1) hN1 hm hc1
    cases hb
    have := (hw1.up c1 C a hC hb0 hCp).1
    have := Desc_le hw1 hd
    omega
  · rintro e c x he hc hd ⟨e1, he1, c1, hc1, hd1⟩
    obtain ⟨b, C, hb, hb0, hC, hCe, hCp⟩ := hw1.down a N1 m e (some c) hN1 hm hc
    cases hb
    obtain ⟨b1, C1, hb1, hb10, hC1, hCe1, hCp1⟩ := hw1.down a N1 m e1 (some c1) hN1 hm hc1
    cases hb1
    have hne : c1 ≠ c := by
      intro hcc
      subst hcc
      rw [hC] at hC1
      cases hC1
      rw [hCe] at hCe1
      subst hCe1
      exact he he1
    exact Desc_disjoint hw1 hC1 hC hCp1 hCp hb10 hb0 hne hd1 hd

/-- One iteration of the `range` loop of `Delete` keeps the invariant. -/
theorem rangeRefers_step {K : Type}
    (del : Heap K → Option Nat → Res (Heap K) (Panic × Heap K))
    (h1 : Heap K) (hw1 : WF h1) (a : Nat) (N1 : Scope K) (m : List (Nat × Option Nat))
    (hN1 : h1[a]? = some N1) (hm : N1.refers = some m)
    (hdel : ∀ (h : Heap K) (c : Nat) (C : Scope K), WF h → h.length = h1.length →
      h[c]? = some C → a < c → C.parent = some a →
      ∃ h2, del h (some c) = Res.ok h2 ∧ WF h2 ∧ Deleted h c C.entry a h2)
    (e : Nat) (done : List Nat) (hi : Heap K) (hinv : RangeInv h1 a m done hi) :
    ∃ h2, RangeInv h1 a m (e :: done) h2 ∧
      ∀ ks, rangeRefers del a (e :: ks) hi = rangeRefers del a ks h2 := by
  obtain ⟨hwi, hleni, hnodes⟩ := hinv
  have hia := (hnodes a N1 hN1).2.2 rfl
  obtain ⟨hnotA, hdisj⟩ := Aff_facts hw1 hN1 hm done
  cases hl0 : alookup e (m.filter (fun x => decide (x.1 ∉ done))) with
  | none =>
    refine ⟨hi, ⟨hwi, hleni, ?_⟩, ?_⟩
    · intro b B hB
      obtain ⟨c1, c2, c3⟩ := hnodes b B hB
      refine ⟨fun hA => c1 ((Aff_cons_skip h1 m done e b hl0).mp hA),
        fun hA hb => c2 (fun hA0 => hA ((Aff_cons_skip h1 m done e b hl0).mpr hA0)) hb,
        fun hb => ?_⟩
      rw [filter_done_skip m done e hl0]
      exact c3 hb
    · intro ks
      simp only [rangeRefers, hia, hl0]
  | some c0 =>
    have hl := hl0
    rw [alookup_filter (fun x => decide (x ∉ done)) e m] at hl
    by_cases hdone : e ∈ done
    · simp [hdone] at hl
    · simp only [hdone, not_false_eq_true, decide_True, if_true] at hl
      obtain ⟨c, C, hc0, hcn, hC, hCe, hCp⟩ := hw1.down a N1 m e c0 hN1 hm hl
      subst hc0
      have hac : a < c := (hw1.up c C a hC hcn hCp).1
      have hcA : ¬ Aff h1 m done c := hdisj e c c hdone hl Desc.refl
      have hiC : hi[c]? = some C := (hnodes c C hC).2.1 hcA (by omega)
      obtain ⟨h2, hdel2, hw2, hlen2, hD⟩ := hdel hi c C hwi hleni hiC hac hCp
      have hpar : ∀ (b : Nat) (X : Scope K) (q : Nat), hi[b]? = some X → X.parent = some q →
          ∃ B, h1[b]? = some B ∧ B.parent = some q := by
        intro b X q hX hq
        have hb : b < h1.length := by
          rw [← hleni]
          exact getElem?_lt hX
        obtain ⟨B, hB⟩ : ∃ B, h1[b]? = some B := ⟨h1[b], List.getElem?_eq_getElem hb⟩
        obtain ⟨c1, c2, c3⟩ := hnodes b B hB
        by_cases hA : Aff h1 m done b
        · rw [c1 hA] at hX
          cases hX
          simp [detached] at hq
        · by_cases hba : b = a
          · rw [c3 hba] at hX
            cases hX
            exact ⟨B, hB, hq⟩
          · rw [c2 hA hba] at hX
            cases hX
            exact ⟨_, hB, hq⟩
      have hsub : ∀ x, Desc h1 c x → Desc hi c x := by
        intro x hd
        apply Desc_transfer hd
        intro y Y hY hdy _
        have hyA : ¬ Aff h1 m done y := hdisj e c y hdone hl hdy
        have hya : y ≠ a := by
          intro hya
          subst hya
          have := Desc_le hw1 hdy
          omega
        exact ⟨Y, (hnodes y Y hY).2.1 hyA hya, rfl⟩
      refine ⟨h2, ⟨hw2, hlen2.trans hleni, ?_⟩, ?_⟩
      · intro b B hB
        obtain ⟨c1, c2, c3⟩ := hnodes b B hB
        refine ⟨?_, ?_, ?_⟩
        · intro hA
          by_cases hA0 : Aff h1 m done b
          · have hib := c1 hA0
            have hnd : ¬ Desc hi c b := by
              intro hd
              have hbc := detached_not_below hib rfl hd
              subst hbc
              exact hcA hA0
            have hba : b ≠ a := by
              intro hba
              subst hba
              exact hnotA hA0
            exact (hD b _ hib).2.1 hnd hba
          · obtain ⟨e1, he1, c1x, hc1x, hd1⟩ := hA
            have he1e : e1 = e := by
              rcases List.mem_cons.mp he1 with h | h
              · exact h
              · exact absurd ⟨e1, h, c1x, hc1x, hd1⟩ hA0
            subst he1e
            rw [hl] at hc1x
            cases hc1x
            have hba : b ≠ a := by
              intro hba
              subst hba
              have := Desc_le hw1 hd1
              omega
            have hib := c2 hA0 hba
            exact (hD b B hib).1 (hsub b hd1)
        · intro hA hba
          have hA0 : ¬ Aff h1 m done b := by
            rintro ⟨e1, he1, rest⟩
            exact hA ⟨e1, List.mem_cons_of_mem e he1, rest⟩
          have hib := c2 hA0 hba
          have hnd : ¬ Desc hi c b := by
            intro hd
            exact hA ⟨e, List.mem_cons_self e done, c, hl, Desc_mono hpar hd⟩
          exact (hD b B hib).2.1 hnd hba
        · intro hba
          subst hba
          rw [hB] at hN1
          cases hN1
          rw [(hD b _ hia).2.2 rfl, hCe]
          simp only [Option.map_some', filter_done_erase]
      · intro ks
        simp only [rangeRefers, hia, hl0, hdel2]

/-- The `range` loop of `Delete`: from the invariant for `done` the loop over
the keys `ks` ends without a panic in a heap with the invariant for all of them. -/
theorem rangeRefers_spec {K : Type}
    (del : Heap K → Option Nat → Res (Heap K) (Panic × Heap K))
    (h1 : Heap K) (hw1 : WF h1) (a : Nat) (N1 : Scope K) (m : List (Nat × Option Nat))
    (hN1 : h1[a]? = some N1) (hm : N1.refers = some m)
    (hdel : ∀ (h : Heap K) (c : Nat) (C : Scope K), WF h → h.length = h1.length →
      h[c]? = some C → a < c → C.parent = some a →
      ∃ h2, del h (some c) = Res.ok h2 ∧ WF h2 ∧ Deleted h c C.entry a h2) :
    ∀ (ks done : List Nat) (hi : Heap K), RangeInv h1 a m done hi →
      ∃ hj, rangeRefers del a ks hi = Res.ok hj ∧ RangeInv h1 a m (ks.reverse ++ done) hj := by
  intro ks
  induction ks with
  | nil =>
    intro done hi hinv
    exact ⟨hi, rfl, by simpa using hinv⟩
  | cons e ks ih =>
    intro done hi hinv
    obtain ⟨h2, hinv2, hstep⟩ := rangeRefers_step del h1 hw1 a N1 m hN1 hm hdel e done hi hinv
    obtain ⟨hj, hr, hinvj⟩ := ih (e :: done) h2 hinv2
    refine ⟨hj, by rw [hstep ks, hr], ?_⟩
    simpa [List.reverse_cons, List.append_assoc] using hinvj

theorem set_getElem {K : Type} (h : Heap K) (a : Nat) (N M : Scope K) (ha : h[a]? = some N)
    (b : Nat) : (h.set a M)[b]? = if b = a then some M else h[b]? := by
  have hlt : a < h.length := getElem?_lt ha
  by_cases hba : b = a
  · subst hba
    simp [List.getElem?_set, hlt]
  · rw [List.getElem?_set_ne (Ne.symm hba)]
    simp [hba]

/-- Replacing a node by one with the same entry, parent and child table keeps the
tree well-formed. -/
theorem WF_update_mocks {K : Type} {h : Heap K} (hw : WF h) (a : Nat) (N M : Scope K)
    (ha : h[a]? = some N) (he : M.entry = N.entry) (hp : M.parent = N.parent)
    (hr : M.refers = N.refers) (hm : a ≠ 0 → M.mocks ≠ none) : WF (h.set a M) := by
  have hget := set_getElem h a N M ha
  have hold : ∀ (b : Nat) (C : Scope K), h[b]? = some C → ∃ C1, (h.set a M)[b]? = some C1 ∧
      C1.entry = C.entry ∧ C1.parent = C.parent ∧ C1.refers = C.refers := by
    intro b C hC
    rw [hget b]
    by_cases hba : b = a
    · subst hba
      rw [ha] at hC
      cases hC
      simp only [if_true]
      exact ⟨M, rfl, he, hp, hr⟩
    · simp only [hba, if_false]
      exact ⟨C, hC, rfl, rfl, rfl⟩
  have hnew : ∀ (b : Nat) (C1 : Scope K), (h.set a M)[b]? = some C1 → ∃ C, h[b]? = some C ∧
      C1.entry = C.entry ∧ C1.parent = C.parent ∧ C1.refers = C.refers ∧
      (b ≠ 0 → C1.mocks ≠ none) := by
    intro b C1 hC1
    rw [hget b] at hC1
    by_cases hba : b = a
    · subst hba
      simp only [if_true, Option.some.injEq] at hC1
      subst hC1
      exact ⟨N, ha, he, hp, hr, hm⟩
    · simp only [hba, if_false] at hC1
      exact ⟨C1, hC1, rfl, rfl, rfl, (hw.maps b C1 hC1).2⟩
  refine ⟨?_, ?_, ?_, ?_⟩
  · obtain ⟨R, hR, hRe, hRp⟩ := hw.root
    obtain ⟨R1, hR1, e1, p1, _⟩ := hold 0 R hR
    exact ⟨R1, hR1, e1.trans hRe, p1.trans hRp⟩
  · intro b C1 hC1
    obtain ⟨C, hC, _, _, r1, m1⟩ := hnew b C1 hC1
    exact ⟨by rw [r1]; exact (hw.maps b C hC).1, m1⟩
  · intro b C1 q hC1 hb0 hq
    obtain ⟨C, hC, e1, p1, _, _⟩ := hnew b C1 hC1
    obtain ⟨hqb, Q, hQ, hQc⟩ := hw.up b C q hC hb0 (p1 ▸ hq)
    obtain ⟨Q1, hQ1, _, _, r1⟩ := hold q Q hQ
    refine ⟨hqb, Q1, hQ1, ?_⟩
    rw [e1]
    simpa [readChild, r1] using hQc
  · intro x X1 mx e1 c1 hX1 hmx hl
    obtain ⟨X, hX, _, _, r1, _⟩ := hnew x X1 hX1
    obtain ⟨b, C, hb, hb0, hC, hCe, hCp⟩ := hw.down x X mx e1 c1 hX (r1 ▸ hmx) hl
    obtain ⟨C1, hC1, e2, p2, _⟩ := hold b C hC
    exact ⟨b, C1, hb, hb0, hC1, e2.trans hCe, p2.trans hCp⟩

theorem readChild_erase {K : Type} (P : Scope K) (e e1 : Nat) :
    readChild { P with refers := P.refers.map (aerase e) } e1
      = if e1 = e then none else readChild P e1 := by
  cases hm : P.refers with
  | none => simp [readChild, hm]
  | some m =>
    by_cases he : e1 = e
    · subst he
      simp [readChild, hm, alookup_aerase_self]
    · simp [readChild, hm, alookup_aerase_ne e e1 m he, he]

/-- The last two statements of `Delete`, `delete(s.parent.refers, s.entry)` and
`s.parent = nil`, on a node without children keep the tree well-formed. -/
theorem WF_unlink {K : Type} {h : Heap K} (hw : WF h) (a p : Nat) (N P : Scope K)
    (ha : h[a]? = some N) (ha0 : a ≠ 0) (hr : N.refers = some []) (hp : N.parent = some p)
    (hP : h[p]? = some P) :
    WF ((h.set p { P with refers := P.refers.map (aerase N.entry) }).set a
      { N with parent := none }) ∧
    ∀ b, ((h.set p { P with refers := P.refers.map (aerase N.entry) }).set a
        { N with parent := none })[b]? =
      if b = a then some { N with parent := none }
      else if b = p then some { P with refers := P.refers.map (aerase N.entry) }
      else h[b]? := by
  obtain ⟨hpa, P0, hP0, hPc⟩ := hw.up a N p ha ha0 hp
  rw [hP] at hP0
  cases hP0
  have hne : a ≠ p := by omega
  have ha1 : (h.set p { P with refers := P.refers.map (aerase N.entry) })[a]? = some N := by
    rw [set_getElem h p P _ hP a]
    simp [hne, ha]
  have hget : ∀ b, ((h.set p { P with refers := P.refers.map (aerase N.entry) }).set a
        { N with parent := none })[b]? =
      if b = a then some { N with parent := none }
      else if b = p then some { P with refers := P.refers.map (aerase N.entry) }
      else h[b]? := by
    intro b
    rw [set_getElem _ a N _ ha1 b, set_getElem h p P _ hP b]
  refine ⟨?_, hget⟩
  -- a node other than `a` keeps entry and parent
  have hold : ∀ (b : Nat) (C : Scope K), h[b]? = some C → b ≠ a → ∃ C1,
      ((h.set p { P with refers := P.refers.map (aerase N.entry) }).set a
        { N with parent := none })[b]? = some C1 ∧
      C1.entry = C.entry ∧ C1.parent = C.parent ∧ (b ≠ p → C1 = C) := by
    intro b C hC hba
    rw [hget b]
    simp only [hba, if_false]
    by_cases hbp : b = p
    · subst hbp
      rw [hP] at hC
      cases hC
      simp only [if_true]
      exact ⟨_, rfl, rfl, rfl, fun hn => absurd rfl hn⟩
    · simp only [hbp, if_false]
      exact ⟨C, hC, rfl, rfl, fun _ => rfl⟩
  -- `a` has no child
  have hnochild : ∀ (b : Nat) (C : Scope K), h[b]? = some C → b ≠ 0 →
      C.parent ≠ some a := by
    intro b C hC hb0 hCp
    obtain ⟨_, A, hA, hAc⟩ := hw.up b C a hC hb0 hCp
    rw [ha] at hA
    cases hA
    simp [readChild, hr, alookup] at hAc
  refine ⟨?_, ?_, ?_, ?_⟩
  · obtain ⟨R, hR, hRe, hRp⟩ := hw.root
    obtain ⟨R1, hR1, e1, p1, _⟩ := hold 0 R hR (Ne.symm ha0)
    exact ⟨R1, hR1, e1.trans hRe, p1.trans hRp⟩
  · intro b C1 hC1
    rw [hget b] at hC1
    by_cases hba : b = a
    · subst hba
      simp only [if_true, Option.some.injEq] at hC1
      subst hC1
      exact ⟨by simp [hr], (hw.maps b N ha).2⟩
    · simp only [hba, if_false] at hC1
      by_cases hbp : b = p
      · subst hbp
        simp only [if_true, Option.some.injEq] at hC1
        subst hC1
        have := hw.maps b P hP
        refine ⟨?_, this.2⟩
        cases hPr : P.refers with
        | none => exact absurd hPr this.1
        | some mp => simp
      · simp only [hbp, if_false] at hC1
        exact hw.maps b C1 hC1
  · intro b C1 q hC1 hb0 hq
    rw [hget b] at hC1
    by_cases hba : b = a
    · subst hba
      simp only [if_true, Option.some.injEq] at hC1
      subst hC1
      cases hq
    · simp only [hba, if_false] at hC1
      -- the node of `b` in the old heap
      obtain ⟨C, hC, hCe, hCp⟩ : ∃ C, h[b]? = some C ∧ C1.entry = C.entry ∧
          C1.parent = C.parent := by
        by_cases hbp : b = p
        · subst hbp
          simp only [if_true, Option.some.injEq] at hC1
          subst hC1
          exact ⟨P, hP, rfl, rfl⟩
        · simp only [hbp, if_false] at hC1
          exact ⟨C1, hC1, rfl, rfl⟩
      rw [hCp] at hq
      obtain ⟨hqb, Q, hQ, hQc⟩ := hw.up b C q hC hb0 hq
      have hqa : q ≠ a := by
        intro hqa
        subst hqa
        exact hnochild b C hC hb0 hq
      refine ⟨hqb, ?_⟩
      rw [hget q]
      simp only [hqa, if_false]
      by_cases hqp : q = p
      · subst hqp
        rw [hP] at hQ
        cases hQ
        simp only [if_true]
        refine ⟨_, rfl, ?_⟩
        rw [readChild_erase, hCe]
        have hent : C.entry ≠ N.entry := by
          intro hent
          rw [hent, hPc] at hQc
          cases hQc
          exact hba rfl
        simp only [hent, if_false]
        exact hQc
      · simp only [hqp, if_false]
        exact ⟨Q, hQ, by rw [hCe]; exact hQc⟩
  · intro x X1 mx e1 c1 hX1 hmx hl
    rw [hget x] at hX1
    by_cases hxa : x = a
    · subst hxa
      simp only [if_true, Option.some.injEq] at hX1
      subst hX1
      rw [hr] at hmx
      cases hmx
      simp [alookup] at hl
    · simp only [hxa, if_false] at hX1
      by_cases hxp : x = p
      · subst hxp
        simp only [if_true, Option.some.injEq] at hX1
        subst hX1
        obtain ⟨mp, hPr⟩ : ∃ mp, P.refers = some mp := by
          cases hPr : P.refers with
          | none => simp [hPr] at hmx
          | some mp => exact ⟨mp, rfl⟩
        · simp only [hPr, Option.map_some', Option.some.injEq] at hmx
          subst hmx
          have he1 : e1 ≠ N.entry := by
            intro he1
            subst he1
            rw [alookup_aerase_self] at hl
            cases hl
          rw [alookup_aerase_ne N.entry e1 mp he1] at hl
          obtain ⟨b, C, hb, hb0, hC, hCe, hCp⟩ := hw.down x P mp e1 c1 hP hPr hl
          have hba : b ≠ a := by
            intro hba
            subst hba
            rw [ha] at hC
            cases hC
            exact he1 hCe.symm
          obtain ⟨C1, hC1, e2, p2, _⟩ := hold b C hC hba
          exact ⟨b, C1, hb, hb0, hC1, e2.trans hCe, p2.trans hCp⟩
      · simp only [hxp, if_false] at hX1
        obtain ⟨b, C, hb, hb0, hC, hCe, hCp⟩ := hw.down x X1 mx e1 c1 hX1 hmx hl
        have hba : b ≠ a := by
          intro hba
          subst hba
          rw [ha] at hC
          cases hC
          rw [hp] at hCp
          cases hCp
          exact hxp rfl
        obtain ⟨C1, hC1, e2, p2, _⟩ := hold b C hC hba
        exact ⟨b, C1, hb, hb0, hC1, e2.trans hCe, p2.trans hCp⟩

theorem filter_done_all (m : List (Nat × Option Nat)) (done : List Nat)
    (hall : ∀ x ∈ m, x.1 ∈ done) : m.filter (fun x => decide (x.1 ∉ done)) = [] := by
  induction m with
  | nil => rfl
  | cons y m ih =>
    have hy : y.1 ∈ done := hall y (List.mem_cons_self y m)
    rw [List.filter_cons_of_neg (by simpa using hy)]
    exact ih (fun x hx => hall x (List.mem_cons_of_mem y hx))

/-- `Delete` on a live non-root node of a well-formed tree, with fuel for the
part of the heap allocated after the node: it returns, the tree stays
well-formed, and the heap changes as `Deleted` says. -/
theorem Delete_spec {K : Type} :
    ∀ (fuel : Nat) (h : Heap K) (a : Nat) (N : Scope K) (p : Nat), WF h → h[a]? = some N →
      a ≠ 0 → N.parent = some p → h.length ≤ fuel + a →
      ∃ h1, Scope.Delete fuel h (some a) = Res.ok h1 ∧ WF h1 ∧ Deleted h a N.entry p h1 := by
  intro fuel
  induction fuel with
  | zero =>
    intro h a N p _ hN _ _ hfuel
    have := getElem?_lt hN
    omega
  | succ fuel ih =>
    intro h a N p hw hN ha0 hp hfuel
    obtain ⟨e, par, refs, mks⟩ := N
    simp only at hp
    subst hp
    have hmaps := hw.maps a _ hN
    obtain ⟨m, hm⟩ : ∃ m, refs = some m := by
      cases refs with
      | none => exact absurd rfl hmaps.1
      | some m => exact ⟨m, rfl⟩
    obtain ⟨mk, hmk⟩ : ∃ mk, mks = some mk := by
      cases mks with
      | none => exact absurd rfl (hmaps.2 ha0)
      | some mk => exact ⟨mk, rfl⟩
    subst hm hmk
    obtain ⟨hpa, P, hP, hPc⟩ := hw.up a _ p hN ha0 rfl
    have hap : a ≠ p := by omega
    -- after `clear(s.mocks)`
    have hw1 : WF (h.set a ⟨e, some p, some m, some []⟩) :=
      WF_update_mocks hw a _ _ hN rfl rfl rfl (by simp)
    have hget1 := set_getElem h a _ (⟨e, some p, some m, some []⟩ : Scope K) hN
    have hN1 : (h.set a ⟨e, some p, some m, some []⟩)[a]? = some ⟨e, some p, some m, some []⟩ := by
      rw [hget1 a]
      simp
    have hpar1 : ∀ (b : Nat) (X : Scope K) (q : Nat),
        (h.set a ⟨e, some p, some m, some []⟩)[b]? = some X → X.parent = some q →
        ∃ B, h[b]? = some B ∧ B.parent = some q := by
      intro b X q hX hq
      rw [hget1 b] at hX
      by_cases hba : b = a
      · subst hba
        simp only [if_true, Option.some.injEq] at hX
        subst hX
        exact ⟨_, hN, hq⟩
      · simp only [hba, if_false] at hX
        exact ⟨X, hX, hq⟩
    have hpar2 : ∀ (b : Nat) (B : Scope K) (q : Nat), h[b]? = some B → B.parent = some q →
        ∃ X, (h.set a ⟨e, some p, some m, some []⟩)[b]? = some X ∧ X.parent = some q := by
      intro b B q hB hq
      rw [hget1 b]
      by_cases hba : b = a
      · subst hba
        rw [hN] at hB
        cases hB
        simp only [if_true]
        exact ⟨_, rfl, hq⟩
      · simp only [hba, if_false]
        exact ⟨B, hB, hq⟩
    -- the recursive calls
    have hdel : ∀ (hx : Heap K) (c : Nat) (C : Scope K), WF hx →
        hx.length = (h.set a ⟨e, some p, some m, some []⟩).length →
        hx[c]? = some C → a < c → C.parent = some a →
        ∃ h2, (fun h' q => Scope.Delete fuel h' q) hx (some c) = Res.ok h2 ∧ WF h2 ∧
          Deleted hx c C.entry a h2 := by
      intro hx c C hwx hlen hC hac hCp
      simp only [List.length_set] at hlen
      exact ih hx c C a hwx hC (by omega) hCp (by omega)
    have hinv0 : RangeInv (h.set a ⟨e, some p, some m, some []⟩) a m []
        (h.set a ⟨e, some p, some m, some []⟩) := by
      refine ⟨hw1, rfl, ?_⟩
      intro b B hB
      refine ⟨?_, fun _ _ => hB, ?_⟩
      · rintro ⟨e1, he1, _⟩
        cases he1
      · intro hba
        subst hba
        rw [hN1] at hB
        cases hB
        rw [hN1]
        simp
    obtain ⟨hj, hrange, hwj, hlenj, hnodes⟩ :=
      rangeRefers_spec _ _ hw1 a _ m hN1 rfl hdel (m.map Prod.fst) [] _ hinv0
    have hall : ∀ x ∈ m, x.1 ∈ (m.map Prod.fst).reverse ++ [] := by
      intro x hx
      simp only [List.append_nil, List.mem_reverse, List.mem_map]
      exact ⟨x, hx, rfl⟩
    have hja : hj[a]? = some ⟨e, some p, some [], some []⟩ := by
      rw [(hnodes a _ hN1).2.2 rfl, filter_done_all m _ hall]
    -- the parent is untouched by the loop
    have hnotAffp : ¬ Aff (h.set a ⟨e, some p, some m, some []⟩) m
        ((m.map Prod.fst).reverse ++ []) p := by
      rintro ⟨e1, _, c, hc, hd⟩
      obtain ⟨b, C, hb, hb0, hC, _, hCp⟩ := hw1.down a _ m e1 (some c) hN1 rfl hc
      cases hb
      have := (hw1.up c C a hC hb0 hCp).1
      have := Desc_le hw1 hd
      omega
    have hP1 : (h.set a ⟨e, some p, some m, some []⟩)[p]? = some P := by
      rw [hget1 p]
      simp [Ne.symm hap, hP]
    have hjp : hj[p]? = some P := (hnodes p P hP1).2.1 hnotAffp (Ne.symm hap)
    obtain ⟨hwf, hgetf⟩ := WF_unlink hwj a p _ P hja ha0 rfl rfl hjp
    have h3a : (hj.set p { P with refers := P.refers.map (aerase e) })[a]?
        = some ⟨e, some p, some [], some []⟩ := by
      rw [set_getElem hj p P _ hjp a]
      simp [hap, hja]
    refine ⟨_, ?_, hwf, ?_, ?_⟩
    · rw [Scope.Delete]
      simp only [hN, Option.map_some', hrange, hja, hjp, h3a]
    · simp only [List.length_set]
      rw [hlenj]
      simp
    · intro b B hB
      refine ⟨?_, ?_, ?_⟩
      · intro hd
        by_cases hba : b = a
        · subst hba
          rw [hN] at hB
          cases hB
          rw [hgetf b]
          simp [detached]
        · have hbp : b ≠ p := by
            intro hbp
            subst hbp
            have := Desc_le hw hd
            omega
          rcases Desc_top hd with hba1 | ⟨c, C, hC, hCp, hcb⟩
          · exact absurd hba1 hba
          · have hc0 : c ≠ 0 := by
              intro hc0
              subst hc0
              obtain ⟨R, hR, _, hRp⟩ := hw.root
              rw [hC] at hR
              cases hR
              rw [hCp] at hRp
              cases hRp
              exact ha0 rfl
            obtain ⟨_, A, hA, hAc⟩ := hw.up c C a hC hc0 hCp
            rw [hN] at hA
            cases hA
            obtain ⟨m1, hm1, hl1⟩ := readChild_some hAc
            cases hm1
            have hAff : Aff (h.set a ⟨e, some p, some m, some []⟩) m
                ((m.map Prod.fst).reverse ++ []) b :=
              ⟨C.entry, by
                simp only [List.append_nil, List.mem_reverse]
                exact alookup_mem_keys _ _ _ hl1, c, hl1, Desc_mono hpar2 hcb⟩
            have hB1 : (h.set a ⟨e, some p, some m, some []⟩)[b]? = some B := by
              rw [hget1 b]
              simp [hba, hB]
            rw [hgetf b]
            simp only [hba, hbp, if_false]
            exact (hnodes b B hB1).1 hAff
      · intro hnd hbp
        have hba : b ≠ a := by
          intro hba
          subst hba
          exact hnd Desc.refl
        have hnAff : ¬ Aff (h.set a ⟨e, some p, some m, some []⟩) m
            ((m.map Prod.fst).reverse ++ []) b := by
          rintro ⟨e1, _, c, hc, hd⟩
          obtain ⟨b1, C, hb1, _, hC, _, hCp⟩ := hw.down a _ m e1 (some c) hN rfl hc
          cases hb1
          exact hnd (Desc_trans (Desc.step c a C hC hCp Desc.refl) (Desc_mono hpar1 hd))
        have hB1 : (h.set a ⟨e, some p, some m, some []⟩)[b]? = some B := by
          rw [hget1 b]
          simp [hba, hB]
        rw [hgetf b]
        simp only [hba, hbp, if_false]
        exact (hnodes b B hB1).2.1 hnAff hba
      · intro hbp
        subst hbp
        rw [hP] at hB
        cases hB
        rw [hgetf b]
        simp [Ne.symm hap]

/-- C4: `Delete` on a live non-root scope `a` (parent `p`) of a well-formed tree,
with fuel for the nodes allocated after `a`: it returns; `a` is no longer a child
of `p`; `a` and every descendant of `a` have an empty override table, an empty
child table and a nil parent; every node outside the subtree other than `p` is
unchanged (siblings and their subtrees in particular); `p` has only lost the
entry of `a` in its child table; and no node is allocated. -/
theorem Delete_detaches_subtree {K : Type} (h : Heap K) (hw : WF h) (a p : Nat)
    (N : Scope K) (hN : h[a]? = some N) (ha : a ≠ 0) (hp : N.parent = some p) (fuel : Nat)
    (hfuel : h.length ≤ fuel + a) :
    ∃ h1, Scope.Delete fuel h (some a) = Res.ok h1 ∧ h1.length = h.length ∧
      (∀ P1, h1[p]? = some P1 → ∀ e, readChild P1 e ≠ some a) ∧
      (∀ b B, h[b]? = some B → Desc h a b →
        h1[b]? = some { entry := B.entry, parent := none, refers := some [],
                        mocks := some [] }) ∧
      (∀ b B, h[b]? = some B → ¬ Desc h a b → b ≠ p → h1[b]? = some B) ∧
      (∀ P, h[p]? = some P →
        h1[p]? = some { P with refers := P.refers.map (aerase N.entry) }) := by
  obtain ⟨h1, hdel, _, hlen, hD⟩ := Delete_spec fuel h a N p hw hN ha hp hfuel
  obtain ⟨_, P, hP, _⟩ := hw.up a N p hN ha hp
  refine ⟨h1, hdel, hlen, ?_, fun b B hB hd => (hD b B hB).1 hd,
    fun b B hB hd hb => (hD b B hB).2.1 hd hb, fun P0 hP0 => (hD p P0 hP0).2.2 rfl⟩
  intro P1 hP1 e hc
  rw [(hD p P hP).2.2 rfl] at hP1
  cases hP1
  rw [readChild_erase] at hc
  by_cases he : e = N.entry
  · simp [he] at hc
  · simp only [he, if_false] at hc
    obtain ⟨m, hm, hl⟩ := readChild_some hc
    obtain ⟨b, C, hb, _, hC, hCe, _⟩ := hw.down p P m e (some a) hP hm hl
    cases hb
    rw [hN] at hC
    cases hC
    exact he hCe.symm

theorem WF_exHeap : WF exHeap := by
  refine ⟨⟨_, rfl, rfl, rfl⟩, ?_, ?_, ?_⟩
  · intro a N hN
    rcases a with _ | _ | _ | a
    · simp only [exHeap, List.getElem?_cons_zero, Option.some.injEq] at hN
      subst hN
      simp
    · simp only [exHeap, List.getElem?_cons_succ, List.getElem?_cons_zero,
        Option.some.injEq] at hN
      subst hN
      simp
    · simp only [exHeap, List.getElem?_cons_succ, List.getElem?_cons_zero,
        Option.some.injEq] at hN
      subst hN
      simp
    · simp [exHeap] at hN
  · intro b N p hN hb0 hp
    rcases b with _ | _ | _ | b
    · exact absurd rfl hb0
    · simp only [exHeap, List.getElem?_cons_succ, List.getElem?_cons_zero,
        Option.some.injEq] at hN
      subst hN
      simp only [Option.some.injEq] at hp
      subst hp
      exact ⟨by decide, _, rfl, rfl⟩
    · simp only [exHeap, List.getElem?_cons_succ, List.getElem?_cons_zero,
        Option.some.injEq] at hN
      subst hN
      simp only [Option.some.injEq] at hp
      subst hp
      exact ⟨by decide, _, rfl, rfl⟩
    · simp [exHeap] at hN
  · intro a N m e c hN hm hl
    rcases a with _ | _ | _ | a
    · simp only [exHeap, List.getElem?_cons_zero, Option.some.injEq] at hN
      subst hN
      simp only [Option.some.injEq] at hm
      subst hm
      by_cases he : 1 = e
      · subst he
        simp only [alookup, if_true, Option.some.injEq] at hl
        subst hl
        exact ⟨1, _, rfl, by decide, rfl, rfl, rfl⟩
      · simp [alookup, he] at hl
    · simp only [exHeap, List.getElem?_cons_succ, List.getElem?_cons_zero,
        Option.some.injEq] at hN
      subst hN
      simp only [Option.some.injEq] at hm
      subst hm
      by_cases he : 2 = e
      · subst he
        simp only [alookup, if_true, Option.some.injEq] at hl
        subst hl
        exact ⟨2, _, rfl, by decide, rfl, rfl, rfl⟩
      · simp [alookup, he] at hl
    · simp only [exHeap, List.getElem?_cons_succ, List.getElem?_cons_zero,
        Option.some.injEq] at hN
      subst hN
      simp only [Option.some.injEq] at hm
      subst hm
      simp [alookup] at hl
    · simp [exHeap] at hN

/-- Witness of C4: deleting node `1` of `exHeap`, whose parent is the root. -/
theorem Delete_detaches_subtree_witness :
    ∃ h1, Scope.Delete 2 exHeap (some 1) = Res.ok h1 ∧ h1.length = exHeap.length ∧
      (∀ P1, h1[0]? = some P1 → ∀ e, readChild P1 e ≠ some 1) ∧
      (∀ b B, exHeap[b]? = some B → Desc exHeap 1 b →
        h1[b]? = some { entry := B.entry, parent := none, refers := some [],
                        mocks := some [] }) ∧
      (∀ b B, exHeap[b]? = some B → ¬ Desc exHeap 1 b → b ≠ 0 → h1[b]? = some B) ∧
      (∀ P, exHeap[0]? = some P →
        h1[0]? = some { P with refers := P.refers.map (aerase 1) }) :=
  Delete_detaches_subtree exHeap WF_exHeap 1 0
    { entry := 1, parent := some 0, refers := some [(2, some 2)],
      mocks := some [(7, Value.func 42)] } rfl (by decide) rfl 2 (by decide)

/-! ## Dispatch: acquisition, resolution, deletion -/

theorem Ext.grow {K : Type} {h h1 : Heap K} (hx : Ext h h1) : Grow h h1 := by
  intro b N hN
  obtain ⟨N1, hN1, he, hp, _, hc⟩ := hx.2.1 b N hN
  exact ⟨N1, hN1, he, hp, hc⟩

theorem Grow_set_mocks {K : Type} (h : Heap K) (a : Nat) (N : Scope K)
    (mk : Option (List (K × Value))) (ha : h[a]? = some N) :
    Grow h (h.set a { N with mocks := mk }) := by
  intro b B hB
  rw [set_getElem h a N _ ha b]
  by_cases hba : b = a
  · subst hba
    rw [ha] at hB
    cases hB
    simp only [if_true]
    exact ⟨_, rfl, rfl, rfl, fun _ _ hc => hc⟩
  · simp only [hba, if_false]
    exact ⟨B, hB, rfl, rfl, fun _ _ hc => hc⟩

theorem Seg_grow {K : Type} {h h1 : Heap K} (hg : Grow h h1) :
    ∀ (c : List Nat) (s t : Option Nat), Seg h s c t → Seg h1 s c t := by
  intro c
  induction c with
  | nil =>
    intro s t hs
    exact hs
  | cons a c ih =>
    intro s t hs
    obtain ⟨hsa, ha, N, hN, hrest⟩ := hs
    obtain ⟨N1, hN1, _, hp, _⟩ := hg a N hN
    exact ⟨hsa, ha, N1, hN1, by rw [hp]; exact ih _ _ hrest⟩

theorem entryOf_map_grow {K : Type} {h h1 : Heap K} (hg : Grow h h1) :
    ∀ (c : List Nat) (s t : Option Nat), Seg h s c t →
      c.map (entryOf h1) = c.map (entryOf h) := by
  intro c
  induction c with
  | nil =>
    intro _ _ _
    rfl
  | cons a c ih =>
    intro s t hs
    obtain ⟨_, _, N, hN, hrest⟩ := hs
    obtain ⟨N1, hN1, he, _, _⟩ := hg a N hN
    simp only [List.map_cons, ih _ _ hrest]
    congr 1
    simp [entryOf, hN, hN1, he]

/-- C5: acquisition is find-or-create.  In a well-formed tree `lookupScope(root, p)`
returns a node `n` whose parent chain `c` reaches the root after exactly `len(p)`
nodes and carries the entries of `p` (innermost first); a second
`lookupScope(root, p)` returns `n` again and leaves the heap unchanged.  For two
paths `p ++ q1` and `p ++ q2`, acquired one after the other, the returned nodes
`r1` and `r2` lie `len(q1)` and `len(q2)` parent steps below that same `n`, along
chains that carry the entries of `q1` and `q2`, so that their chains to the root
are `c1 ++ c` and `c2 ++ c`, and `lookupScope(root, p)` still returns `n`. -/
theorem lookupScope_find_or_create {K : Type} (h : Heap K) (hw : WF h)
    (p q1 q2 : List frame) :
    ∃ (h1 : Heap K) (n : Nat) (c : List Nat),
      lookupScope h root p = Res.ok (h1, some n) ∧
      lookupScope h1 root p = Res.ok (h1, some n) ∧
      IsChain h1 (some n) c ∧ c.length = p.length ∧
      c.map (entryOf h1) = (p.map (fun fr => some fr.entry)).reverse ∧
      ∃ (h2 : Heap K) (r1 : Nat) (h3 : Heap K) (r2 : Nat) (c1 c2 : List Nat),
        lookupScope h root (p ++ q1) = Res.ok (h2, some r1) ∧
        lookupScope h2 root (p ++ q2) = Res.ok (h3, some r2) ∧
        lookupScope h3 root p = Res.ok (h3, some n) ∧
        IsChain h3 (some n) c ∧
        c.map (entryOf h3) = (p.map (fun fr => some fr.entry)).reverse ∧
        Seg h3 (some r1) c1 (some n) ∧ c1.length = q1.length ∧
        c1.map (entryOf h3) = (q1.map (fun fr => some fr.entry)).reverse ∧
        Seg h3 (some r2) c2 (some n) ∧ c2.length = q2.length ∧
        c2.map (entryOf h3) = (q2.map (fun fr => some fr.entry)).reverse ∧
        IsChain h3 (some r1) (c1 ++ c) ∧ IsChain h3 (some r2) (c2 ++ c) ∧
        ancestor h3 q1.length (some r1) = some n ∧
        ancestor h3 q2.length (some r2) = some n := by
  obtain ⟨h1, n, c, hl0, hw1, hn, hseg, hent, _, _⟩ := lookupScope_spec p h 0 hw hw.length_pos
  have hl : lookupScope h root p = Res.ok (h1, some n) := hl0
  have hch : IsChain h1 (some n) c := hseg
  have hst : lookupScope h1 root p = Res.ok (h1, some n) :=
    lookupScope_stable p h root h1 (some n) hl
  refine ⟨h1, n, c, hl, hst, hch, map_length_eq _ _ c p hent, hent, ?_⟩
  obtain ⟨h2, r1, c1, hl1, hw2, _, hseg1, hent1, _, _⟩ := lookupScope_spec q1 h1 n hw1 hn
  have hx12 : Ext h1 h2 := lookupScope_ext q1 h1 (some n) h2 (some r1) hl1
  have hn2 : n < h2.length := lt_of_lt_of_le hn hx12.1
  obtain ⟨h3, r2, c2, hl2, _, _, hseg2, hent2, _, _⟩ := lookupScope_spec q2 h2 n hw2 hn2
  have hx23 : Ext h2 h3 := lookupScope_ext q2 h2 (some n) h3 (some r2) hl2
  have hp2 : lookupScope h2 root p = Res.ok (h2, some n) :=
    lookupScope_found_ext p h1 root (some n) h2 hst hx12
  have hp3 : lookupScope h3 root p = Res.ok (h3, some n) :=
    lookupScope_found_ext p h2 root (some n) h3 hp2 hx23
  have hch2 : IsChain h2 (some n) c := Seg_ext hx12 c _ _ hch
  have hch3 : IsChain h3 (some n) c := Seg_ext hx23 c _ _ hch2
  have hent3 : c.map (entryOf h3) = (p.map (fun fr => some fr.entry)).reverse := by
    rw [entryOf_map_grow hx23.grow c _ _ hch2, entryOf_map_grow hx12.grow c _ _ hch]
    exact hent
  have hseg13 : Seg h3 (some r1) c1 (some n) := Seg_ext hx23 c1 _ _ hseg1
  have hent13 : c1.map (entryOf h3) = (q1.map (fun fr => some fr.entry)).reverse := by
    rw [entryOf_map_grow hx23.grow c1 _ _ hseg1]
    exact hent1
  have hlen1 : c1.length = q1.length := map_length_eq _ _ c1 q1 hent1
  have hlen2 : c2.length = q2.length := map_length_eq _ _ c2 q2 hent2
  refine ⟨h2, r1, h3, r2, c1, c2, ?_, ?_, hp3, hch3, hent3, hseg13, hlen1, hent13,
    hseg2, hlen2, hent2, Seg_append h3 c1 c _ _ _ hseg13 hch3,
    Seg_append h3 c2 c _ _ _ hseg2 hch3, ?_, ?_⟩
  · rw [lookupScope_append, hl]
    exact hl1
  · rw [lookupScope_append, hp2]
    exact hl2
  · rw [← hlen1]
    exact ancestor_of_seg h3 c1 _ _ hseg13
  · rw [← hlen2]
    exact ancestor_of_seg h3 c2 _ _ hseg2

/-- Witness of C5: the paths `[1, 2]` and `[1, 3]` from the initial tree. -/
theorem lookupScope_find_or_create_witness :
    ∃ (h1 : Heap Nat) (n : Nat) (c : List Nat),
      lookupScope (init Nat) root [frameOf 1] = Res.ok (h1, some n) ∧
      lookupScope h1 root [frameOf 1] = Res.ok (h1, some n) ∧
      IsChain h1 (some n) c ∧ c.length = [frameOf 1].length ∧
      c.map (entryOf h1) = ([frameOf 1].map (fun fr => some fr.entry)).reverse ∧
      ∃ (h2 : Heap Nat) (r1 : Nat) (h3 : Heap Nat) (r2 : Nat) (c1 c2 : List Nat),
        lookupScope (init Nat) root ([frameOf 1] ++ [frameOf 2]) = Res.ok (h2, some r1) ∧
        lookupScope h2 root ([frameOf 1] ++ [frameOf 3]) = Res.ok (h3, some r2) ∧
        lookupScope h3 root [frameOf 1] = Res.ok (h3, some n) ∧
        IsChain h3 (some n) c ∧
        c.map (entryOf h3) = ([frameOf 1].map (fun fr => some fr.entry)).reverse ∧
        Seg h3 (some r1) c1 (some n) ∧ c1.length = [frameOf 2].length ∧
        c1.map (entryOf h3) = ([frameOf 2].map (fun fr => some fr.entry)).reverse ∧
        Seg h3 (some r2) c2 (some n) ∧ c2.length = [frameOf 3].length ∧
        c2.map (entryOf h3) = ([frameOf 3].map (fun fr => some fr.entry)).reverse ∧
        IsChain h3 (some r1) (c1 ++ c) ∧ IsChain h3 (some r2) (c2 ++ c) ∧
        ancestor h3 [frameOf 2].length (some r1) = some n ∧
        ancestor h3 [frameOf 3].length (some r2) = some n :=
  lookupScope_find_or_create (init Nat) (WF_init Nat) [frameOf 1] [frameOf 2] [frameOf 3]

/-- A path that is found without creating a node is found again, at the same
node, in every heap that keeps the child tables. -/
theorem lookupScope_found_grow {K : Type} :
    ∀ (p : List frame) (h : Heap K) (s r : Option Nat) (h1 : Heap K),
      lookupScope h s p = Res.ok (h, r) → Grow h h1 →
      lookupScope h1 s p = Res.ok (h1, r) := by
  intro p
  induction p with
  | nil =>
    intro h s r h1 hl _
    simp only [lookupScope, Res.ok.injEq, Prod.mk.injEq, true_and] at hl
    simp [lookupScope, hl]
  | cons fr p ih =>
    intro h s r h1 hl hg
    cases s with
    | none => simp [lookupScope] at hl
    | some a =>
      cases hN : h[a]? with
      | none => simp [lookupScope, hN] at hl
      | some N =>
        cases hc : readChild N fr.entry with
        | some c =>
          simp only [lookupScope, hN, hc] at hl
          obtain ⟨N1, hN1, _, _, c1⟩ := hg a N hN
          simp only [lookupScope, hN1, c1 fr.entry c hc]
          exact ih h (some c) r h1 hl hg
        | none =>
          cases hm : N.refers with
          | none => simp [lookupScope, hN, hc, hm] at hl
          | some m =>
            simp only [lookupScope, hN, hc, hm] at hl
            have hlen := (lookupScope_ext p _ _ h r hl).1
            simp only [List.length_set, List.length_append, List.length_singleton] at hlen
            omega

theorem lookupScope_length_le {K : Type} :
    ∀ (p : List frame) (h : Heap K) (s : Option Nat) (h1 : Heap K) (r : Option Nat),
      lookupScope h s p = Res.ok (h1, r) → h1.length ≤ h.length + p.length := by
  intro p
  induction p with
  | nil =>
    intro h s h1 r hl
    simp only [lookupScope, Res.ok.injEq, Prod.mk.injEq] at hl
    rw [← hl.1]
    omega
  | cons fr p ih =>
    intro h s h1 r hl
    cases s with
    | none => simp [lookupScope] at hl
    | some a =>
      cases hN : h[a]? with
      | none => simp [lookupScope, hN] at hl
      | some N =>
        cases hc : readChild N fr.entry with
        | some c =>
          simp only [lookupScope, hN, hc] at hl
          have := ih h (some c) h1 r hl
          simp only [List.length_cons]
          omega
        | none =>
          cases hm : N.refers with
          | none => simp [lookupScope, hN, hc, hm] at hl
          | some m =>
            simp only [lookupScope, hN, hc, hm] at hl
            have := ih _ _ h1 r hl
            simp only [List.length_set, List.length_append, List.length_singleton] at this
            simp only [List.length_cons]
            omega

/-- The chain from a pointer to the root is unique. -/
theorem Seg_functional {K : Type} (h : Heap K) :
    ∀ (c1 c2 : List Nat) (s : Option Nat), Seg h s c1 root → Seg h s c2 root → c1 = c2 := by
  intro c1
  induction c1 with
  | nil =>
    intro c2 s h1 h2
    cases c2 with
    | nil => rfl
    | cons a c =>
      simp only [Seg] at h1
      obtain ⟨hs, ha, _⟩ := h2
      rw [h1] at hs
      simp only [root, Option.some.injEq] at hs
      exact absurd hs.symm ha
  | cons a c ih =>
    intro c2 s h1 h2
    obtain ⟨hs, ha, N, hN, hrest⟩ := h1
    cases c2 with
    | nil =>
      simp only [Seg] at h2
      rw [h2] at hs
      simp only [root, Option.some.injEq] at hs
      exact absurd hs.symm ha
    | cons a2 c2 =>
      obtain ⟨hs2, _, N2, hN2, hrest2⟩ := h2
      rw [hs] at hs2
      cases hs2
      rw [hN] at hN2
      cases hN2
      rw [ih c2 _ hrest hrest2]

/-- The first node of a chain that ends on a node has a parent. -/
theorem Seg_head_live {K : Type} {h : Heap K} {a : Nat} {c : List Nat} {s : Option Nat}
    {t : Nat} (hs : Seg h s (a :: c) (some t)) :
    s = some a ∧ a ≠ 0 ∧ ∃ N q, h[a]? = some N ∧ N.parent = some q := by
  obtain ⟨hsa, ha, N, hN, hrest⟩ := hs
  refine ⟨hsa, ha, N, ?_⟩
  cases c with
  | nil => exact ⟨t, hN, hrest⟩
  | cons a2 c2 => exact ⟨a2, hN, hrest.1⟩

theorem NoOverride_ext {K : Type} [DecidableEq K] {h h1 : Heap K} (hx : Ext h h1) (k : K)
    (ex : List Nat) (hno : NoOverride h k ex) : NoOverride h1 k ex := by
  intro b N1 hN1 hb
  by_cases hlt : b < h.length
  · obtain ⟨N, hN⟩ : ∃ N, h[b]? = some N := ⟨h[b], List.getElem?_eq_getElem hlt⟩
    obtain ⟨N1x, hN1x, _, _, hm, _⟩ := hx.2.1 b N hN
    rw [hN1] at hN1x
    cases hN1x
    have := hno b N hN hb
    simp only [mockEntry, hm] at this ⊢
    exact this
  · have := hx.2.2 b N1 (by omega) hN1
    simp [mockEntry, this, alookup]

/-- Acquiring the scope of a non-empty path and registering an override there. -/
theorem register_spec {K : Type} [DecidableEq K] (h : Heap K) (hw : WF h) (k : K)
    (hno : NoOverride h k []) (p : List frame) (hp : p ≠ []) (g : Nat) :
    ∃ h1 n h2 N2 c, lookupScope h root p = Res.ok (h1, some n) ∧
      Scope.set h1 (some n) k (Value.func g) = Res.ok h2 ∧ WF h2 ∧
      lookupScope h2 root p = Res.ok (h2, some n) ∧ n ≠ 0 ∧ h2[n]? = some N2 ∧
      mockEntry N2 k = some (Value.func g) ∧ (∃ q, N2.parent = some q) ∧
      NoOverride h2 k [n] ∧ IsChain h2 (some n) c ∧
      c.map (entryOf h2) = (p.map (fun fr => some fr.entry)).reverse := by
  obtain ⟨h1, n, c, hl, hw1, hn, hseg, hent, _, _⟩ :=
    lookupScope_spec p h 0 hw hw.length_pos
  have hx : Ext h h1 := lookupScope_ext p h (some 0) h1 (some n) hl
  have hno1 : NoOverride h1 k [] := NoOverride_ext hx k [] hno
  have hlen := map_length_eq _ _ c p hent
  cases c with
  | nil =>
    cases p with
    | nil => exact absurd rfl hp
    | cons fr p => simp at hlen
  | cons a c =>
    obtain ⟨hna, hn0, N1, q, hN1, hq⟩ := Seg_head_live hseg
    cases hna
    obtain ⟨m, hm⟩ : ∃ m, N1.mocks = some m := by
      cases hm : N1.mocks with
      | none => exact absurd hm ((hw1.maps n N1 hN1).2 hn0)
      | some m => exact ⟨m, rfl⟩
    have hg : Grow h1 (h1.set n { N1 with mocks := some (ainsert k (Value.func g) m) }) :=
      Grow_set_mocks h1 n N1 _ hN1
    have hget := set_getElem h1 n N1
      { N1 with mocks := some (ainsert k (Value.func g) m) } hN1
    refine ⟨h1, n, h1.set n { N1 with mocks := some (ainsert k (Value.func g) m) },
      { N1 with mocks := some (ainsert k (Value.func g) m) }, n :: c, hl, ?_,
      WF_update_mocks hw1 n N1 { N1 with mocks := some (ainsert k (Value.func g) m) } hN1
        rfl rfl rfl (by simp), ?_, hn0, ?_, ?_, ⟨q, hq⟩, ?_,
      Seg_grow hg _ _ _ hseg, ?_⟩
    · simp only [Scope.set, mustFunc, hN1, hm]
    · exact lookupScope_found_grow p h1 root (some n) _
        (lookupScope_stable p h root h1 (some n) hl) hg
    · rw [hget n]
      simp
    · exact (mockEntry_ainsert N1 m k (Value.func g) hm).1
    · intro b B hB hb
      rw [hget b] at hB
      have hbn : b ≠ n := by simpa using hb
      simp only [hbn, if_false] at hB
      exact hno1 b B hB (by simp)
    · rw [entryOf_map_grow hg _ _ _ hseg]
      exact hent

/-- C9, the claim fails: from the initial tree, an override `42` for key `7`
registered only at the scope of path `[1]` (node `1`) is what `get` returns at the
deeper scope of the recursive path `[1] ++ [1]` (node `2`), not the fallback `9`. -/
theorem override_reaches_deeper_scope :
    lookupScope (init Nat) root [frameOf 1] = Res.ok (treeA, some 1) ∧
      Scope.set treeA (some 1) 7 (Value.func 42) = Res.ok treeB ∧
      lookupScope treeB root ([frameOf 1] ++ [frameOf 1]) = Res.ok (treeC, some 2) ∧
      treeC.map (fun N => mockEntry N 7) = [none, some (Value.func 42), none] ∧
      Scope.get treeC (some 2) 7 (Value.func 9) 5 = Res.ok (Value.func 42) ∧
      Scope.get treeC (some 2) 7 (Value.func 9) 5 ≠ Res.ok (Value.func 9) :=
  ⟨rfl, rfl, rfl, rfl, rfl, by decide⟩

/-- C9 as amended: in a well-formed tree without an override for `k`, after an
override `g` is registered at the scope of a non-empty path `p`, `get` at the
scope of every extension `p ++ q` returns `g`: deeper scopes inherit the override
through the walk over the ancestors. -/
theorem override_is_inherited {K : Type} [DecidableEq K] (h : Heap K) (hw : WF h) (k : K)
    (hno : NoOverride h k []) (p q : List frame) (hp : p ≠ []) (g f : Nat) :
    ∃ h1 s h2 h3 d, lookupScope h root p = Res.ok (h1, s) ∧
      Scope.set h1 s k (Value.func g) = Res.ok h2 ∧
      lookupScope h2 root (p ++ q) = Res.ok (h3, d) ∧
      ∀ fuel, q.length < fuel →
        Scope.get h3 d k (Value.func f) fuel = Res.ok (Value.func g) := by
  obtain ⟨h1, n, h2, N2, c, hl, hset, hw2, hl2, hn0, hN2, hg, _, hno2, _, _⟩ :=
    register_spec h hw k hno p hp g
  obtain ⟨h3, d, c3, hl3, _, _, hseg3, hent3, hgt3, _⟩ :=
    lookupScope_spec q h2 n hw2 (getElem?_lt hN2)
  have hx : Ext h2 h3 := lookupScope_ext q h2 (some n) h3 (some d) hl3
  have hno3 : NoOverride h3 k [n] := NoOverride_ext hx k [n] hno2
  obtain ⟨N3, hN3, _, _, hm3, _⟩ := hx.2.1 n N2 hN2
  have hg3 : mockEntry N3 k = some (Value.func g) := by
    simp only [mockEntry, hm3] at hg ⊢
    exact hg
  refine ⟨h1, some n, h2, h3, some d, hl, hset, ?_, ?_⟩
  · rw [lookupScope_append, hl2]
    exact hl3
  · intro fuel hfuel
    have hlen := map_length_eq _ _ c3 q hent3
    obtain ⟨j, rfl⟩ : ∃ j, fuel = c3.length + (j + 1) := ⟨fuel - c3.length - 1, by omega⟩
    simp only [Scope.get, mustFunc]
    rw [getLoop_seg h3 k (Value.func f) (j + 1) c3 (some d) (some n) hseg3]
    · exact getLoop_hit h3 k (Value.func f) (Value.func g) j n N3 hn0 hN3 hg3 (by simp)
    · intro b hb B hB
      have := hgt3 b hb
      exact hno3 b B hB (by simp; omega)

/-- Witness of C9 as amended: paths `[1]` and `[1] ++ [1]` from the initial tree. -/
theorem override_is_inherited_witness :
    ∃ h1 s h2 h3 d, lookupScope (init Nat) root [frameOf 1] = Res.ok (h1, s) ∧
      Scope.set h1 s 7 (Value.func 42) = Res.ok h2 ∧
      lookupScope h2 root ([frameOf 1] ++ [frameOf 1]) = Res.ok (h3, d) ∧
      ∀ fuel, [frameOf 1].length < fuel →
        Scope.get h3 d 7 (Value.func 9) fuel = Res.ok (Value.func 42) :=
  override_is_inherited (init Nat) (WF_init Nat) 7
    (by
      intro b B hB _
      rcases b with _ | b
      · simp only [init, List.getElem?_cons_zero, Option.some.injEq] at hB
        subst hB
        rfl
      · simp [init] at hB)
    [frameOf 1] [frameOf 1] (by simp) 42 9

theorem prefix_of_map_some :
    ∀ (l1 l2 : List Nat) (X : List (Option Nat)), l2.map some = l1.map some ++ X →
      l1 <+: l2 := by
  intro l1
  induction l1 with
  | nil =>
    intro l2 X _
    exact List.nil_prefix
  | cons a l1 ih =>
    intro l2 X hX
    cases l2 with
    | nil => simp at hX
    | cons b l2 =>
      simp only [List.map_cons, List.cons_append, List.cons.injEq, Option.some.injEq] at hX
      obtain ⟨hba, htl⟩ := hX
      subst hba
      exact (List.cons_prefix_cons).mpr ⟨rfl, ih l2 X htl⟩

theorem dispatch_eq {K : Type} [DecidableEq K] (h : Heap K) (p : List frame) (k : K)
    (f : Value) (fuel : Nat) (h1 : Heap K) (s : Option Nat) (r : Value) (h2 : Heap K)
    (hl : lookupScope h root p = Res.ok (h1, s)) (hg : Scope.get h1 s k f fuel = Res.ok r)
    (hd : Scope.Delete fuel h1 s = Res.ok h2) :
    dispatch h p k f fuel = Res.ok (r, h2) := by
  simp only [dispatch, hl, hg, hd]

/-- After `Delete` of the only node that holds an override for `k`, no node does. -/
theorem NoOverride_deleted {K : Type} [DecidableEq K] {h h1 : Heap K} {n e q : Nat} (k : K)
    (hD : Deleted h n e q h1) (hqn : q ≠ n) (hno : NoOverride h k [n]) :
    NoOverride h1 k [] := by
  intro b B1 hB1 _
  have hlt : b < h.length := by
    rw [← hD.1]
    exact getElem?_lt hB1
  obtain ⟨B, hB⟩ : ∃ B, h[b]? = some B := ⟨h[b], List.getElem?_eq_getElem hlt⟩
  obtain ⟨c1, c2, c3⟩ := hD.2 b B hB
  by_cases hbq : b = q
  · rw [c3 hbq] at hB1
    cases hB1
    have := hno b B hB (by simp; omega)
    simpa [mockEntry] using this
  · by_cases hd : Desc h n b
    · rw [c1 hd] at hB1
      cases hB1
      simp [mockEntry, detached, alookup]
    · rw [c2 hd hbq] at hB1
      cases hB1
      have hbn : b ≠ n := by
        intro hbn
        subst hbn
        exact hd Desc.refl
      exact hno b _ hB (by simpa using hbn)

/-- The deferred `Delete` of a dispatch: the scope that `lookupScope` returned
for a non-empty path is live, so `Delete` returns. -/
theorem Delete_of_chain {K : Type} {h : Heap K} (hw : WF h) {d a : Nat} {c : List Nat}
    (hseg : IsChain h (some d) (a :: c)) (fuel : Nat) (hfuel : h.length ≤ fuel) :
    ∃ h2 e q, Scope.Delete fuel h (some d) = Res.ok h2 ∧ WF h2 ∧ q ≠ d ∧
      Deleted h d e q h2 := by
  obtain ⟨hda, hd0, N, q, hN, hq⟩ := Seg_head_live hseg
  cases hda
  obtain ⟨h2, hdel, hw2, hD⟩ := Delete_spec fuel h d N q hw hN hd0 hq (by omega)
  have := (hw.up d N q hN hd0 hq).1
  exact ⟨h2, N.entry, q, hdel, hw2, by omega, hD⟩

/-- C10, the code at the failing input: the override `42` for key `7` is registered
at the scope of path `[1]` of the initial tree.  The first dispatch from `[1]`
returns `42`, but its `Delete` runs on the very node the caller registered on and
detaches it: the second consecutive dispatch from `[1]` returns the fallback `9`
where the claim says `42`, and the caller's own `Delete` on its scope then fails
with a nil pointer panic.  Dispatches from the deeper path `[1, 2]`, whose
`Delete` runs on a node of their own, return `42` every time. -/
theorem second_dispatch_returns_fallback :
    lookupScope (init Nat) root [frameOf 1] = Res.ok (treeA, some 1) ∧
      Scope.set treeA (some 1) 7 (Value.func 42) = Res.ok treeB ∧
      dispatch treeB [frameOf 1] 7 (Value.func 9) 5 = Res.ok (Value.func 42, treeD) ∧
      dispatch treeD [frameOf 1] 7 (Value.func 9) 5 = Res.ok (Value.func 9, treeE) ∧
      Value.func 9 ≠ Value.func 42 ∧
      Scope.Delete 5 treeD (some 1) = Res.panic (Panic.nilDeref, treeD) ∧
      (∃ h3 h4, dispatch treeB [frameOf 1, frameOf 2] 7 (Value.func 9) 5
          = Res.ok (Value.func 42, h3) ∧
        dispatch h3 [frameOf 1, frameOf 2] 7 (Value.func 9) 5 = Res.ok (Value.func 42, h4)) :=
  ⟨rfl, rfl, rfl, rfl, by decide, rfl, _, _, rfl, rfl⟩

/-- The run above for every tree and path.  In a well-formed tree without an
override for `k`, after an override `g` is registered at the scope of a non-empty
path `p`, the code behaves as follows: the first dispatch from `p` returns `g`;
it deletes that scope and with it the override, so the next dispatch from `p`
returns the fallback `f`, which is the defect; and a dispatch from an unrelated
path `q` (neither a prefix of the other, as lists of entries) returns `f`.  The
fuel covers the heap and the path. -/
theorem dispatch_after_register {K : Type} [DecidableEq K] (h : Heap K) (hw : WF h) (k : K)
    (hno : NoOverride h k []) (p : List frame) (hp : p ≠ []) (g f : Nat) :
    ∃ h1 s h2, lookupScope h root p = Res.ok (h1, s) ∧
      Scope.set h1 s k (Value.func g) = Res.ok h2 ∧
      (∀ fuel, h2.length + p.length ≤ fuel →
        ∃ h3 h4, dispatch h2 p k (Value.func f) fuel = Res.ok (Value.func g, h3) ∧
          dispatch h3 p k (Value.func f) fuel = Res.ok (Value.func f, h4)) ∧
      (∀ (q : List frame) (fuel : Nat),
        ¬ (p.map (fun fr => fr.entry) <+: q.map (fun fr => fr.entry)) →
        ¬ (q.map (fun fr => fr.entry) <+: p.map (fun fr => fr.entry)) →
        h2.length + q.length ≤ fuel →
        ∃ h5, dispatch h2 q k (Value.func f) fuel = Res.ok (Value.func f, h5)) := by
  obtain ⟨h1, n, h2, N2, c, hl, hset, hw2, hl2, hn0, hN2, hg, ⟨pn, hpn⟩, hno2, hch, hent⟩ :=
    register_spec h hw k hno p hp g
  have hplen : 0 < p.length := by
    cases p with
    | nil => exact absurd rfl hp
    | cons fr p => simp
  refine ⟨h1, some n, h2, hl, hset, ?_, ?_⟩
  · intro fuel hfuel
    -- first dispatch
    obtain ⟨j, hj⟩ : ∃ j, fuel = j + 1 := ⟨fuel - 1, by omega⟩
    have hget : Scope.get h2 (some n) k (Value.func f) fuel = Res.ok (Value.func g) := by
      simp only [Scope.get, mustFunc]
      rw [hj]
      exact getLoop_hit h2 k (Value.func f) (Value.func g) j n N2 hn0 hN2 hg (by simp)
    obtain ⟨h3, hdel, hw3, hlen3, hD⟩ :=
      Delete_spec fuel h2 n N2 pn hw2 hN2 hn0 hpn (by omega)
    have hpnn : pn ≠ n := by
      have := (hw2.up n N2 pn hN2 hn0 hpn).1
      omega
    have hno3 : NoOverride h3 k [] := NoOverride_deleted k ⟨hlen3, hD⟩ hpnn hno2
    refine ⟨h3, ?_⟩
    -- second dispatch
    obtain ⟨h4, d, c4, hl4, hw4, _, hseg4, hent4, _, _⟩ :=
      lookupScope_spec p h3 0 hw3 hw3.length_pos
    have hx4 : Ext h3 h4 := lookupScope_ext p h3 (some 0) h4 (some d) hl4
    have hno4 : NoOverride h4 k [] := NoOverride_ext hx4 k [] hno3
    have hlen4 := lookupScope_length_le p h3 (some 0) h4 (some d) hl4
    have hc4 := map_length_eq _ _ c4 p hent4
    have hget4 : Scope.get h4 (some d) k (Value.func f) fuel = Res.ok (Value.func f) := by
      simp only [Scope.get, mustFunc]
      exact getLoop_fallback h4 (some d) c4 k (Value.func f) fuel hseg4
        (fun b _ B hB => hno4 b B hB (by simp)) (by omega)
    cases c4 with
    | nil => simp at hc4; omega
    | cons a4 c4 =>
      obtain ⟨h5, _, _, hdel5, _, _, _⟩ := Delete_of_chain hw4 hseg4 fuel (by omega)
      exact ⟨h5, dispatch_eq h2 p k _ fuel h2 (some n) _ h3 hl2 hget hdel,
        dispatch_eq h3 p k _ fuel h4 (some d) _ h5 hl4 hget4 hdel5⟩
  · intro q fuel hpq hqp hfuel
    obtain ⟨h5, d, c5, hl5, hw5, _, hseg5, hent5, _, _⟩ :=
      lookupScope_spec q h2 0 hw2 hw2.length_pos
    have hx5 : Ext h2 h5 := lookupScope_ext q h2 (some 0) h5 (some d) hl5
    have hno5 : NoOverride h5 k [n] := NoOverride_ext hx5 k [n] hno2
    have hlen5 := lookupScope_length_le q h2 (some 0) h5 (some d) hl5
    have hc5 := map_length_eq _ _ c5 q hent5
    -- the node of `p` is not on the chain of the node of `q`
    have hnot : n ∉ c5 := by
      intro hmem
      obtain ⟨pre, post, hsplit⟩ := List.append_of_mem hmem
      subst hsplit
      obtain ⟨m1, _, hs2⟩ := seg_append_split h5 pre (n :: post) (some d) root hseg5
      have hm1 : m1 = some n := hs2.1
      subst hm1
      have hchain5 : Seg h5 (some n) c root := Seg_grow hx5.grow c _ _ hch
      have hceq : n :: post = c := Seg_functional h5 _ _ (some n) hs2 hchain5
      have hentc : c.map (entryOf h5) = (p.map (fun fr => some fr.entry)).reverse := by
        rw [entryOf_map_grow hx5.grow c _ _ hch]
        exact hent
      rw [List.map_append, hceq, hentc] at hent5
      have hrev := congrArg List.reverse hent5
      simp only [List.reverse_append, List.reverse_reverse] at hrev
      apply hpq
      apply prefix_of_map_some _ _ (pre.map (entryOf h5)).reverse
      simpa [List.map_map, Function.comp] using hrev.symm
    have hget5 : Scope.get h5 (some d) k (Value.func f) fuel = Res.ok (Value.func f) := by
      simp only [Scope.get, mustFunc]
      exact getLoop_fallback h5 (some d) c5 k (Value.func f) fuel hseg5
        (fun b hb B hB => hno5 b B hB (by
          intro hbn
          simp only [List.mem_singleton] at hbn
          subst hbn
          exact hnot hb)) (by omega)
    cases c5 with
    | nil =>
      exfalso
      have hq0 : q = [] := List.length_eq_zero.mp (by simpa using hc5.symm)
      subst hq0
      exact hqp List.nil_prefix
    | cons a5 c5 =>
      obtain ⟨h6, _, _, hdel6, _, _, _⟩ := Delete_of_chain hw5 hseg5 fuel (by omega)
      exact ⟨h6, dispatch_eq h2 q k _ fuel h5 (some d) _ h6 hl5 hget5 hdel6⟩

/-- The general run at a registration at path `[1]` in the initial tree. -/
theorem dispatch_after_register_witness :
    ∃ h1 s h2, lookupScope (init Nat) root [frameOf 1] = Res.ok (h1, s) ∧
      Scope.set h1 s 7 (Value.func 42) = Res.ok h2 ∧
      (∀ fuel, h2.length + [frameOf 1].length ≤ fuel →
        ∃ h3 h4, dispatch h2 [frameOf 1] 7 (Value.func 9) fuel
            = Res.ok (Value.func 42, h3) ∧
          dispatch h3 [frameOf 1] 7 (Value.func 9) fuel = Res.ok (Value.func 9, h4)) ∧
      (∀ (q : List frame) (fuel : Nat),
        ¬ ([frameOf 1].map (fun fr => fr.entry) <+: q.map (fun fr => fr.entry)) →
        ¬ (q.map (fun fr => fr.entry) <+: [frameOf 1].map (fun fr => fr.entry)) →
        h2.length + q.length ≤ fuel →
        ∃ h5, dispatch h2 q 7 (Value.func 9) fuel = Res.ok (Value.func 9, h5)) :=
  dispatch_after_register (init Nat) (WF_init Nat) 7
    (by
      intro b B hB _
      rcases b with _ | b
      · simp only [init, List.getElem?_cons_zero, Option.some.injEq] at hB
        subst hB
        rfl
      · simp [init] at hB)
    [frameOf 1] (by simp) 42 9

/-! ## Misuse: fallback validation and deleted scopes -/

theorem getLoop_live {K : Type} [DecidableEq K] (h : Heap K) (k : K) (d : Value) :
    ∀ (c : List Nat) (s : Option Nat) (fuel : Nat), Seg h s c root → c.length ≤ fuel →
      ∃ v, getLoop h k d fuel s = Res.ok v := by
  intro c
  induction c with
  | nil =>
    intro s fuel hs _
    simp only [Seg] at hs
    subst hs
    exact ⟨d, getLoop_root h k d fuel⟩
  | cons a c ih =>
    intro s fuel hs hfuel
    obtain ⟨rfl, ha, N, hN, hrest⟩ := hs
    obtain ⟨n, rfl⟩ : ∃ n, fuel = n + 1 := ⟨fuel - 1, by simp only [List.length_cons] at hfuel; omega⟩
    have hne : (some a : Option Nat) ≠ root := by
      simp [root, ha]
    rw [getLoop]
    simp only [hne, if_false, hN]
    by_cases hv : readMock N k = Value.nil
    · simp only [hv, ne_eq, not_true_eq_false, if_false]
      exact ih N.parent n hrest (by simp only [List.length_cons] at hfuel; omega)
    · simp only [ne_eq, hv, not_false_eq_true, if_true]
      exact ⟨_, rfl⟩

/-- C20: `get` validates the fallback before any lookup: with a fallback that is
not a function it panics, whatever the tree holds for `k`; with a callable
fallback and a live scope `s` it returns a value, for every fuel that covers the
chain of `s`. -/
theorem get_validates_fallback_first {K : Type} [DecidableEq K] (h : Heap K)
    (s : Option Nat) (k : K) (d : Value) (fuel : Nat) :
    ((∀ id, d ≠ Value.func id) → ∃ e, Scope.get h s k d fuel = Res.panic e) ∧
      (∀ (f : Nat) (c : List Nat), d = Value.func f → IsChain h s c → c.length ≤ fuel →
        ∃ v, Scope.get h s k d fuel = Res.ok v) := by
  constructor
  · intro hd
    cases d with
    | nil => exact ⟨Panic.zeroValue, rfl⟩
    | func id => exact absurd rfl (hd id)
    | other n => exact ⟨Panic.notAFunction, rfl⟩
  · intro f c hd hc hfuel
    subst hd
    have hmust : mustFunc (Value.func f) = Res.ok (Value.func f) := rfl
    simp only [Scope.get, hmust]
    exact getLoop_live h k (Value.func f) c s fuel hc hfuel

/-- Witness of C20 on `exHeap`: node `2` sees the override of key `7`, and `get`
with the nil interface as fallback panics all the same. -/
theorem get_validates_fallback_first_witness :
    (∃ e, Scope.get exHeap (some 2) 7 Value.nil 5 = Res.panic e) ∧
      (∃ v, Scope.get exHeap (some 2) 7 (Value.func 9) 5 = Res.ok v) :=
  ⟨(get_validates_fallback_first exHeap (some 2) 7 Value.nil 5).1
      (by intro id hid; cases hid),
    (get_validates_fallback_first exHeap (some 2) 7 (Value.func 9) 5).2 9 [2, 1] rfl
      ⟨rfl, by decide, _, rfl, rfl, by decide, _, rfl, rfl⟩ (by decide)⟩

theorem set_same {K : Type} (h : Heap K) (a : Nat) (N : Scope K) (ha : h[a]? = some N) :
    h.set a N = h := by
  apply List.ext_getElem?
  intro b
  rw [set_getElem h a N N ha b]
  by_cases hba : b = a
  · subst hba
    simp [ha]
  · simp [hba]

/-- The heap after `Delete` is determined by `Deleted`. -/
theorem Deleted_unique {K : Type} {h h1 h2 : Heap K} {a e p : Nat}
    (d1 : Deleted h a e p h1) (d2 : Deleted h a e p h2) : h1 = h2 := by
  apply List.ext_getElem?
  intro b
  by_cases hlt : b < h.length
  · obtain ⟨B, hB⟩ : ∃ B, h[b]? = some B := ⟨h[b], List.getElem?_eq_getElem hlt⟩
    obtain ⟨x1, x2, x3⟩ := d1.2 b B hB
    obtain ⟨y1, y2, y3⟩ := d2.2 b B hB
    by_cases hd : Desc h a b
    · rw [x1 hd, y1 hd]
    · by_cases hbp : b = p
      · rw [x3 hbp, y3 hbp]
      · rw [x2 hd hbp, y2 hd hbp]
  · rw [List.getElem?_eq_none (by rw [d1.1]; omega),
      List.getElem?_eq_none (by rw [d2.1]; omega)]

/-- `Delete` on a live non-root node: one heap is the result for every fuel that
covers the nodes allocated after the node. -/
theorem Delete_total {K : Type} (h : Heap K) (hw : WF h) (a p : Nat) (N : Scope K)
    (hN : h[a]? = some N) (ha : a ≠ 0) (hp : N.parent = some p) :
    ∃ h1, WF h1 ∧ Deleted h a N.entry p h1 ∧
      ∀ fuel, h.length ≤ fuel + a → Scope.Delete fuel h (some a) = Res.ok h1 := by
  obtain ⟨h1, _, hw1, hD⟩ := Delete_spec h.length h a N p hw hN ha hp (by omega)
  refine ⟨h1, hw1, hD, ?_⟩
  intro fuel hfuel
  obtain ⟨h2, hdel, _, hD2⟩ := Delete_spec fuel h a N p hw hN ha hp hfuel
  rw [hdel, Deleted_unique hD hD2]

/-- A detached node: a second `Delete` and `get` dereference its nil parent. -/
theorem detached_use_panics {K : Type} [DecidableEq K] (h1 : Heap K) (a e : Nat)
    (ha : a ≠ 0) (hN : h1[a]? = some ⟨e, none, some [], some []⟩) (k : K) (f : Nat) :
    (∀ fuel, 0 < fuel → Scope.Delete fuel h1 (some a) = Res.panic (Panic.nilDeref, h1)) ∧
      (∀ fuel, 2 ≤ fuel →
        Scope.get h1 (some a) k (Value.func f) fuel = Res.panic Panic.nilDeref) := by
  constructor
  · intro fuel hfuel
    obtain ⟨n, rfl⟩ : ∃ n, fuel = n + 1 := ⟨fuel - 1, by omega⟩
    have hs : h1.set a (⟨e, none, some [], some []⟩ : Scope K) = h1 := set_same h1 a _ hN
    rw [Scope.Delete]
    simp only [hN, Option.map_some', List.map_nil, hs, rangeRefers]
  · intro fuel hfuel
    obtain ⟨n, rfl⟩ : ∃ n, fuel = n + 2 := ⟨fuel - 2, by omega⟩
    have hne : (some a : Option Nat) ≠ root := by
      simp [root, ha]
    have hnr : (none : Option Nat) ≠ root := by
      simp [root]
    have hmust : mustFunc (Value.func f) = Res.ok (Value.func f) := rfl
    simp only [Scope.get, hmust]
    rw [getLoop]
    simp only [hne, if_false, hN]
    have hread : readMock (⟨e, none, some [], some []⟩ : Scope K) k = Value.nil := by
      simp [readMock, mockEntry, alookup]
    simp only [hread, ne_eq, not_true_eq_false, if_false]
    rw [getLoop]
    simp only [hnr, if_false]

/-- C12, the claim fails for `set`: after `Delete` of node `1` of `treeB` the
detached node still has its (cleared) override table, and `set(7, 5)` on it
succeeds instead of failing. -/
theorem set_on_deleted_scope_succeeds :
    Scope.Delete 2 treeB (some 1) = Res.ok treeD ∧
      Scope.set treeD (some 1) 7 (Value.func 5) = Res.ok treeF ∧
      ¬ ∃ e, Scope.set treeD (some 1) 7 (Value.func 5) = Res.panic e := by
  refine ⟨rfl, rfl, ?_⟩
  rintro ⟨e, he⟩
  have hs : Scope.set treeD (some 1) 7 (Value.func 5) = Res.ok treeF := rfl
  rw [hs] at he
  cases he

/-- C12 as amended: after `Delete` on a live non-root scope `a` of a well-formed
tree, a second `Delete` on `a` panics with a nil pointer dereference and leaves
the heap as it is, and `get` on `a` with a callable fallback panics with a nil
pointer dereference. -/
theorem deleted_scope_use_panics {K : Type} [DecidableEq K] (h : Heap K) (hw : WF h)
    (a p : Nat) (N : Scope K) (hN : h[a]? = some N) (ha : a ≠ 0) (hp : N.parent = some p)
    (k : K) (f : Nat) :
    ∃ h1, (∀ fuel, h.length ≤ fuel + a → Scope.Delete fuel h (some a) = Res.ok h1) ∧
      (∀ fuel, 0 < fuel → Scope.Delete fuel h1 (some a) = Res.panic (Panic.nilDeref, h1)) ∧
      (∀ fuel, 2 ≤ fuel →
        Scope.get h1 (some a) k (Value.func f) fuel = Res.panic Panic.nilDeref) := by
  obtain ⟨h1, _, hD, hdel⟩ := Delete_total h hw a p N hN ha hp
  have hN1 : h1[a]? = some ⟨N.entry, none, some [], some []⟩ := (hD.2 a N hN).1 Desc.refl
  obtain ⟨x1, x2⟩ := detached_use_panics h1 a N.entry ha hN1 k f
  exact ⟨h1, hdel, x1, x2⟩

/-- Witness of C12 as amended: node `1` of `exHeap`. -/
theorem deleted_scope_use_panics_witness :
    ∃ h1, (∀ fuel, exHeap.length ≤ fuel + 1 → Scope.Delete fuel exHeap (some 1) = Res.ok h1) ∧
      (∀ fuel, 0 < fuel → Scope.Delete fuel h1 (some 1) = Res.panic (Panic.nilDeref, h1)) ∧
      (∀ fuel, 2 ≤ fuel →
        Scope.get h1 (some 1) 7 (Value.func 9) fuel = Res.panic Panic.nilDeref) :=
  deleted_scope_use_panics exHeap WF_exHeap 1 0
    { entry := 1, parent := some 0, refers := some [(2, some 2)],
      mocks := some [(7, Value.func 42)] } rfl (by decide) rfl 7 9

/-! ## Paths identify nodes -/

/-- Two chains to the root that carry the same entries start at the same node:
a live node is determined by its path. -/
theorem chain_unique {K : Type} {h : Heap K} (hw : WF h) :
    ∀ (c1 c2 : List Nat) (s1 s2 : Option Nat), Seg h s1 c1 root → Seg h s2 c2 root →
      c1.map (entryOf h) = c2.map (entryOf h) → s1 = s2 ∧ c1 = c2 := by
  intro c1
  induction c1 with
  | nil =>
    intro c2 s1 s2 h1 h2 hent
    cases c2 with
    | nil =>
      simp only [Seg] at h1 h2
      exact ⟨h1.trans h2.symm, rfl⟩
    | cons b c2 => simp at hent
  | cons a c1 ih =>
    intro c2 s1 s2 h1 h2 hent
    cases c2 with
    | nil => simp at hent
    | cons b c2 =>
      obtain ⟨hs1, ha, N, hN, hr1⟩ := h1
      obtain ⟨hs2, hb, M, hM, hr2⟩ := h2
      simp only [List.map_cons, List.cons.injEq] at hent
      obtain ⟨he, htl⟩ := hent
      obtain ⟨hpar, hc⟩ := ih c2 N.parent M.parent hr1 hr2 htl
      have hNM : N.entry = M.entry := by
        simpa [entryOf, hN, hM] using he
      -- the common parent
      obtain ⟨q, hq⟩ : ∃ q, N.parent = some q := by
        cases c1 with
        | nil => exact ⟨0, hr1⟩
        | cons x c => exact ⟨x, hr1.1⟩
      obtain ⟨_, P, hP, hPa⟩ := hw.up a N q hN ha hq
      obtain ⟨_, P2, hP2, hPb⟩ := hw.up b M q hM hb (hpar ▸ hq)
      rw [hP] at hP2
      cases hP2
      rw [hNM, hPb] at hPa
      cases hPa
      exact ⟨hs1.trans hs2.symm, by rw [hc]⟩

/-- In an extension of the heap, the chain of an old node runs through old nodes. -/
theorem Seg_restrict {K : Type} {h h1 : Heap K} (hw1 : WF h1) (hx : Ext h h1) :
    ∀ (c : List Nat) (s : Option Nat), Seg h1 s c root → (∀ a, s = some a → a < h.length) →
      Seg h s c root ∧ c.map (entryOf h) = c.map (entryOf h1) := by
  intro c
  induction c with
  | nil =>
    intro s hs _
    exact ⟨hs, rfl⟩
  | cons a c ih =>
    intro s hs hold
    obtain ⟨hsa, ha, N1, hN1, hrest⟩ := hs
    have hlt : a < h.length := hold a hsa
    obtain ⟨N, hN⟩ : ∃ N, h[a]? = some N := ⟨h[a], List.getElem?_eq_getElem hlt⟩
    obtain ⟨N1x, hN1x, he, hp, _, _⟩ := hx.2.1 a N hN
    rw [hN1] at hN1x
    cases hN1x
    have hnext : ∀ q, N1.parent = some q → q < h.length := by
      intro q hq
      have := (hw1.up a N1 q hN1 ha hq).1
      omega
    obtain ⟨ih1, ih2⟩ := ih N1.parent hrest hnext
    refine ⟨⟨hsa, ha, N, hN, by rw [← hp]; exact ih1⟩, ?_⟩
    simp only [List.map_cons, ih2]
    congr 1
    simp [entryOf, hN, hN1, he]

/-- A chain to the root in the heap after `Delete` is a chain of the heap before
it and avoids the deleted subtree. -/
theorem Seg_undelete {K : Type} {h h1 : Heap K} {n e p : Nat} (hD : Deleted h n e p h1) :
    ∀ (c : List Nat) (s : Option Nat), Seg h1 s c root →
      Seg h s c root ∧ c.map (entryOf h) = c.map (entryOf h1) ∧ ∀ x ∈ c, ¬ Desc h n x := by
  intro c
  induction c with
  | nil =>
    intro s hs
    exact ⟨hs, rfl, by simp⟩
  | cons a c ih =>
    intro s hs
    obtain ⟨hsa, ha, N1, hN1, hrest⟩ := hs
    have hlt : a < h.length := by
      rw [← hD.1]
      exact getElem?_lt hN1
    obtain ⟨N, hN⟩ : ∃ N, h[a]? = some N := ⟨h[a], List.getElem?_eq_getElem hlt⟩
    obtain ⟨x1, x2, x3⟩ := hD.2 a N hN
    have hpar : ∃ q, N1.parent = some q := by
      cases c with
      | nil => exact ⟨0, hrest⟩
      | cons y c => exact ⟨y, hrest.1⟩
    have hnd : ¬ Desc h n a := by
      intro hd
      rw [x1 hd] at hN1
      cases hN1
      obtain ⟨q, hq⟩ := hpar
      simp [detached] at hq
    have hsame : N1.entry = N.entry ∧ N1.parent = N.parent := by
      by_cases hap : a = p
      · rw [x3 hap] at hN1
        cases hN1
        exact ⟨rfl, rfl⟩
      · rw [x2 hnd hap] at hN1
        cases hN1
        exact ⟨rfl, rfl⟩
    obtain ⟨ih1, ih2, ih3⟩ := ih N1.parent hrest
    refine ⟨⟨hsa, ha, N, hN, by rw [← hsame.2]; exact ih1⟩, ?_, ?_⟩
    · simp only [List.map_cons, ih2]
      congr 1
      simp [entryOf, hN, hN1, hsame.1]
    · intro x hx
      rcases List.mem_cons.mp hx with hx | hx
      · rw [hx]
        exact hnd
      · exact ih3 x hx

/-- A node that `lookupScope` returns and that it has allocated itself is fresh:
empty override table, no children. -/
theorem lookupScope_new_node {K : Type} :
    ∀ (p : List frame) (h : Heap K) (a : Nat), WF h → a < h.length →
      ∀ (h1 : Heap K) (r : Nat), lookupScope h (some a) p = Res.ok (h1, some r) →
        h.length ≤ r → ∃ e q, h1[r]? = some ⟨e, some q, some [], some []⟩ := by
  intro p
  induction p with
  | nil =>
    intro h a _ ha h1 r hl hr
    simp only [lookupScope, Res.ok.injEq, Prod.mk.injEq, Option.some.injEq] at hl
    omega
  | cons fr p ih =>
    intro h a hw ha h1 r hl hr
    obtain ⟨h2, b, C, hw2, hx2, hC, hCe, hCp, hab, hstep, hcase⟩ :=
      lookupScope_step h hw a ha fr p
    rw [hstep] at hl
    rcases hcase with ⟨hh, _⟩ | ⟨hlen, hb, hCr⟩
    · subst hh
      exact ih h2 b hw2 (getElem?_lt hC) h1 r hl hr
    · cases p with
      | nil =>
        simp only [lookupScope, Res.ok.injEq, Prod.mk.injEq, Option.some.injEq] at hl
        obtain ⟨hh, hbr⟩ := hl
        subst hh hbr
        have hCm : C.mocks = some [] := hx2.2.2 b C (by omega) hC
        refine ⟨C.entry, a, ?_⟩
        rw [hC]
        obtain ⟨e, par, refs, mks⟩ := C
        simp only at hCp hCr hCm
        subst hCp hCr hCm
        rfl
      | cons fr2 p2 =>
        obtain ⟨h1x, rx, c, hlx, _, _, hseg, hent, hgt, _⟩ :=
          lookupScope_spec (fr2 :: p2) h2 b hw2 (getElem?_lt hC)
        rw [hlx] at hl
        simp only [Res.ok.injEq, Prod.mk.injEq, Option.some.injEq] at hl
        obtain ⟨hh, hrr⟩ := hl
        subst hh hrr
        have hlen2 := map_length_eq _ _ c (fr2 :: p2) hent
        cases c with
        | nil => simp at hlen2
        | cons x c =>
          have hrx : rx = x := by
            have := hseg.1
            simpa using this
          have := hgt x (List.mem_cons_self x c)
          exact ih h2 b hw2 (getElem?_lt hC) h1x rx hlx (by omega)

/-- Acquiring the scope of a non-empty path and registering an override there,
whatever the tree holds for the key. -/
theorem register_core {K : Type} [DecidableEq K] (h : Heap K) (hw : WF h) (k : K)
    (p : List frame) (hp : p ≠ []) (g : Nat) :
    ∃ h1 n h2 N2 c, lookupScope h root p = Res.ok (h1, some n) ∧
      Scope.set h1 (some n) k (Value.func g) = Res.ok h2 ∧ WF h2 ∧ n ≠ 0 ∧
      h2[n]? = some N2 ∧ (∃ q, N2.parent = some q) ∧ IsChain h2 (some n) c ∧
      c.map (entryOf h2) = (p.map (fun fr => some fr.entry)).reverse := by
  obtain ⟨h1, n, c, hl, hw1, hn, hseg, hent, _, _⟩ :=
    lookupScope_spec p h 0 hw hw.length_pos
  have hlen := map_length_eq _ _ c p hent
  cases c with
  | nil =>
    cases p with
    | nil => exact absurd rfl hp
    | cons fr p => simp at hlen
  | cons a c =>
    obtain ⟨hna, hn0, N1, q, hN1, hq⟩ := Seg_head_live hseg
    cases hna
    obtain ⟨m, hm⟩ : ∃ m, N1.mocks = some m := by
      cases hm : N1.mocks with
      | none => exact absurd hm ((hw1.maps n N1 hN1).2 hn0)
      | some m => exact ⟨m, rfl⟩
    have hg : Grow h1 (h1.set n { N1 with mocks := some (ainsert k (Value.func g) m) }) :=
      Grow_set_mocks h1 n N1 _ hN1
    have hget := set_getElem h1 n N1
      { N1 with mocks := some (ainsert k (Value.func g) m) } hN1
    refine ⟨h1, n, h1.set n { N1 with mocks := some (ainsert k (Value.func g) m) },
      { N1 with mocks := some (ainsert k (Value.func g) m) }, n :: c, hl, ?_,
      WF_update_mocks hw1 n N1 { N1 with mocks := some (ainsert k (Value.func g) m) } hN1
        rfl rfl rfl (by simp), hn0, ?_, ⟨q, hq⟩, Seg_grow hg _ _ _ hseg, ?_⟩
    · simp only [Scope.set, mustFunc, hN1, hm]
    · rw [hget n]
      simp
    · rw [entryOf_map_grow hg _ _ _ hseg]
      exact hent

/-- C11: registering `g` for `k` at the scope of a non-empty path `p`, deleting
that scope and acquiring `p` again yields a node `n1` that was not there before
(so it is not the deleted node), with an empty override table and no children;
and `get(k, f)` on it returns `f`, provided no proper ancestor of it (the rest
`c` of its chain) holds an entry for `k`. -/
theorem reacquire_forgets_override {K : Type} [DecidableEq K] (h : Heap K) (hw : WF h)
    (k : K) (p : List frame) (hp : p ≠ []) (g f : Nat) :
    ∃ h1 n h2 h3 h4 n1 c, lookupScope h root p = Res.ok (h1, some n) ∧
      Scope.set h1 (some n) k (Value.func g) = Res.ok h2 ∧
      (∀ fuel, h2.length ≤ fuel → Scope.Delete fuel h2 (some n) = Res.ok h3) ∧
      lookupScope h3 root p = Res.ok (h4, some n1) ∧
      h3.length ≤ n1 ∧ n1 ≠ n ∧
      (∃ e q, h4[n1]? = some ⟨e, some q, some [], some []⟩) ∧
      IsChain h4 (some n1) (n1 :: c) ∧
      ((∀ a ∈ c, ∀ N, h4[a]? = some N → mockEntry N k = none) →
        ∀ fuel, p.length ≤ fuel →
          Scope.get h4 (some n1) k (Value.func f) fuel = Res.ok (Value.func f)) := by
  obtain ⟨h1, n, h2, N2, c, hl, hset, hw2, hn0, hN2, ⟨q, hq⟩, hch, hent⟩ :=
    register_core h hw k p hp g
  obtain ⟨h3, hw3, hD, hdel⟩ := Delete_total h2 hw2 n q N2 hN2 hn0 hq
  obtain ⟨h4, n1, c4, hl4, hw4, _, hseg4, hent4, _, _⟩ :=
    lookupScope_spec p h3 0 hw3 hw3.length_pos
  have hx4 : Ext h3 h4 := lookupScope_ext p h3 (some 0) h4 (some n1) hl4
  have hlen4 := map_length_eq _ _ c4 p hent4
  cases c4 with
  | nil =>
    cases p with
    | nil => exact absurd rfl hp
    | cons fr p => simp at hlen4
  | cons a4 c4 =>
    have hna : a4 = n1 := by
      have := hseg4.1
      simpa using this.symm
    subst hna
    -- the node is new
    have hnew : h3.length ≤ a4 := by
      by_contra hlt
      obtain ⟨s3, e3⟩ := Seg_restrict hw4 hx4 (a4 :: c4) (some a4) hseg4
        (by intro a ha; cases ha; omega)
      obtain ⟨s2, e2, hnd⟩ := Seg_undelete hD (a4 :: c4) (some a4) s3
      have hentc : (a4 :: c4).map (entryOf h2) = c.map (entryOf h2) := by
        rw [e2, e3, hent4, hent]
      obtain ⟨hnn, _⟩ := chain_unique hw2 (a4 :: c4) c (some a4) (some n) s2 hch hentc
      exact hnd a4 (List.mem_cons_self a4 c4)
        (by rw [Option.some.inj hnn]; exact Desc.refl)
    have hn3 : n < h3.length := by
      rw [hD.1]
      exact getElem?_lt hN2
    obtain ⟨e, q1, hfresh⟩ := lookupScope_new_node p h3 0 hw3 hw3.length_pos h4 a4 hl4 hnew
    refine ⟨h1, n, h2, h3, h4, a4, c4, hl, hset, fun fuel hfuel => hdel fuel (by omega), hl4,
      hnew, by omega, ⟨e, q1, hfresh⟩, hseg4, ?_⟩
    intro hanc fuel hfuel
    have hmust : mustFunc (Value.func f) = Res.ok (Value.func f) := rfl
    simp only [Scope.get, hmust]
    apply getLoop_fallback h4 (some a4) (a4 :: c4) k (Value.func f) fuel hseg4
    · intro a ha N hN
      rcases List.mem_cons.mp ha with ha | ha
      · subst ha
        rw [hfresh] at hN
        cases hN
        simp [mockEntry, alookup]
      · exact hanc a ha N hN
    · rw [hlen4]
      exact hfuel

/-- Witness of C11: path `[1]` in the initial tree. -/
theorem reacquire_forgets_override_witness :
    ∃ h1 n h2 h3 h4 n1 c, lookupScope (init Nat) root [frameOf 1] = Res.ok (h1, some n) ∧
      Scope.set h1 (some n) 7 (Value.func 42) = Res.ok h2 ∧
      (∀ fuel, h2.length ≤ fuel → Scope.Delete fuel h2 (some n) = Res.ok h3) ∧
      lookupScope h3 root [frameOf 1] = Res.ok (h4, some n1) ∧
      h3.length ≤ n1 ∧ n1 ≠ n ∧
      (∃ e q, h4[n1]? = some ⟨e, some q, some [], some []⟩) ∧
      IsChain h4 (some n1) (n1 :: c) ∧
      ((∀ a ∈ c, ∀ N, h4[a]? = some N → mockEntry N 7 = none) →
        ∀ fuel, [frameOf 1].length ≤ fuel →
          Scope.get h4 (some n1) 7 (Value.func 9) fuel = Res.ok (Value.func 9)) :=
  reacquire_forgets_override (init Nat) (WF_init Nat) 7 [frameOf 1] (by simp) 42 9

/-! ## Stack capture: `getFrames`, `newScope` -/

theorem getFramesLoop_length :
    ∀ (l a : List frame), (getFramesLoop l a).length = a.length + max 1 l.length := by
  intro l
  induction l with
  | nil =>
    intro a
    simp [getFramesLoop]
  | cons x l ih =>
    intro a
    cases l with
    | nil => simp [getFramesLoop]
    | cons y r =>
      rw [getFramesLoop, ih]
      simp only [List.length_append, List.length_cons, List.length_nil]
      omega

/-- The length of the captured path: the number of frames beyond the skipped
ones, but at least 1 and at most 100. -/
theorem getFrames_length (pl rest : List frame) (skip : Nat) (hpl : pl.length = skip + 2) :
    (getFrames (pl ++ rest) skip).length = max 1 (min 100 rest.length) := by
  have hdrop : (pl ++ rest).drop (skip + 2) = rest := by
    rw [← hpl]
    exact List.drop_left pl rest
  simp only [getFrames, Callers, hdrop, getFramesLoop_length, List.length_nil, List.length_take]
  omega

/-- C13, the code at the failing input: when `runtime.Callers` returns no program
counter, `getFrames` returns the path that holds the zero frame, and `newScope`
on the initial tree allocates a child of the root with entry `0` and returns it,
not the root. -/
theorem newScope_on_exhausted_stack :
    Callers plumbing 3 100 = [] ∧ getFrames plumbing 1 = [zeroFrame] ∧
      newScope (init Nat) plumbing 0 = Res.ok (treeZ, some 1) ∧
      newScope (init Nat) plumbing 0 ≠ Res.ok (init Nat, root) :=
  ⟨rfl, rfl, rfl, by decide⟩

/-- C14, the code at the failing inputs: with the same skip, a stack with
additional inner frames `extra` is captured as a path of the same length as the
stack without them, both when 100 or more frames lie beyond the skipped ones (the
buffer holds 100 program counters) and when none lies beyond them and one frame
is added (the path of the exhausted stack already holds the zero frame). -/
theorem getFrames_same_length (pl extra rest : List frame) (skip : Nat)
    (hpl : pl.length = skip + 2)
    (hcase : 100 ≤ rest.length ∨ (rest = [] ∧ extra.length = 1)) :
    (getFrames (pl ++ (extra ++ rest)) skip).length = (getFrames (pl ++ rest) skip).length := by
  rw [getFrames_length pl (extra ++ rest) skip hpl, getFrames_length pl rest skip hpl]
  rcases hcase with h100 | ⟨hr, he⟩
  · simp only [List.length_append]
    omega
  · subst hr
    simp only [List.append_nil, List.length_nil, he]
    omega

/-- Witness of C14: one frame added to a stack with 100 frames beyond the
skipped ones. -/
theorem getFrames_same_length_witness :
    (getFrames ([frameOf 100, frameOf 101] ++ ([frameOf 7] ++ List.replicate 100 (frameOf 7)))
        0).length
      = (getFrames ([frameOf 100, frameOf 101] ++ List.replicate 100 (frameOf 7)) 0).length :=
  getFrames_same_length [frameOf 100, frameOf 101] [frameOf 7]
    (List.replicate 100 (frameOf 7)) 0 rfl (Or.inl (by simp))

/-- Between these bounds an added inner frame does lengthen the captured path. -/
theorem getFrames_longer (pl extra rest : List frame) (skip : Nat)
    (hpl : pl.length = skip + 2) (hrest : 0 < rest.length) (h100 : rest.length < 100)
    (hextra : extra ≠ []) :
    (getFrames (pl ++ rest) skip).length < (getFrames (pl ++ (extra ++ rest)) skip).length := by
  rw [getFrames_length pl (extra ++ rest) skip hpl, getFrames_length pl rest skip hpl]
  have : 0 < extra.length := List.length_pos.mpr hextra
  simp only [List.length_append]
  omega

/-! ## The rewriter: `rewriteFunc`, `recordParams` -/

theorem printVars_names (vars : List Var) (pkg : Option Package) :
    (printVars vars pkg).2 = vars.map (fun v => v.name) := rfl

theorem recordParams_not_return :
    ∀ (params : List Var), ∀ w ∈ recordParams params, ¬ ∃ rest, w = "\treturn" ++ rest := by
  intro params
  induction params with
  | nil =>
    intro w hw
    simp [recordParams] at hw
  | cons v vs ih =>
    intro w hw
    by_cases hv : v.name = "_"
    · simp only [recordParams, hv, if_true] at hw
      exact ih w hw
    · simp only [recordParams, hv, if_false, List.mem_cons] at hw
      rcases hw with hw | hw
      · rintro ⟨rest, hrest⟩
        rw [hw] at hrest
        have := congrArg (fun s => s.data.take 2) hrest
        simp [String.data_append] at this
      · exact ih w hw

theorem literal_not_return (lit x : String) (hlit : lit.data.take 2 ≠ ['\t', 'r'])
    (hlen : 2 ≤ lit.data.length) : ¬ ∃ rest, lit ++ x = "\treturn" ++ rest := by
  rintro ⟨rest, hrest⟩
  have := congrArg (fun s => s.data.take 2) hrest
  simp only [String.data_append, List.take_append_of_le_length hlen] at this
  apply hlit
  rw [this]
  rfl

theorem forall_mem_app {α : Type} (P : α → Prop) (l1 l2 : List α)
    (h1 : ∀ w ∈ l1, P w) (h2 : ∀ w ∈ l2, P w) : ∀ w ∈ l1 ++ l2, P w := by
  intro w hw
  rcases List.mem_append.mp hw with hw | hw
  · exact h1 w hw
  · exact h2 w hw

theorem forall_mem_one {α : Type} (P : α → Prop) (a : α) (h : P a) : ∀ w ∈ [a], P w := by
  intro w hw
  rw [List.mem_singleton.mp hw]
  exact h

theorem forall_mem_two {α : Type} (P : α → Prop) (a b : α) (ha : P a) (hb : P b) :
    ∀ w ∈ [a, b], P w := by
  intro w hw
  simp only [List.mem_cons, List.mem_singleton, List.not_mem_nil, or_false] at hw
  rcases hw with hw | hw
  · rw [hw]
    exact ha
  · rw [hw]
    exact hb

/-- No write of the body of a stub without results begins a `return` statement. -/
theorem stubBody_no_return (fn : Func)
    (hlen : (printVars fn.sig.results fn.pkg).2.length = 0) :
    ∀ w ∈ stubBody fn, ¬ ∃ rest, w = "\treturn" ++ rest := by
  unfold stubBody
  rw [if_pos hlen]
  apply forall_mem_app
  · apply forall_mem_app
    · apply forall_mem_app
      · apply forall_mem_two
        · exact literal_not_return "\tscope := plugcore.NewScope(1)\n" "" (by decide)
            (by decide)
        · exact literal_not_return "\tdefer scope.Delete()\n" "" (by decide) (by decide)
      · by_cases htp : (typeParamNames fn).length = 0
        · rw [if_pos htp]
          apply forall_mem_app
          · apply forall_mem_app
            · apply forall_mem_two
              · simp only [String.append_assoc]
                exact literal_not_return "\ts := plugcore.Func(" _ (by decide) (by decide)
              · simp only [String.append_assoc]
                exact literal_not_return "\tf := plugcore.Get(scope, s, " _ (by decide)
                  (by decide)
            · exact recordParams_not_return fn.sig.params
          · apply forall_mem_one
            exact literal_not_return "\t\x7d)\n" "" (by decide) (by decide)
        · rw [if_neg htp]
          apply forall_mem_app
          · apply forall_mem_app
            · apply forall_mem_two
              · simp only [String.append_assoc]
                exact literal_not_return "\ts := plugcore.Func(" _ (by decide) (by decide)
              · simp only [String.append_assoc]
                exact literal_not_return "\tf := plugcore.Get(scope, s, " _ (by decide)
                  (by decide)
            · exact recordParams_not_return fn.sig.params
          · apply forall_mem_one
            exact literal_not_return "\t\x7d)\n" "" (by decide) (by decide)
    · apply forall_mem_one
      simp only [String.append_assoc]
      exact literal_not_return "\tf(" _ (by decide) (by decide)
  · apply forall_mem_one
    exact literal_not_return "\x7d\n" "" (by decide) (by decide)

/-- C16: the stub that `rewriteFunc` emits ends with the bare call `f(args)` and
the closing brace when the signature has no results, and with `return f(args)`
and the closing brace when it has results, `args` being the names of all
parameters in declaration order joined by `", "`; and no write of the body of a
zero-result stub begins a `return` statement. -/
theorem stub_ends_with_call (fn : Func) :
    (fn.sig.results = [] →
      (∃ pre, rewriteFunc fn = pre ++
        ["\tf(" ++ String.intercalate ", " (fn.sig.params.map (fun v => v.name)) ++ ")\n",
          "\x7d\n"]) ∧
      ∀ w ∈ stubBody fn, ¬ ∃ rest, w = "\treturn" ++ rest) ∧
    (fn.sig.results ≠ [] →
      ∃ pre, rewriteFunc fn = pre ++
        ["\treturn f(" ++ String.intercalate ", " (fn.sig.params.map (fun v => v.name)) ++ ")\n",
          "\x7d\n"]) := by
  constructor
  · intro hres
    have hlen : (printVars fn.sig.results fn.pkg).2.length = 0 := by
      simp [printVars, hres]
    refine ⟨⟨stubHeader fn ++ (["\tscope := plugcore.NewScope(1)\n",
        "\tdefer scope.Delete()\n"] ++
        (if (typeParamNames fn).length = 0 then
          ["\ts := plugcore.Func(" ++ quote fn.name ++ ", " ++ recvName fn.sig ++ "_"
              ++ fn.fnName ++ ")\n",
            "\tf := plugcore.Get(scope, s, " ++ recvName fn.sig ++ "_" ++ fn.fnName
              ++ ", nil, plugcore.Params\x7b\n"] ++
          recordParams fn.sig.params ++ ["\t\x7d)\n"]
        else
          ["\ts := plugcore.Func(" ++ quote fn.name ++ ", " ++ recvName fn.sig ++ "_"
              ++ fn.fnName ++ "[" ++ String.intercalate ", " (typeParamNames fn) ++ "])\n",
            "\tf := plugcore.Get(scope, s, " ++ recvName fn.sig ++ "_" ++ fn.fnName
              ++ "[" ++ String.intercalate ", " (typeParamNames fn)
              ++ "], nil, plugcore.Params\x7b\n"]
          ++ recordParams fn.sig.params ++ ["\t\x7d)\n"])), ?_⟩,
      stubBody_no_return fn hlen⟩
    unfold rewriteFunc stubBody
    rw [if_pos hlen]
    simp only [printVars_names, List.append_assoc, List.cons_append, List.nil_append]
  · intro hres
    have hlen : ¬ (printVars fn.sig.results fn.pkg).2.length = 0 := by
      simp [printVars, hres]
    refine ⟨stubHeader fn ++ (["\tscope := plugcore.NewScope(1)\n",
        "\tdefer scope.Delete()\n"] ++
        (if (typeParamNames fn).length = 0 then
          ["\ts := plugcore.Func(" ++ quote fn.name ++ ", " ++ recvName fn.sig ++ "_"
              ++ fn.fnName ++ ")\n",
            "\tf := plugcore.Get(scope, s, " ++ recvName fn.sig ++ "_" ++ fn.fnName
              ++ ", nil, plugcore.Params\x7b\n"] ++
          recordParams fn.sig.params ++ ["\t\x7d)\n"]
        else
          ["\ts := plugcore.Func(" ++ quote fn.name ++ ", " ++ recvName fn.sig ++ "_"
              ++ fn.fnName ++ "[" ++ String.intercalate ", " (typeParamNames fn) ++ "])\n",
            "\tf := plugcore.Get(scope, s, " ++ recvName fn.sig ++ "_" ++ fn.fnName
              ++ "[" ++ String.intercalate ", " (typeParamNames fn)
              ++ "], nil, plugcore.Params\x7b\n"]
          ++ recordParams fn.sig.params ++ ["\t\x7d)\n"])), ?_⟩
    unfold rewriteFunc stubBody
    rw [if_neg hlen]
    simp only [printVars_names, List.append_assoc, List.cons_append, List.nil_append]

/-- Witness of C16: `Log` has no results, the method `Len` has one. -/
theorem stub_ends_with_call_witness :
    ((∃ pre, rewriteFunc logFunc = pre ++
        ["\tf(" ++ String.intercalate ", " (logFunc.sig.params.map (fun v => v.name)) ++ ")\n",
          "\x7d\n"]) ∧
      ∀ w ∈ stubBody logFunc, ¬ ∃ rest, w = "\treturn" ++ rest) ∧
    (∃ pre, rewriteFunc lenMethod = pre ++
        ["\treturn f(" ++ String.intercalate ", " (lenMethod.sig.params.map (fun v => v.name))
          ++ ")\n", "\x7d\n"]) :=
  ⟨(stub_ends_with_call logFunc).1 rfl, (stub_ends_with_call lenMethod).2 (by simp [lenMethod])⟩

theorem append_twice_cancel {α : Type} (a b x y : List α)
    (h : a ++ (x ++ (a ++ y)) = b ++ (x ++ (b ++ y))) : a = b := by
  have hl := congrArg List.length h
  simp only [List.length_append] at hl
  have hab : a.length = b.length := by omega
  exact (List.append_inj h hab).1

/-- The map entry that `recordParams` writes determines the parameter name. -/
theorem paramEntry_injective :
    Function.Injective (fun n : String => "\t\t" ++ quote n ++ ": " ++ n ++ ",\n") := by
  intro a b h
  have hd := congrArg String.data h
  simp only [quote, String.data_append] at hd
  have h1 : a.data ++ ("\"".data ++ (": ".data ++ (a.data ++ ",\n".data)))
      = b.data ++ ("\"".data ++ (": ".data ++ (b.data ++ ",\n".data))) := by
    simpa [List.append_assoc] using hd
  have h2 := append_twice_cancel a.data b.data ("\"".data ++ ": ".data) ",\n".data
    (by simpa [List.append_assoc] using h1)
  exact String.ext h2

/-- The loop of `recordParams` as a filter: an entry for every parameter whose
name is not `_`, in order. -/
theorem recordParams_eq_filter (params : List Var) :
    recordParams params
      = (params.filter (fun v => decide (v.name ≠ "_"))).map
          (fun v => "\t\t" ++ quote v.name ++ ": " ++ v.name ++ ",\n") := by
  induction params with
  | nil => rfl
  | cons v vs ih =>
    by_cases hv : v.name = "_"
    · simp only [recordParams, hv, if_true, ih]
      rw [List.filter_cons_of_neg (by simp [hv])]
    · simp only [recordParams, hv, if_false, ih]
      rw [List.filter_cons_of_pos (by simp [hv])]
      rfl

/-- C17, the claim fails: for the parameter list of `func F(int)`, whose one
parameter is unnamed (`Name()` is the empty string), `recordParams` writes the
entry with the empty key, although the list has no named parameter. -/
theorem unnamed_param_is_recorded :
    recordParams [⟨"", GoType.basic "int"⟩] = ["\t\t\"\": ,\n"] ∧
      ([⟨"", GoType.basic "int"⟩] : List Var).filter
          (fun v => decide (v.name ≠ "" ∧ v.name ≠ "_")) = [] ∧
      recordParams [⟨"", GoType.basic "int"⟩]
        ≠ (([⟨"", GoType.basic "int"⟩] : List Var).filter
            (fun v => decide (v.name ≠ "" ∧ v.name ≠ "_"))).map
            (fun v => "\t\t" ++ quote v.name ++ ": " ++ v.name ++ ",\n") := by
  refine ⟨by decide, by simp, by simp [recordParams]⟩

/-- C17 as amended: for a parameter list without an unnamed parameter,
`recordParams` writes one map entry `"name": name,` for each parameter whose name
is not `_`, in declaration order, and nothing for a parameter named `_`; and the
keys of the written entries are exactly the names of the named, non-discarded
parameters: a list of keys gives the written entries if and only if it is that
list of names. -/
theorem recordParams_entries (params : List Var) (hnamed : ∀ v ∈ params, v.name ≠ "") :
    recordParams params
        = (params.filter (fun v => decide (v.name ≠ "_"))).map
            (fun v => "\t\t" ++ quote v.name ++ ": " ++ v.name ++ ",\n") ∧
      ∀ keys : List String,
        recordParams params = keys.map (fun n => "\t\t" ++ quote n ++ ": " ++ n ++ ",\n") ↔
          keys = (params.filter (fun v => decide (v.name ≠ "" ∧ v.name ≠ "_"))).map
            (fun v => v.name) := by
  refine ⟨recordParams_eq_filter params, ?_⟩
  intro keys
  have hf : params.filter (fun v => decide (v.name ≠ "" ∧ v.name ≠ "_"))
      = params.filter (fun v => decide (v.name ≠ "_")) := by
    apply List.filter_congr
    intro v hv
    simp [hnamed v hv]
  have hm : recordParams params
      = ((params.filter (fun v => decide (v.name ≠ "" ∧ v.name ≠ "_"))).map
          (fun v => v.name)).map (fun n => "\t\t" ++ quote n ++ ": " ++ n ++ ",\n") := by
    rw [hf, recordParams_eq_filter, List.map_map]
    rfl
  rw [hm]
  constructor
  · intro h
    exact (List.map_injective_iff.2 paramEntry_injective h).symm
  · intro h
    rw [h]

/-- Witness of C17 as amended: the parameters of `func F(a int, _ string, b bool)`. -/
theorem recordParams_entries_witness :
    (∀ v ∈ ([⟨"a", GoType.basic "int"⟩, ⟨"_", GoType.basic "string"⟩,
        ⟨"b", GoType.basic "bool"⟩] : List Var), v.name ≠ "") ∧
      recordParams [⟨"a", GoType.basic "int"⟩, ⟨"_", GoType.basic "string"⟩,
          ⟨"b", GoType.basic "bool"⟩]
        = ["\t\t\"a\": a,\n", "\t\t\"b\": b,\n"] ∧
      ∀ keys : List String,
        recordParams [⟨"a", GoType.basic "int"⟩, ⟨"_", GoType.basic "string"⟩,
            ⟨"b", GoType.basic "bool"⟩]
          = keys.map (fun n => "\t\t" ++ quote n ++ ": " ++ n ++ ",\n") ↔
        keys = ["a", "b"] :=
  ⟨by simp, by decide,
    (recordParams_entries [⟨"a", GoType.basic "int"⟩, ⟨"_", GoType.basic "string"⟩,
      ⟨"b", GoType.basic "bool"⟩] (by simp)).2⟩

/-- C18, the code at the failing input: for the method `func (p Point) Len() int`
with a value receiver of the named struct type `Point`, `rewriteFunc` prints the
receiver with the underlying type, `(p struct{X int})`, not with the declared
type, which `typeStr` prints as `Point`; a pointer receiver is printed `*Point`. -/
theorem value_receiver_prints_underlying :
    stubHeader lenMethod
        = ["func ", "(p struct\x7bX int\x7d) ", "Len", "(", ") (", " int,", ") \x7b\n"] ∧
      typeStr pointType (some geom) = "Point" ∧
      typeStr (GoType.pointer pointType).Underlying (some geom) = "*Point" := by
  refine ⟨by decide, by decide, by decide⟩

/-! ## The invariant along histories -/

theorem rangeRefers_mono {K : Type}
    (del del1 : Heap K → Option Nat → Res (Heap K) (Panic × Heap K))
    (hmono : ∀ h s x, del h s = Res.ok x → del1 h s = Res.ok x) (a : Nat) :
    ∀ (ks : List Nat) (h x : Heap K), rangeRefers del a ks h = Res.ok x →
      rangeRefers del1 a ks h = Res.ok x := by
  intro ks
  induction ks with
  | nil =>
    intro h x hr
    exact hr
  | cons e ks ih =>
    intro h x hr
    cases hN : h[a]? with
    | none => simp [rangeRefers, hN] at hr
    | some N =>
      cases hm : N.refers with
      | none =>
        simp only [rangeRefers, hN, hm] at hr ⊢
        exact hr
      | some m =>
        cases hl : alookup e m with
        | none =>
          simp only [rangeRefers, hN, hm, hl] at hr ⊢
          exact ih h x hr
        | some p =>
          cases hd : del h p with
          | ok h1 =>
            simp only [rangeRefers, hN, hm, hl, hd, hmono h p h1 hd] at hr ⊢
            exact ih h1 x hr
          | panic b => simp [rangeRefers, hN, hm, hl, hd] at hr
          | timeout => simp [rangeRefers, hN, hm, hl, hd] at hr

/-- More fuel does not change a result of `Delete`. -/
theorem Delete_mono {K : Type} :
    ∀ (fuel fuel1 : Nat) (h : Heap K) (s : Option Nat) (x : Heap K), fuel ≤ fuel1 →
      Scope.Delete fuel h s = Res.ok x → Scope.Delete fuel1 h s = Res.ok x := by
  intro fuel
  induction fuel with
  | zero =>
    intro fuel1 h s x _ hd
    simp [Scope.Delete] at hd
  | succ n ih =>
    intro fuel1 h s x hle hd
    obtain ⟨n1, rfl⟩ : ∃ n1, fuel1 = n1 + 1 := ⟨fuel1 - 1, by omega⟩
    cases s with
    | none => simp [Scope.Delete] at hd
    | some a =>
      cases hN : h[a]? with
      | none => simp [Scope.Delete, hN] at hd
      | some N =>
        rw [Scope.Delete] at hd ⊢
        simp only [hN] at hd ⊢
        cases hr : rangeRefers (fun h' p => Scope.Delete n h' p) a
            (match N.refers with
              | none => []
              | some m => m.map Prod.fst)
            (h.set a { N with mocks := N.mocks.map (fun _ => []) }) with
        | ok h2 =>
          have hr1 := rangeRefers_mono (fun h' p => Scope.Delete n h' p)
            (fun h' p => Scope.Delete n1 h' p)
            (fun h' s' x' hx => ih n1 h' s' x' (by omega) hx) a _ _ h2 hr
          rw [hr] at hd
          rw [hr1]
          exact hd
        | panic b =>
          rw [hr] at hd
          cases hd
        | timeout =>
          rw [hr] at hd
          cases hd

theorem set_ok_form {K : Type} [DecidableEq K] {h h1 : Heap K} {s : Option Nat} {k : K}
    {v : Value} (hs : Scope.set h s k v = Res.ok h1) :
    ∃ a N m, h[a]? = some N ∧ N.mocks = some m ∧
      h1 = h.set a { N with mocks := some (ainsert k v m) } := by
  cases hv : mustFunc v with
  | panic e => simp [Scope.set, hv] at hs
  | timeout => simp [Scope.set, hv] at hs
  | ok w =>
    cases s with
    | none => simp [Scope.set, hv] at hs
    | some a =>
      cases hN : h[a]? with
      | none => simp [Scope.set, hv, hN] at hs
      | some N =>
        cases hm : N.mocks with
        | none => simp [Scope.set, hv, hN, hm] at hs
        | some m =>
          simp only [Scope.set, hv, hN, hm, Res.ok.injEq] at hs
          exact ⟨a, N, m, hN, hm, hs.symm⟩

theorem Grow_set_mocks_back {K : Type} (h : Heap K) (a : Nat) (N : Scope K)
    (mk : Option (List (K × Value))) (ha : h[a]? = some N) :
    Grow (h.set a { N with mocks := mk }) h := by
  intro b B hB
  rw [set_getElem h a N _ ha b] at hB
  by_cases hba : b = a
  · subst hba
    simp only [if_true, Option.some.injEq] at hB
    subst hB
    exact ⟨N, ha, rfl, rfl, fun _ _ hc => hc⟩
  · simp only [hba, if_false] at hB
    exact ⟨B, hB, rfl, rfl, fun _ _ hc => hc⟩

theorem Live_grow {K : Type} {h h1 : Heap K} (hg : Grow h h1) {a : Nat} {path : List Nat}
    (hl : Live h a path) : Live h1 a path := by
  obtain ⟨c, hc, hent⟩ := hl
  exact ⟨c, Seg_grow hg c _ _ hc, by rw [entryOf_map_grow hg c _ _ hc]; exact hent⟩

theorem mem_nonEmptyPrefixes (l path : List Nat) :
    path ∈ nonEmptyPrefixes l ↔ ∃ k, k < l.length ∧ path = l.take (k + 1) := by
  simp only [nonEmptyPrefixes, List.mem_map, List.mem_range]
  constructor
  · rintro ⟨k, hk, rfl⟩
    exact ⟨k, hk, rfl⟩
  · rintro ⟨k, hk, rfl⟩
    exact ⟨k, hk, rfl⟩

/-- A chain whose entries spell `p1 ++ p2` passes through a node whose chain
spells `p1`. -/
theorem chain_split_path {K : Type} (h : Heap K) (c : List Nat) (s : Option Nat)
    (p1 p2 : List Nat) (hs : Seg h s c root)
    (hent : c.map (entryOf h) = ((p1 ++ p2).map some).reverse) :
    ∃ c1 c2 m, c = c1 ++ c2 ∧ Seg h s c1 m ∧ Seg h m c2 root ∧
      c2.map (entryOf h) = (p1.map some).reverse := by
  rw [List.map_append, List.reverse_append] at hent
  obtain ⟨c1, c2, hc, _, h2⟩ := List.map_eq_append_iff.mp hent
  subst hc
  obtain ⟨m, s1, s2⟩ := seg_append_split h c1 c2 s root hs
  exact ⟨c1, c2, m, rfl, s1, s2, h2⟩

theorem Live_of_take {K : Type} {h : Heap K} {r : Nat} {pe : List Nat} (hl : Live h r pe)
    (k : Nat) (hk : k < pe.length) : ∃ a, Live h a (pe.take (k + 1)) := by
  obtain ⟨c, hc, hent⟩ := hl
  have hpe : pe = pe.take (k + 1) ++ pe.drop (k + 1) := (List.take_append_drop (k + 1) pe).symm
  rw [hpe] at hent
  obtain ⟨c1, c2, m, _, _, s2, h2⟩ := chain_split_path h c (some r) _ _ hc hent
  have hlen := map_length_eq _ _ c2 (pe.take (k + 1)) h2
  cases c2 with
  | nil =>
    simp only [List.length_nil, List.length_take] at hlen
    omega
  | cons x c2 =>
    have hm : m = some x := s2.1
    subst hm
    exact ⟨x, x :: c2, s2, h2⟩

/-- Every node that `lookupScope` allocates lies on a chain down to the start
node whose entries spell a non-empty prefix of the path. -/
theorem new_node_path {K : Type} :
    ∀ (p : List frame) (h : Heap K) (a : Nat), WF h → a < h.length →
      ∀ (h1 : Heap K) (r : Option Nat), lookupScope h (some a) p = Res.ok (h1, r) →
        ∀ b, h.length ≤ b → b < h1.length →
          ∃ cb k, k < p.length ∧ Seg h1 (some b) cb (some a) ∧
            cb.map (entryOf h1) = ((p.take (k + 1)).map (fun fr => some fr.entry)).reverse := by
  intro p
  induction p with
  | nil =>
    intro h a _ _ h1 r hl b hb1 hb2
    simp only [lookupScope, Res.ok.injEq, Prod.mk.injEq] at hl
    rw [← hl.1] at hb2
    omega
  | cons fr p ih =>
    intro h a hw ha h1 r hl b hb1 hb2
    obtain ⟨h2, b0, C, hw2, _, hC, hCe, hCp, hab, hstep, hcase⟩ :=
      lookupScope_step h hw a ha fr p
    rw [hstep] at hl
    have hx1 : Ext h2 h1 := lookupScope_ext p h2 (some b0) h1 r hl
    obtain ⟨C1, hC1, hCe1, hCp1, _, _⟩ := hx1.2.1 b0 C hC
    have hbase : Seg h1 (some b0) [b0] (some a) :=
      ⟨rfl, by omega, C1, hC1, by rw [hCp1, hCp]; rfl⟩
    have hbent : entryOf h1 b0 = some fr.entry := by
      simp [entryOf, hC1, hCe1, hCe]
    have hdeep : h2.length ≤ b → ∃ cb k, k < (fr :: p).length ∧ Seg h1 (some b) cb (some a) ∧
        cb.map (entryOf h1)
          = (((fr :: p).take (k + 1)).map (fun fr => some fr.entry)).reverse := by
      intro hb
      obtain ⟨cb, k, hk, hseg, hent⟩ := ih h2 b0 hw2 (getElem?_lt hC) h1 r hl b hb hb2
      refine ⟨cb ++ [b0], k + 1, by simp only [List.length_cons]; omega,
        Seg_append h1 cb [b0] _ _ _ hseg hbase, ?_⟩
      simp only [List.map_append, List.map_cons, List.map_nil, hent, hbent, List.take_succ_cons,
        List.reverse_cons]
    rcases hcase with ⟨hh, _⟩ | ⟨hlen, hb0, _⟩
    · subst hh
      exact hdeep hb1
    · by_cases hbb : b = b0
      · subst hbb
        refine ⟨[b], 0, by simp, hbase, ?_⟩
        simp [hbent]
      · exact hdeep (by omega)

/-- A live node is found by `lookupScope` along its path, and nothing is
allocated on the way. -/
theorem lookup_of_live {K : Type} {h : Heap K} (hw : WF h) :
    ∀ (c : List Nat) (s : Option Nat) (p : List frame), Seg h s c root →
      c.map (entryOf h) = (p.map (fun fr => some fr.entry)).reverse →
      lookupScope h root p = Res.ok (h, s) := by
  intro c
  induction c with
  | nil =>
    intro s p hs hent
    simp only [Seg] at hs
    subst hs
    cases p with
    | nil => rfl
    | cons fr p => simp at hent
  | cons a c ih =>
    intro s p hs hent
    obtain ⟨hsa, ha, N, hN, hrest⟩ := hs
    subst hsa
    rcases List.eq_nil_or_concat p with hp | ⟨L, fr, hp⟩
    · subst hp
      simp at hent
    · subst hp
      simp only [List.concat_eq_append, List.map_append, List.map_cons, List.map_nil,
        List.reverse_append, List.reverse_cons, List.reverse_nil, List.nil_append,
        List.singleton_append, List.cons.injEq] at hent
      obtain ⟨he, htl⟩ := hent
      have hNe : N.entry = fr.entry := by
        simpa [entryOf, hN] using he
      obtain ⟨q, hq⟩ : ∃ q, N.parent = some q := by
        cases c with
        | nil => exact ⟨0, hrest⟩
        | cons x c => exact ⟨x, hrest.1⟩
      obtain ⟨_, Q, hQ, hQc⟩ := hw.up a N q hN ha hq
      rw [List.concat_eq_append, lookupScope_append, ih N.parent L hrest htl, hq]
      rw [hNe] at hQc
      simp only [lookupScope, hQ, hQc]

/-- A node below `a` has `a` on its chain to the root. -/
theorem Desc_mem_chain {K : Type} {h : Heap K} (hw : WF h) {a x : Nat} (ha : a ≠ 0)
    (hd : Desc h a x) :
    ∀ (cx : List Nat), Seg h (some x) cx root → a ∈ cx := by
  induction hd with
  | refl =>
    intro cx hs
    cases cx with
    | nil =>
      simp only [Seg, root, Option.some.injEq] at hs
      exact absurd hs ha
    | cons y cy =>
      have : a = y := by simpa using hs.1
      rw [this]
      exact List.mem_cons_self y cy
  | step b q N hN hp _ ih =>
    intro cx hs
    cases cx with
    | nil =>
      simp only [Seg, root, Option.some.injEq] at hs
      subst hs
      obtain ⟨R, hR, _, hRp⟩ := hw.root
      rw [hN] at hR
      cases hR
      rw [hp] at hRp
      cases hRp
      have := ih [] rfl
      cases this
    | cons y cy =>
      obtain ⟨hy, _, M, hM, hrest⟩ := hs
      have hby : b = y := by simpa using hy
      subst hby
      rw [hN] at hM
      cases hM
      rw [hp] at hrest
      exact List.mem_cons_of_mem b (ih cy hrest)

/-- A chain to the root that avoids the deleted subtree is a chain after `Delete`. -/
theorem Seg_deleted_keep {K : Type} {h h1 : Heap K} {n e p : Nat} (hD : Deleted h n e p h1) :
    ∀ (c : List Nat) (s : Option Nat), Seg h s c root → (∀ x ∈ c, ¬ Desc h n x) →
      Seg h1 s c root ∧ c.map (entryOf h1) = c.map (entryOf h) := by
  intro c
  induction c with
  | nil =>
    intro s hs _
    exact ⟨hs, rfl⟩
  | cons a c ih =>
    intro s hs hav
    obtain ⟨hsa, ha, N, hN, hrest⟩ := hs
    obtain ⟨_, x2, x3⟩ := hD.2 a N hN
    have hnd : ¬ Desc h n a := hav a (List.mem_cons_self a c)
    obtain ⟨N1, hN1, he, hp⟩ : ∃ N1, h1[a]? = some N1 ∧ N1.entry = N.entry ∧
        N1.parent = N.parent := by
      by_cases hap : a = p
      · exact ⟨_, x3 hap, rfl, rfl⟩
      · exact ⟨N, x2 hnd hap, rfl, rfl⟩
    obtain ⟨ih1, ih2⟩ := ih N.parent hrest (fun x hx => hav x (List.mem_cons_of_mem a hx))
    refine ⟨⟨hsa, ha, N1, hN1, by rw [hp]; exact ih1⟩, ?_⟩
    simp only [List.map_cons, ih2]
    congr 1
    simp [entryOf, hN, hN1, he]

/-- A node on the chain of a live node has a path that is a prefix of the path
of that node. -/
theorem chain_member_path {K : Type} {h : Heap K} {a b : Nat} {path q : List Nat}
    {cb : List Nat} (ha : Live h a path) (hb : Seg h (some b) cb root)
    (hent : cb.map (entryOf h) = (q.map some).reverse) (hmem : a ∈ cb) : path <+: q := by
  obtain ⟨ca, hca, henta⟩ := ha
  obtain ⟨pre, post, hsplit⟩ := List.append_of_mem hmem
  subst hsplit
  obtain ⟨m, _, hs2⟩ := seg_append_split h pre (a :: post) (some b) root hb
  have hm : m = some a := hs2.1
  subst hm
  have hceq : a :: post = ca := Seg_functional h _ _ (some a) hs2 hca
  rw [List.map_append, hceq, henta] at hent
  have hrev := congrArg List.reverse hent
  simp only [List.reverse_append, List.reverse_reverse] at hrev
  exact prefix_of_map_some _ _ (pre.map (entryOf h)).reverse hrev.symm

theorem map_some_reverse_inj {l1 l2 : List Nat}
    (hl : (l1.map some).reverse = (l2.map some).reverse) : l1 = l2 := by
  have h1 := List.reverse_injective hl
  exact List.map_injective_iff.mpr (Option.some_injective Nat) h1

/-- Along every history the tree is well-formed and the paths of its live
non-root nodes are the acquired paths that have not been deleted. -/
theorem Run_inv {K : Type} [DecidableEq K] {h : Heap K} {P : List (List Nat)}
    (hr : Run h P) :
    WF h ∧ ∀ path, path ≠ [] → (path ∈ P ↔ ∃ a, Live h a path) := by
  induction hr with
  | init =>
    refine ⟨WF_init K, ?_⟩
    intro path hpath
    constructor
    · intro hmem
      cases hmem
    · rintro ⟨a, c, hc, hent⟩
      have hlen := map_length_eq _ _ c path hent
      cases c with
      | nil =>
        cases path with
        | nil => exact absurd rfl hpath
        | cons x xs => simp at hlen
      | cons y c =>
        obtain ⟨_, hy, N, hN, _⟩ := hc
        cases y with
        | zero => exact absurd rfl hy
        | succ y1 => simp [init] at hN
  | acquire h P p h1 r _ hl ih =>
    obtain ⟨hw, hiff⟩ := ih
    obtain ⟨h1x, rx, c, hlx, hw1, _, hseg, hent, _, _⟩ := lookupScope_spec p h 0 hw hw.length_pos
    have hlx0 : lookupScope h root p = Res.ok (h1x, some rx) := hlx
    rw [hl] at hlx0
    simp only [Res.ok.injEq, Prod.mk.injEq] at hlx0
    obtain ⟨hh, hrr⟩ := hlx0
    subst hh hrr
    have hx : Ext h h1 := lookupScope_ext p h root h1 (some rx) hl
    have hlive : Live h1 rx (p.map (fun fr => fr.entry)) :=
      ⟨c, hseg, by rw [hent, List.map_map]; rfl⟩
    refine ⟨hw1, ?_⟩
    intro path hpath
    constructor
    · intro hmem
      rcases List.mem_append.mp hmem with hmem | hmem
      · obtain ⟨a, ha⟩ := (hiff path hpath).mp hmem
        exact ⟨a, Live_grow hx.grow ha⟩
      · obtain ⟨k, hk, rfl⟩ := (mem_nonEmptyPrefixes _ _).mp hmem
        exact Live_of_take hlive k hk
    · rintro ⟨a, ca, hca, henta⟩
      by_cases hold : a < h.length
      · obtain ⟨s0, e0⟩ := Seg_restrict hw1 hx ca (some a) hca
          (by intro b hb; cases hb; exact hold)
        exact List.mem_append_left _ ((hiff path hpath).mpr ⟨a, ca, s0, by rw [e0]; exact henta⟩)
      · have hlen := map_length_eq _ _ ca path henta
        have ha1 : a < h1.length := by
          cases ca with
          | nil =>
            cases path with
            | nil => exact absurd rfl hpath
            | cons x xs => simp at hlen
          | cons y cy =>
            obtain ⟨hy, _, N, hN, _⟩ := hca
            have : a = y := by simpa using hy
            rw [this]
            exact getElem?_lt hN
        obtain ⟨cb, k, hk, hsegb, hentb⟩ :=
          new_node_path p h 0 hw hw.length_pos h1 (some rx) hl a (by omega) ha1
        have hceq : ca = cb := Seg_functional h1 ca cb (some a) hca hsegb
        subst hceq
        rw [henta] at hentb
        have hpe : path = (p.map (fun fr => fr.entry)).take (k + 1) := by
          apply map_some_reverse_inj
          rw [hentb, ← List.map_take, List.map_map]
          rfl
        apply List.mem_append_right
        exact (mem_nonEmptyPrefixes _ _).mpr ⟨k, by simpa using hk, hpe⟩
  | set h P s k v h1 _ hs ih =>
    obtain ⟨hw, hiff⟩ := ih
    obtain ⟨a, N, m, hN, hm, rfl⟩ := set_ok_form hs
    refine ⟨WF_update_mocks hw a N _ hN rfl rfl rfl (by simp), ?_⟩
    intro path hpath
    rw [hiff path hpath]
    constructor
    · rintro ⟨b, hb⟩
      exact ⟨b, Live_grow (Grow_set_mocks h a N _ hN) hb⟩
    · rintro ⟨b, hb⟩
      exact ⟨b, Live_grow (Grow_set_mocks_back h a N _ hN) hb⟩
  | get h P s k d fuel r _ _ ih => exact ih
  | delete h P a path fuel h1 _ ha0 hlive hdel ih =>
    obtain ⟨hw, hiff⟩ := ih
    have hlive0 := hlive
    obtain ⟨ca, hca, henta⟩ := hlive
    cases ca with
    | nil =>
      simp only [IsChain, Seg, root, Option.some.injEq] at hca
      exact absurd hca ha0
    | cons y cy =>
      obtain ⟨hy, _, N, q, hN, hq⟩ := Seg_head_live hca
      have hay : y = a := by simpa using hy.symm
      subst hay
      have hpath : path ≠ [] := by
        intro hp
        subst hp
        simp at henta
      obtain ⟨h1x, hw1, hD, htot⟩ := Delete_total h hw y q N hN ha0 hq
      have h1eq : h1 = h1x := by
        have e1 := Delete_mono fuel (max fuel h.length) h (some y) h1 (le_max_left _ _) hdel
        have e2 := htot (max fuel h.length) (by
          have := le_max_right fuel h.length
          omega)
        rw [e1] at e2
        exact Res.ok.inj e2
      subst h1eq
      refine ⟨hw1, ?_⟩
      intro q1 hq1
      simp only [List.mem_filter, decide_eq_true_eq]
      constructor
      · rintro ⟨hmem, hnp⟩
        obtain ⟨b, cb, hcb, hentb⟩ := (hiff q1 hq1).mp hmem
        have hav : ∀ x ∈ cb, ¬ Desc h y x := by
          intro x hx hd
          obtain ⟨pre, post, hsplit⟩ := List.append_of_mem hx
          subst hsplit
          obtain ⟨m, _, hs2⟩ := seg_append_split h pre (x :: post) (some b) root hcb
          have hm : m = some x := hs2.1
          subst hm
          have hmem2 : y ∈ x :: post := Desc_mem_chain hw ha0 hd (x :: post) hs2
          exact hnp (chain_member_path hlive0 hcb hentb
            (List.mem_append_right pre hmem2))
        obtain ⟨s1, e1⟩ := Seg_deleted_keep hD cb (some b) hcb hav
        exact ⟨b, cb, s1, by rw [e1]; exact hentb⟩
      · rintro ⟨b, cb, hcb, hentb⟩
        obtain ⟨s0, e0, hav⟩ := Seg_undelete hD cb (some b) hcb
        have hentb0 : cb.map (entryOf h) = (q1.map some).reverse := by
          rw [e0]
          exact hentb
        refine ⟨(hiff q1 hq1).mpr ⟨b, cb, s0, hentb0⟩, ?_⟩
        rintro ⟨rest, hrest⟩
        rw [← hrest] at hentb0
        obtain ⟨c1, c2, m, hsplit, _, s2, h2⟩ :=
          chain_split_path h cb (some b) path rest s0 hentb0
        obtain ⟨hmy, hceq⟩ :=
          chain_unique hw c2 (y :: cy) m (some y) s2 hca (by rw [h2, henta])
        subst hsplit
        exact hav y (List.mem_append_right c1 (by rw [hceq]; exact List.mem_cons_self y cy))
          Desc.refl

/-- C19: along every history from the initial tree (`lookupScope(&root, p)`,
`set`, `get`, `Delete` on live non-root nodes) the tree is well-formed: the root
is its own parent, and every entry `e -> c` of the child table of a node `n`
points to a node with entry `e` and parent `n`.  Hence a path reaches at most one
live node, a live node has one path, `lookupScope` finds it along that path
without allocating, and the non-empty paths of the live nodes are the acquired
paths that have not been deleted: the tree is their prefix-trie. -/
theorem tree_invariant {K : Type} [DecidableEq K] (h : Heap K) (P : List (List Nat))
    (hr : Run h P) :
    WF h ∧
    (∃ R, h[0]? = some R ∧ R.parent = some 0) ∧
    (∀ (n : Nat) (N : Scope K) (m : List (Nat × Option Nat)) (e : Nat) (c : Option Nat),
      h[n]? = some N → N.refers = some m → alookup e m = some c →
      ∃ (b : Nat) (C : Scope K), c = some b ∧ h[b]? = some C ∧ C.entry = e ∧
        C.parent = some n) ∧
    (∀ a b path, Live h a path → Live h b path → a = b) ∧
    (∀ a p1 p2, Live h a p1 → Live h a p2 → p1 = p2) ∧
    (∀ a path, Live h a path → lookupScope h root (path.map frameOf) = Res.ok (h, some a)) ∧
    (∀ path, path ≠ [] → (path ∈ P ↔ ∃ a, Live h a path)) := by
  obtain ⟨hw, hiff⟩ := Run_inv hr
  refine ⟨hw, ?_, ?_, ?_, ?_, ?_, hiff⟩
  · obtain ⟨R, hR, _, hRp⟩ := hw.root
    exact ⟨R, hR, hRp⟩
  · intro n N m e c hN hm hl
    obtain ⟨b, C, hb, _, hC, hCe, hCp⟩ := hw.down n N m e c hN hm hl
    exact ⟨b, C, hb, hC, hCe, hCp⟩
  · rintro a b path ⟨ca, hca, henta⟩ ⟨cb, hcb, hentb⟩
    have := (chain_unique hw ca cb (some a) (some b) hca hcb (by rw [henta, hentb])).1
    exact Option.some.inj this
  · rintro a p1 p2 ⟨c1, hc1, hent1⟩ ⟨c2, hc2, hent2⟩
    have hc : c1 = c2 := Seg_functional h c1 c2 (some a) hc1 hc2
    subst hc
    exact map_some_reverse_inj (hent1.symm.trans hent2)
  · rintro a path ⟨ca, hca, henta⟩
    apply lookup_of_live hw ca (some a) (path.map frameOf) hca
    rw [henta, List.map_map]
    rfl

/-- Witness of C19: the history that acquires the path `[1]`. -/
theorem tree_invariant_witness :
    WF treeA ∧
    (∃ R, treeA[0]? = some R ∧ R.parent = some 0) ∧
    (∀ (n : Nat) (N : Scope Nat) (m : List (Nat × Option Nat)) (e : Nat) (c : Option Nat),
      treeA[n]? = some N → N.refers = some m → alookup e m = some c →
      ∃ (b : Nat) (C : Scope Nat), c = some b ∧ treeA[b]? = some C ∧ C.entry = e ∧
        C.parent = some n) ∧
    (∀ a b path, Live treeA a path → Live treeA b path → a = b) ∧
    (∀ a p1 p2, Live treeA a p1 → Live treeA a p2 → p1 = p2) ∧
    (∀ a path, Live treeA a path →
      lookupScope treeA root (path.map frameOf) = Res.ok (treeA, some a)) ∧
    (∀ path, path ≠ [] →
      (path ∈ [] ++ nonEmptyPrefixes ([frameOf 1].map (fun fr => fr.entry)) ↔
        ∃ a, Live treeA a path)) :=
  tree_invariant treeA ([] ++ nonEmptyPrefixes ([frameOf 1].map (fun fr => fr.entry)))
    (Run.acquire (init Nat) [] [frameOf 1] treeA (some 1) Run.init rfl)

end Plug
